import Mathlib

/-!
# pico_lib_onewire: the CRC validator and the ROM search

A shallow embedding of `src/onewire.c` (`onewire_init`, `onewire_read`,
`onewire_send`, `onewire_reset`, `onewire_check_crc`, `onewire_bus_scan`) and
theorems about it.

Conventions of the embedding:

* `uint8_t`, `uint32_t` and `uint64_t` values are natural numbers; where the C
  code truncates, the embedding reduces modulo `2 ^ 8`, `2 ^ 32` or `2 ^ 64`.
* `int` values (`index`, `branch_point`, `next_branch_point`, `num_found`,
  `maxdevs`) are integers. Signed overflow is undefined in C; `num_found` only
  grows by one per pass, so the embedding describes every run of fewer than
  `2 ^ 31` passes.
* A `onewire_id_t` is its `raw` 64-bit value; `family` is bits 0..7, `serial`
  bits 8..55 and `crc` bits 56..63 (the layout the header documents).
* The pico-sdk calls are a parameter (`Hw`): an arbitrary state machine. Every
  bus transaction is also recorded in a ghost trace of `Event`s.
* The `while` loop of `onewire_bus_scan` need not terminate on arbitrary
  hardware, so it is run with a bound `fuel` on the number of passes.
* `sim_hw` is a simulated wired-AND bus holding a list of devices; the theorems
  about enumeration are stated on it, the others on arbitrary hardware.
* The calls made by `onewire_init` are a second parameter (`Sdk`); the static
  arrays and the instance allocated are part of an explicit state.
* Polynomials over GF(2) are bit masks: bit `k` is the coefficient of `x^k`.
-/

namespace Onewire

/-! ## CRC validator -/

/-- One iteration of the `for` loop of `onewire_check_crc`: the pair is
`(id.raw, crc)`. -/
def crc_iter (st : Nat × Nat) : Nat × Nat :=
  if ((st.1 &&& 0x01) ^^^ (st.2 &&& 0x01)) ≠ 0 then
    (st.1 >>> 1, ((st.2 >>> 1) ^^^ 0x8c) % 256)
  else
    (st.1 >>> 1, st.2 >>> 1)

/-- The `for` loop of `onewire_check_crc`, run `n` times. -/
def crc_loop : Nat → Nat × Nat → Nat × Nat
  | 0, st => st
  | n + 1, st => crc_loop n (crc_iter st)

/-- The bit-field `id.crc`: bits 56..63 of the raw value. -/
def id_crc (raw : Nat) : Nat := (raw >>> 56) % 256

/-- Embedding of `onewire_check_crc`. -/
def onewire_check_crc (raw : Nat) : Bool :=
  let crc := (crc_loop 56 (raw, 0)).2
  id_crc raw == crc

/-- Reference CRC-8 step, following the words of the specification: input
bit `x`, register `crc`. -/
def crc8_step (crc : Nat) (x : Bool) : Nat :=
  if (x != crc.testBit 0) then (crc >>> 1) ^^^ 0x8C else crc >>> 1

/-- Reference CRC-8 over the first `n` bits of `p`, least significant first,
starting from register `0`. -/
def crc8_bits (n : Nat) (p : Nat) : Nat :=
  ((List.range n).map p.testBit).foldl crc8_step 0

/-- Reference CRC-8 of a 56-bit payload. -/
def crc8 (p : Nat) : Nat := crc8_bits 56 p

/-! ## Transport -/

/-- The pico-sdk and PIO driver calls used by the library, as operations on
an arbitrary hardware state `σ`. The `PIO` handle is the state itself. -/
structure Hw (σ : Type) where
  /-- The call `pio_sm_put_blocking (pio, sm, data)`. -/
  pio_sm_put_blocking : Nat → Nat → σ → σ
  /-- The call `pio_sm_get_blocking (pio, sm)`: the word read and the new state. -/
  pio_sm_get_blocking : Nat → σ → Nat × σ
  /-- The call `pio_sm_exec_wait_blocking (pio, sm, instr)`. -/
  pio_sm_exec_wait_blocking : Nat → Nat → σ → σ
  /-- The call `onewire_driver_init (pio, sm, offset, gpio, bits)`. -/
  onewire_driver_init : Nat → Int → Nat → Nat → σ → σ

/-- The fields of `struct onewire_instance_t` other than the `PIO` handle. -/
structure onewire_instance_t where
  sm : Nat
  offset : Int
  jmp_reset : Nat
  gpio : Nat

/-- What the library does at its interfaces, in program order. -/
inductive Event where
  /-- A call of `onewire_driver_init` with the given number of bits. -/
  | driver_init (bits : Nat)
  /-- A call of `onewire_reset` and what it returned. -/
  | reset (present : Bool)
  /-- A call of `onewire_send` and the byte handed to it. -/
  | send (data : Nat)
  /-- A call of `onewire_read` and the value it returned. -/
  | read (value : Nat)
  /-- An assignment `device_id_list[index] = id`. -/
  | store (index : Int) (id : Nat)
  deriving DecidableEq, Repr

/-- The hardware state together with the ghost trace of events so far. -/
structure World (σ : Type) where
  hw : σ
  trace : List Event

variable {σ : Type}

/-- Embedding of `onewire_read`. -/
def onewire_read (H : Hw σ) (ow : onewire_instance_t) (w : World σ) : Nat × World σ :=
  let s1 := H.pio_sm_put_blocking ow.sm 0b11111111 w.hw
  let r := H.pio_sm_get_blocking ow.sm s1
  let v := ((r.1 % 2 ^ 32) >>> 24) % 256
  (v, { hw := r.2, trace := w.trace ++ [Event.read v] })

/-- Embedding of `onewire_send`; `data` is a `uint8_t`. -/
def onewire_send (H : Hw σ) (ow : onewire_instance_t) (data : Nat) (w : World σ) : World σ :=
  let s1 := H.pio_sm_put_blocking ow.sm (data % 256) w.hw
  let r := H.pio_sm_get_blocking ow.sm s1
  { hw := r.2, trace := w.trace ++ [Event.send (data % 256)] }

/-- Embedding of `onewire_reset`. -/
def onewire_reset (H : Hw σ) (ow : onewire_instance_t) (w : World σ) : Bool × World σ :=
  let s1 := H.pio_sm_exec_wait_blocking ow.sm ow.jmp_reset w.hw
  let r := H.pio_sm_get_blocking ow.sm s1
  let present := if ((r.1 % 2 ^ 32) &&& 1) = 0 then true else false
  (present, { hw := r.2, trace := w.trace ++ [Event.reset present] })

/-- The two calls of `onewire_driver_init` made by the scan. -/
def driver_init (H : Hw σ) (ow : onewire_instance_t) (bits : Nat) (w : World σ) : World σ :=
  { hw := H.onewire_driver_init ow.sm ow.offset ow.gpio bits w.hw,
    trace := w.trace ++ [Event.driver_init bits] }

/-! ## ROM search -/

/-- The local variables of `onewire_bus_scan` that live across iterations. -/
structure Locals where
  device_id : Nat
  branch_point : Int
  next_branch_point : Int
  num_found : Int
  finished : Bool
  deriving DecidableEq, Repr

/-- The search-command loop `for (i = 0; i < 8; i += 1)`, from `i` for `n`
iterations: `onewire_send (ow, search_command >> i)`. -/
def send_command (H : Hw σ) (ow : onewire_instance_t) (search_command : Nat) :
    Nat → Nat → World σ → World σ
  | 0, _, w => w
  | n + 1, i, w =>
    send_command H ow search_command n (i + 1) (onewire_send H ow (search_command >>> i) w)

/-- The body of the address loop at `index`. The Boolean is `false` when the
body ends in `break`. -/
def address_step (H : Hw σ) (ow : onewire_instance_t) (index : Nat) (l : Locals)
    (w : World σ) : Bool × Locals × World σ :=
  let ra := onewire_read H ow w
  let rb := onewire_read H ow ra.2
  let a := ra.1
  let b := rb.1
  let w2 := rb.2
  if a = 0 ∧ b = 0 then
    if (index : Int) = l.branch_point then
      (true, { l with device_id := l.device_id ||| (1 <<< index) }, onewire_send H ow 1 w2)
    else if (index : Int) > l.branch_point ∨ (l.device_id &&& (1 <<< index)) = 0 then
      (true,
        { l with
          finished := false
          device_id := l.device_id &&& ((2 ^ 64 - 1) ^^^ (1 <<< index))
          next_branch_point := index },
        onewire_send H ow 0 w2)
    else
      (true, l, onewire_send H ow 1 w2)
  else if a ≠ 0 ∧ b ≠ 0 then
    (false, { l with num_found := -2, finished := true }, w2)
  else if a = 0 then
    (true, { l with device_id := l.device_id &&& ((2 ^ 64 - 1) ^^^ (1 <<< index)) },
      onewire_send H ow 0 w2)
  else
    (true, { l with device_id := l.device_id ||| (1 <<< index) }, onewire_send H ow 1 w2)

/-- The address loop `for (index = 0; index < 64; index += 1)`, from `index`
for at most `n` iterations; it stops at a `break`. -/
def address_loop (H : Hw σ) (ow : onewire_instance_t) :
    Nat → Nat → Locals → World σ → Locals × World σ
  | 0, _, l, w => (l, w)
  | n + 1, index, l, w =>
    let r := address_step H ow index l w
    if r.1 then address_loop H ow n (index + 1) r.2.1 r.2.2 else (r.2.1, r.2.2)

/-- The condition of the `while` loop. -/
def loop_cond (maxdevs : Int) (l : Locals) : Bool :=
  l.finished == false && (maxdevs == 0 || decide (l.num_found < maxdevs))

/-- One iteration of the `while` loop (one pass). `has_list` says whether
`device_id_list` is non-NULL. The Boolean is `false` when the pass leaves the
`while` loop by `break`. -/
def scan_pass (H : Hw σ) (ow : onewire_instance_t) (has_list : Bool) (search_command : Nat)
    (l : Locals) (w : World σ) : Bool × Locals × World σ :=
  let l1 := { l with finished := true, branch_point := l.next_branch_point }
  let r := onewire_reset H ow w
  if r.1 = false then
    (false, { l1 with num_found := 0, finished := true }, r.2)
  else
    let w2 := send_command H ow search_command 8 0 r.2
    let p := address_loop H ow 64 0 l1 w2
    let w4 : World σ :=
      if has_list then
        { p.2 with trace := p.2.trace ++ [Event.store p.1.num_found p.1.device_id] }
      else p.2
    (true, { p.1 with num_found := p.1.num_found + 1 }, w4)

/-- The `while` loop, run for at most `fuel` passes. The first component is
`none` when the loop is still running after `fuel` passes; the world is then
the one reached so far. -/
def scan_loop (H : Hw σ) (ow : onewire_instance_t) (has_list : Bool) (maxdevs : Int)
    (search_command : Nat) : Nat → Locals → World σ → Option Locals × World σ
  | fuel, l, w =>
    if loop_cond maxdevs l then
      match fuel with
      | 0 => (none, w)
      | fuel + 1 =>
        let r := scan_pass H ow has_list search_command l w
        if r.1 then scan_loop H ow has_list maxdevs search_command fuel r.2.1 r.2.2
        else (some r.2.1, r.2.2)
    else (some l, w)

/-- The initial values of the local variables: `device_id = {.raw = 0}`,
`next_branch_point = -1`, `num_found = 0`, `finished = false`;
`branch_point` is uninitialised and assigned before its first use. -/
def locals_init : Locals :=
  { device_id := 0, branch_point := -1, next_branch_point := -1, num_found := 0,
    finished := false }

/-- Embedding of `onewire_bus_scan`, run for at most `fuel` passes;
`search_command` is a `uint8_t`. The result
is `(some num_found, w)` when the call returns, and `(none, w)` when the
`while` loop is still running after `fuel` passes. -/
def onewire_bus_scan (H : Hw σ) (ow : onewire_instance_t) (has_list : Bool) (maxdevs : Int)
    (search_command : Nat) (fuel : Nat) (w : World σ) : Option Int × World σ :=
  let w1 := driver_init H ow 1 w
  let r := scan_loop H ow has_list maxdevs (search_command % 256) fuel locals_init w1
  match r.1 with
  | some l => (some l.num_found, driver_init H ow 8 r.2)
  | none => (none, r.2)

/-! ## Reading a trace -/

/-- The assignments to `device_id_list` in a trace, in program order. -/
def stores : List Event → List (Int × Nat)
  | [] => []
  | Event.store i v :: t => (i, v) :: stores t
  | _ :: t => stores t

/-- The number of calls of `onewire_reset` in a trace. -/
def resets : List Event → Nat
  | [] => 0
  | Event.reset _ :: t => resets t + 1
  | _ :: t => resets t

/-- The content of `device_id_list[i]` after the assignments `st` (in program
order): the value of the last assignment to index `i`, if any. -/
def list_at : List (Int × Nat) → Int → Option Nat
  | [], _ => none
  | (k, v) :: t, i =>
    match list_at t i with
    | some x => some x
    | none => if k = i then some v else none

/-- An address-bit step of the trace read both bits nonzero: two consecutive
reads, both nonzero. (Reads only occur in pairs, each pair followed by a send
or by the end of the pass.) -/
def read_both_nonzero (t : List Event) : Prop :=
  ∃ pre a b post, t = pre ++ Event.read a :: Event.read b :: post ∧ a ≠ 0 ∧ b ≠ 0

/-- The events of an address phase: `AddrRun k evs ok` says that `evs` is `k`
complete address-bit steps (two reads that are not both nonzero, then the
direction bit), followed, when `ok` is `false`, by two nonzero reads. -/
inductive AddrRun : Nat → List Event → Bool → Prop where
  | done : AddrRun 0 [] true
  | abort (a b : Nat) : a ≠ 0 → b ≠ 0 → AddrRun 0 [Event.read a, Event.read b] false
  | step (a b s k : Nat) (evs : List Event) (ok : Bool) : ¬(a ≠ 0 ∧ b ≠ 0) →
      AddrRun k evs ok →
      AddrRun (k + 1) (Event.read a :: Event.read b :: Event.send s :: evs) ok

/-- Two consecutive events that are not two nonzero reads. -/
def pair_ok (e1 e2 : Event) : Prop :=
  ¬∃ a b, e1 = Event.read a ∧ e2 = Event.read b ∧ a ≠ 0 ∧ b ≠ 0

/-- A trace without two consecutive nonzero reads that does not end in a
nonzero read. -/
def quiet (t : List Event) : Prop := List.Chain' pair_ok (t ++ [Event.read 1])

/-- The events of the search-command loop. -/
def command_events (search_command : Nat) (n i : Nat) : List Event :=
  (List.range n).map (fun j => Event.send ((search_command >>> (i + j)) % 256))

/-! ## The search tree -/

/-- The codes `c` and `d` have the same bits below position `i`. -/
def agree (i c d : Nat) : Prop := ∀ j < i, d.testBit j = c.testBit j

instance (i c d : Nat) : Decidable (agree i c d) := by
  unfold agree; infer_instance

/-- At bit `i` the code `c` took the 0-branch while a device of `S` below the
same node has a `1` there: the 1-branch at `i` is still to be explored. -/
def branch_open (S : List Nat) (c i : Nat) : Prop :=
  c.testBit i = false ∧ ∃ e ∈ S, agree i c e ∧ e.testBit i = true

/-- The order in which the search visits ROM codes: `c` comes before `e` when
at the first bit where they differ `c` has a `0`. -/
def rom_lt (c e : Nat) : Prop :=
  ∃ i < 64, agree i c e ∧ c.testBit i = false ∧ e.testBit i = true

instance (c e : Nat) : Decidable (rom_lt c e) := by
  unfold rom_lt; infer_instance

/-- The pass that starts with candidate `c0` and branch point `bp` can replay
the path of `c0` up to `bp` and turn to the 1-branch there: either there is no
branch point, or `c0` is a device and its 1-branch at `bp` is open. -/
def resumable (S : List Nat) (c0 : Nat) (bp : Int) : Prop :=
  bp = -1 ∨ (0 ≤ bp ∧ bp < 64 ∧ c0 ∈ S ∧ branch_open S c0 bp.toNat)

/-- The state of the address loop before bit `i`, in a pass over the devices
`S` that started with candidate `c0` and branch point `bp`: `l` are the local
variables and `A` the devices still participating. -/
structure WalkInv (S : List Nat) (c0 : Nat) (bp : Int) (i : Nat) (l : Locals)
    (A : List Nat) : Prop where
  lt : l.device_id < 2 ^ 64
  bp_eq : l.branch_point = bp
  active : A = S.filter (fun d => decide (agree i l.device_id d))
  nonempty : A ≠ []
  high : ∀ j, i ≤ j → l.device_id.testBit j = c0.testBit j
  replay : ∀ j : Nat, j < i → (j : Int) < bp → l.device_id.testBit j = c0.testBit j
  flip : ∀ j : Nat, j < i → (j : Int) = bp → l.device_id.testBit j = true
  least : ∀ j : Nat, j < i → bp < (j : Int) → l.device_id.testBit j = true →
    ∀ e ∈ S, agree j l.device_id e → e.testBit j = true
  fin_true : l.finished = true → ∀ j < i, ¬branch_open S l.device_id j
  fin_false : l.finished = false → ∃ nb : Nat, l.next_branch_point = nb ∧ nb < i ∧
    branch_open S l.device_id nb ∧ ∀ j, nb < j → j < i → ¬branch_open S l.device_id j

/-- What a pass over the devices `S` leaves in the local variables `l'`, when
it started with `l`. -/
structure PassPost (S : List Nat) (l l' : Locals) : Prop where
  mem : l'.device_id ∈ S
  lt : l'.device_id < 2 ^ 64
  num_found : l'.num_found = l.num_found + 1
  replay : ∀ j : Nat, (j : Int) < l.next_branch_point →
    l'.device_id.testBit j = l.device_id.testBit j
  flip : ∀ j : Nat, (j : Int) = l.next_branch_point → l'.device_id.testBit j = true
  least : ∀ j : Nat, j < 64 → l.next_branch_point < (j : Int) → l'.device_id.testBit j = true →
    ∀ e ∈ S, agree j l'.device_id e → e.testBit j = true
  fin_true : l'.finished = true → ∀ j < 64, ¬branch_open S l'.device_id j
  fin_false : l'.finished = false → ∃ nb : Nat, l'.next_branch_point = nb ∧ nb < 64 ∧
    branch_open S l'.device_id nb ∧ ∀ j, nb < j → j < 64 → ¬branch_open S l'.device_id j

/-- The assignments that store `ids` at the indices `k`, `k + 1`, ... -/
def stores_from : Int → List Nat → List (Int × Nat)
  | _, [] => []
  | k, c :: cs => (k, c) :: stores_from (k + 1) cs

/-! ## A simulated wired-AND bus -/

/-- The state of the simulated bus: the devices on it, those still
participating in the current pass, the number of command bits seen since the
last reset, the address bit in progress, the time slot within that address
bit (`0` and `1` are the two reads, `2` is the direction bit) and the word
waiting in the receive FIFO. -/
structure Sim where
  devices : List Nat
  active : List Nat
  cmd : Nat
  index : Nat
  slot : Nat
  rx : Nat
  deriving DecidableEq, Repr

/-- The level of a wired-AND line: `1` unless some participating device
drives a `0`. -/
def wired_and (active : List Nat) (bit : Nat → Bool) : Nat :=
  if active.all bit then 1 else 0

/-- A time slot on the simulated bus. The first eight after a reset carry the
command. Then, for each address bit, the first read slot carries the AND of
that bit over the participating devices, the second the AND of its
complement, and the third is the direction bit (the least significant bit of
the word written): devices whose bit differs stop participating. -/
def sim_put (data : Nat) (s : Sim) : Sim :=
  if s.cmd < 8 then { s with cmd := s.cmd + 1, rx := 0 }
  else if s.slot = 0 then
    { s with slot := 1, rx := wired_and s.active (fun d => d.testBit s.index) <<< 24 }
  else if s.slot = 1 then
    { s with slot := 2, rx := wired_and s.active (fun d => !d.testBit s.index) <<< 24 }
  else
    { s with
      slot := 0
      index := s.index + 1
      active := s.active.filter (fun d => d.testBit s.index == data.testBit 0)
      rx := 0 }

/-- A reset of the simulated bus: presence is reported (bit `0` of the word
is `0`) and every device participates again. -/
def sim_reset (s : Sim) : Sim :=
  { s with active := s.devices, cmd := 0, index := 0, slot := 0, rx := 0 }

/-- The simulated bus as hardware. -/
def sim_hw : Hw Sim where
  pio_sm_put_blocking := fun _ data s => sim_put data s
  pio_sm_get_blocking := fun _ s => (s.rx, s)
  pio_sm_exec_wait_blocking := fun _ _ s => sim_reset s
  onewire_driver_init := fun _ _ _ _ s => s

/-- The simulated bus with devices `S`, before the scan. -/
def sim_world (S : List Nat) : World Sim :=
  { hw := { devices := S, active := [], cmd := 0, index := 0, slot := 0, rx := 0 },
    trace := [] }

/-- The state of the scan of the devices `S` between two passes, after at
least one pass: `ids` are the codes found so far, in the order found. -/
structure ScanInv (S : List Nat) (has_list : Bool) (ids : List Nat) (l : Locals)
    (w : World Sim) : Prop where
  dev : w.hw.devices = S
  lt : l.device_id < 2 ^ 64
  last : ids.getLast? = some l.device_id
  nodup : ids.Nodup
  sub : ∀ x ∈ ids, x ∈ S
  found : ∀ x ∈ ids, ¬rom_lt l.device_id x
  cover : ∀ e ∈ S, e ∈ ids ∨ rom_lt l.device_id e
  num_found : l.num_found = ids.length
  stores : stores w.trace = if has_list then stores_from 0 ids else []
  resets : resets w.trace = ids.length
  fin_true : l.finished = true → ∀ e ∈ S, ¬rom_lt l.device_id e
  fin_false : l.finished = false → ∃ nb : Nat, l.next_branch_point = nb ∧ nb < 64 ∧
    branch_open S l.device_id nb ∧ ∀ j, nb < j → j < 64 → ¬branch_open S l.device_id j

/-- Hardware with no state whose receive FIFO always yields `word`. -/
def const_hw (word : Nat) : Hw Unit where
  pio_sm_put_blocking := fun _ _ s => s
  pio_sm_get_blocking := fun _ s => (word, s)
  pio_sm_exec_wait_blocking := fun _ _ s => s
  onewire_driver_init := fun _ _ _ _ s => s

/-- Hardware that counts the resets: the first `n` resets find a device, later
ones do not; until then every read returns `0`. -/
def flaky_hw (n : Nat) : Hw Nat where
  pio_sm_put_blocking := fun _ _ s => s
  pio_sm_get_blocking := fun _ s => (if s ≤ n then 0 else 1, s)
  pio_sm_exec_wait_blocking := fun _ _ s => s + 1
  onewire_driver_init := fun _ _ _ _ s => s

/-- An instance of the library, for the examples. -/
def ow0 : onewire_instance_t := { sm := 0, offset := 0, jmp_reset := 0, gpio := 0 }

/-- The hardware `H` with a probe of the driver mode: the state also holds the
number of bits last configured by `onewire_driver_init` and whether every word
exchanged and every instruction executed so far came while that number
was `1`. -/
def probe_hw (H : Hw σ) : Hw (Nat × Bool × σ) where
  pio_sm_put_blocking := fun sm data s =>
    (s.1, s.2.1 && s.1 == 1, H.pio_sm_put_blocking sm data s.2.2)
  pio_sm_get_blocking := fun sm s =>
    ((H.pio_sm_get_blocking sm s.2.2).1,
      (s.1, s.2.1 && s.1 == 1, (H.pio_sm_get_blocking sm s.2.2).2))
  pio_sm_exec_wait_blocking := fun sm instr s =>
    (s.1, s.2.1 && s.1 == 1, H.pio_sm_exec_wait_blocking sm instr s.2.2)
  onewire_driver_init := fun sm offset gpio bits s =>
    (bits, s.2.1, H.onewire_driver_init sm offset gpio bits s.2.2)


/-! ## Further notions for the theorems -/

/-- The direction rule at a collision, in the words of the specification: at
address bit `i`, with branch point `bp` and candidate `c`, the bit sent is `1`
exactly when `i = bp`, or `i < bp` and bit `i` of `c` is `1`. -/
def collision_direction (i : Nat) (bp : Int) (c : Nat) : Bool :=
  decide ((i : Int) = bp ∨ ((i : Int) < bp ∧ c.testBit i = true))

/-- The indices of the address-bit steps of an address phase that read `(0,0)`
and were answered by sending `0`; the first step of `evs` has index `i`. -/
def answered_zero : Nat → List Event → List Nat
  | i, Event.read a :: Event.read b :: Event.send s :: t =>
    if a = 0 ∧ b = 0 ∧ s = 0 then i :: answered_zero (i + 1) t else answered_zero (i + 1) t
  | _, _ => []


/-- The bit mask of the reversed polynomial: bit `j` of `bitrev n p`, for
`j < n`, is bit `n - 1 - j` of `p`. -/
def bitrev : Nat → Nat → Nat
  | 0, _ => 0
  | n + 1, p => 2 * bitrev n p + (p.testBit n).toNat

/-- Product over GF(2) of the polynomial given by the low `n` bits of `q` with
the polynomial `g`; bit `k` of a mask is the coefficient of `x^k`. -/
def clmul : Nat → Nat → Nat → Nat
  | 0, _, _ => 0
  | n + 1, q, g => (if q.testBit 0 then g else 0) ^^^ 2 * clmul n (q / 2) g

/-- The generator polynomial `x^8 + x^5 + x^4 + 1`. -/
def crc_poly : Nat := 0x131

/-- The events of `n` address-bit steps from bit `i` on a bus whose only
device is `R`: the bit of `R`, its complement, and the bit sent back. -/
def single_events (R : Nat) : Nat → Nat → List Event
  | 0, _ => []
  | n + 1, i =>
    Event.read (R.testBit i).toNat :: Event.read (!R.testBit i).toNat ::
      Event.send (R.testBit i).toNat :: single_events R n (i + 1)

/-- The simulated bus during the address phase of a pass in which the device
`R` alone participates, before address bit `i`. -/
def single_bus (R i rx : Nat) : Sim :=
  { devices := [R], active := [R], cmd := 8, index := i, slot := 0, rx := rx }

/-- The candidate after a step at bit `i` that read the bit `b`. -/
def with_bit (c i : Nat) (b : Bool) : Nat :=
  if b then c ||| (1 <<< i) else c &&& ((2 ^ 64 - 1) ^^^ (1 <<< i))

/-- Two consecutive events that are not two reads of the same value: an
address-bit step that reads `(0,1)` or `(1,0)`. -/
def reads_differ (e1 e2 : Event) : Prop :=
  ∀ a b, e1 = Event.read a → e2 = Event.read b → a + b = 1

/-- The word in the receive FIFO of the hardware `adv_hw` in state `s`: `s.1`
says whether the current pass is an even one, `s.2` counts the words read
since the last reset (one for the reset, eight for the command, three for each
address bit). The second read of address bit `i` yields a `1`, except for
`i = 5` in the odd passes and `i = 3` in the even passes; all else is `0`. -/
def adv_word (s : Bool × Nat) : Nat :=
  if 9 ≤ s.2 ∧ (s.2 - 9) % 3 = 1 ∧ (s.2 - 9) / 3 ≠ (if s.1 then 3 else 5) then 0x1000000 else 0

/-- Hardware whose answers come from no set of devices: every reset reports
presence and every address bit reads `(0,1)`, except bit `5` in the odd passes
and bit `3` in the even passes, which read `(0,0)`. -/
def adv_hw : Hw (Bool × Nat) where
  pio_sm_put_blocking := fun _ _ s => s
  pio_sm_get_blocking := fun _ s => (adv_word s, (s.1, s.2 + 1))
  pio_sm_exec_wait_blocking := fun _ _ s => (!s.1, 0)
  onewire_driver_init := fun _ _ _ _ s => s

/-! ## Creating an instance -/

/-- The pico-sdk and PIO driver calls used by `onewire_init`, as operations on
a hardware state `σ`; a PIO block is named by its number. -/
structure Sdk (σ : Type) where
  /-- The constant `NUM_PIOS`. -/
  NUM_PIOS : Nat
  /-- The call `pio_claim_unused_sm (pio, false)`: the `int` returned (`-1`
  when no state machine is free) and the new state. -/
  pio_claim_unused_sm : Nat → σ → Int × σ
  /-- The call `pio_add_program (pio, &onewire_driver_program)`: the offset
  returned and the new state. -/
  pio_add_program : Nat → σ → Int × σ
  /-- The function `onewire_driver_reset_instr (offset)` of the PIO header. -/
  onewire_driver_reset_instr : Int → Nat
  /-- The call `pio_gpio_init (pio, gpio)`. -/
  pio_gpio_init : Nat → Nat → σ → σ
  /-- The call `onewire_driver_init (pio, sm, offset, gpio, bits)`. -/
  onewire_driver_init : Nat → Nat → Int → Nat → Nat → σ → σ

/-- The hardware state, the static arrays `driver_is_installed` and
`driver_offset`, and two ghost records: the number of instances allocated and
the calls of `onewire_driver_init` as `(pio, sm, offset, gpio, bits)`. -/
structure InitState (σ : Type) where
  hw : σ
  driver_is_installed : Nat → Bool
  driver_offset : Nat → Int
  allocated : Nat
  started : List (Nat × Nat × Int × Nat × Nat)

/-- Conversion of an `int` to `int8_t`. -/
def to_int8 (x : Int) : Int := (x + 128) % 256 - 128

/-- Conversion of an `int` to `uint`. -/
def to_uint (x : Int) : Nat := (x % 2 ^ 32).toNat

/-- Embedding of `onewire_init`. The result is `none` for `NULL`, and otherwise
the PIO number and the other fields of the new instance. -/
def onewire_init (K : Sdk σ) (pio_num gpio : Nat) (st : InitState σ) :
    Option (Nat × onewire_instance_t) × InitState σ :=
  if pio_num < K.NUM_PIOS then
    let r := K.pio_claim_unused_sm pio_num st.hw
    let sm : Nat := to_uint r.1
    if sm ≥ 0 then
      let st1 : InitState σ :=
        if !st.driver_is_installed pio_num then
          let a := K.pio_add_program pio_num r.2
          { st with
            hw := a.2
            driver_offset := Function.update st.driver_offset pio_num (to_int8 a.1) }
        else { st with hw := r.2 }
      if st1.driver_offset pio_num ≥ 0 then
        let offset := st1.driver_offset pio_num
        let ow : onewire_instance_t :=
          { sm := sm, offset := offset, jmp_reset := K.onewire_driver_reset_instr offset,
            gpio := gpio }
        let h1 := K.pio_gpio_init pio_num gpio st1.hw
        let h2 := K.onewire_driver_init pio_num sm offset gpio 8 h1
        (some (pio_num, ow),
          { st1 with
            hw := h2
            driver_is_installed := Function.update st1.driver_is_installed pio_num true
            allocated := st1.allocated + 1
            started := st1.started ++ [(pio_num, sm, offset, gpio, 8)] })
      else (none, st1)
    else (none, { st with hw := r.2 })
  else (none, st)

/-- The state before the first call of `onewire_init`: the static arrays are
zero-initialised. -/
def init_state (s : σ) : InitState σ :=
  { hw := s, driver_is_installed := fun _ => false, driver_offset := fun _ => 0,
    allocated := 0, started := [] }

/-- An SDK with two PIO blocks on which no state machine is free
(`pio_claim_unused_sm` returns `-1`) and the program loads at offset `0`. -/
def busy_sdk : Sdk Unit where
  NUM_PIOS := 2
  pio_claim_unused_sm := fun _ s => (-1, s)
  pio_add_program := fun _ s => (0, s)
  onewire_driver_reset_instr := fun offset => offset.toNat
  pio_gpio_init := fun _ _ s => s
  onewire_driver_init := fun _ _ _ _ _ s => s


/-! ## Theorems: CRC validator -/

theorem and_one_xor_ne_zero (r c : Nat) :
    ((r &&& 0x01) ^^^ (c &&& 0x01)) ≠ 0 ↔ (r.testBit 0 != c.testBit 0) = true := by
  simp only [Nat.and_one_is_mod, Nat.testBit_zero]
  rcases Nat.mod_two_eq_zero_or_one r with h | h <;>
    rcases Nat.mod_two_eq_zero_or_one c with h' | h' <;> simp [h, h']

theorem shift_xor_poly_lt (c : Nat) (hc : c < 256) : (c >>> 1) ^^^ 0x8c < 256 := by
  have h1 : c >>> 1 < 2 ^ 8 := by
    rw [Nat.shiftRight_eq_div_pow]; omega
  exact Nat.xor_lt_two_pow h1 (by norm_num)

theorem crc_iter_eq (r c : Nat) (hc : c < 256) :
    crc_iter (r, c) = (r >>> 1, crc8_step c (r.testBit 0)) := by
  unfold crc_iter crc8_step
  by_cases h : (r.testBit 0 != c.testBit 0) = true
  · have h' := (and_one_xor_ne_zero r c).2 h
    rw [if_pos h', if_pos h, Nat.mod_eq_of_lt (shift_xor_poly_lt c hc)]
  · have h' : ¬ (((r &&& 0x01) ^^^ (c &&& 0x01)) ≠ 0) := fun k => h ((and_one_xor_ne_zero r c).1 k)
    rw [if_neg h', if_neg h]

theorem crc8_step_lt (c : Nat) (x : Bool) (hc : c < 256) : crc8_step c x < 256 := by
  unfold crc8_step
  split
  · exact shift_xor_poly_lt c hc
  · rw [Nat.shiftRight_eq_div_pow]; omega

theorem range_bits_succ (n r : Nat) :
    (List.range (n + 1)).map r.testBit = r.testBit 0 :: (List.range n).map (r >>> 1).testBit := by
  rw [List.range_succ_eq_map, List.map_cons, List.map_map]
  congr 1
  apply List.map_congr_left
  intro i _
  simp [Nat.testBit_shiftRight, Nat.add_comm]

theorem crc_loop_eq (n : Nat) : ∀ (r c : Nat), c < 256 →
    crc_loop n (r, c) = (r >>> n, ((List.range n).map r.testBit).foldl crc8_step c) := by
  induction n with
  | zero => intro r c _; simp [crc_loop]
  | succ n ih =>
    intro r c hc
    rw [crc_loop, crc_iter_eq r c hc, ih _ _ (crc8_step_lt c _ hc), range_bits_succ]
    simp only [List.foldl_cons, ← Nat.shiftRight_add]
    rw [Nat.add_comm 1 n]

theorem crc8_bits_mod (p : Nat) : crc8_bits 56 (p % 2 ^ 56) = crc8_bits 56 p := by
  unfold crc8_bits
  congr 1
  apply List.map_congr_left
  intro i hi
  have : i < 56 := List.mem_range.1 hi
  rw [Nat.testBit_mod_two_pow]; simp [this]

theorem check_crc_eq (raw : Nat) :
    onewire_check_crc raw = (id_crc raw == crc8 (raw % 2 ^ 56)) := by
  unfold onewire_check_crc crc8
  simp only [crc_loop_eq 56 raw 0 (by norm_num), crc8_bits_mod]
  rfl

theorem crc8_step_testBit (c : Nat) (x : Bool) (i : Nat) :
    (crc8_step c x).testBit i =
      (c.testBit (1 + i) ^^ ((x ^^ c.testBit 0) && (0x8C : Nat).testBit i)) := by
  unfold crc8_step
  cases x <;> cases c.testBit 0 <;> simp [Nat.testBit_xor, Nat.testBit_shiftRight]

/-- Linearity of the reference step over GF(2). -/
theorem crc8_step_xor (c1 c2 : Nat) (x1 x2 : Bool) :
    crc8_step (c1 ^^^ c2) (x1 ^^ x2) = crc8_step c1 x1 ^^^ crc8_step c2 x2 := by
  apply Nat.eq_of_testBit_eq
  intro i
  simp only [Nat.testBit_xor, crc8_step_testBit]
  cases x1 <;> cases x2 <;> cases c1.testBit 0 <;> cases c2.testBit 0 <;>
    cases c1.testBit (1 + i) <;> cases c2.testBit (1 + i) <;>
    cases (0x8C : Nat).testBit i <;> rfl

theorem shiftRight_one_xor (r1 r2 : Nat) : (r1 ^^^ r2) >>> 1 = (r1 >>> 1) ^^^ (r2 >>> 1) := by
  apply Nat.eq_of_testBit_eq
  intro i
  simp only [Nat.testBit_xor, Nat.testBit_shiftRight]

/-- Linearity of one loop iteration over GF(2). -/
theorem crc_iter_xor (r1 r2 c1 c2 : Nat) (h1 : c1 < 256) (h2 : c2 < 256) :
    crc_iter (r1 ^^^ r2, c1 ^^^ c2) =
      ((crc_iter (r1, c1)).1 ^^^ (crc_iter (r2, c2)).1,
       (crc_iter (r1, c1)).2 ^^^ (crc_iter (r2, c2)).2) := by
  have h12 : c1 ^^^ c2 < 256 := Nat.xor_lt_two_pow (n := 8) h1 h2
  rw [crc_iter_eq _ _ h12, crc_iter_eq _ _ h1, crc_iter_eq _ _ h2]
  simp only [Nat.testBit_xor, crc8_step_xor, shiftRight_one_xor]

theorem crc_iter_snd_lt (r c : Nat) (hc : c < 256) : (crc_iter (r, c)).2 < 256 := by
  rw [crc_iter_eq r c hc]; exact crc8_step_lt c _ hc

theorem crc_loop_xor (n : Nat) : ∀ (r1 r2 c1 c2 : Nat), c1 < 256 → c2 < 256 →
    (crc_loop n (r1 ^^^ r2, c1 ^^^ c2)).2 =
      (crc_loop n (r1, c1)).2 ^^^ (crc_loop n (r2, c2)).2 := by
  induction n with
  | zero => intro r1 r2 c1 c2 _ _; simp [crc_loop]
  | succ n ih =>
    intro r1 r2 c1 c2 h1 h2
    simp only [crc_loop]
    rw [crc_iter_xor r1 r2 c1 c2 h1 h2]
    exact ih _ _ _ _ (crc_iter_snd_lt r1 c1 h1) (crc_iter_snd_lt r2 c2 h2)

set_option maxRecDepth 100000 in
theorem crc_loop_single_low : ∀ k < 56, (crc_loop 56 (2 ^ k, 0)).2 ≠ 0 := by
  decide

set_option maxRecDepth 100000 in
theorem crc_loop_single_high : ∀ k < 64, 56 ≤ k → (crc_loop 56 (2 ^ k, 0)).2 = 0 := by
  decide

theorem xor_ne_self_of_ne_zero (a b : Nat) (hb : b ≠ 0) : a ^^^ b ≠ a := by
  intro h
  apply hb
  have : a ^^^ (a ^^^ b) = a ^^^ a := by rw [h]
  rw [← Nat.xor_assoc, Nat.xor_self, Nat.zero_xor] at this
  exact this

theorem crc8_bits_lt (n p : Nat) : crc8_bits n p < 256 := by
  unfold crc8_bits
  have key : ∀ (bs : List Bool) (c : Nat), c < 256 → bs.foldl crc8_step c < 256 := by
    intro bs
    induction bs with
    | nil => intro c hc; simpa using hc
    | cons b bs ih => intro c hc; exact ih _ (crc8_step_lt c b hc)
  exact key _ 0 (by norm_num)

theorem id_crc_flip_low (id k : Nat) (hk : k < 56) : id_crc (id ^^^ (1 <<< k)) = id_crc id := by
  unfold id_crc
  congr 1
  apply Nat.eq_of_testBit_eq
  intro i
  have : k ≠ 56 + i := by omega
  simp [Nat.testBit_shiftRight, Nat.testBit_xor, Nat.one_shiftLeft, Nat.testBit_two_pow, this]

theorem id_crc_flip_high (id k : Nat) (hk : k < 64) (hk' : 56 ≤ k) :
    id_crc (id ^^^ (1 <<< k)) ≠ id_crc id := by
  unfold id_crc
  intro h
  have h2 := congrArg (fun x => x.testBit (k - 56)) h
  have e : 56 + (k - 56) = k := by omega
  have l : k - 56 < 8 := by omega
  simp only [show (256 : Nat) = 2 ^ 8 by norm_num, Nat.testBit_mod_two_pow,
    Nat.testBit_shiftRight, Nat.testBit_xor, Nat.one_shiftLeft, Nat.testBit_two_pow, e, l,
    decide_True, Bool.true_and] at h2
  cases hb : id.testBit k <;> simp [hb] at h2

theorem crc_loop_flip (id k : Nat) :
    (crc_loop 56 (id ^^^ (1 <<< k), 0)).2 =
      (crc_loop 56 (id, 0)).2 ^^^ (crc_loop 56 (2 ^ k, 0)).2 := by
  have h := crc_loop_xor 56 id (1 <<< k) 0 0 (by norm_num) (by norm_num)
  rw [Nat.xor_self, Nat.one_shiftLeft] at h
  rw [Nat.one_shiftLeft]
  exact h

/-- C2: `onewire_check_crc` agrees with the reference CRC-8: an id is accepted
exactly when its top byte (bits 56..63) equals `crc8` of its low 56 bits, and
for every 56-bit payload `p` the id made of `p` and the crc byte `crc8 p` is
accepted. -/
theorem check_crc_agrees_with_crc8 :
    (∀ id : Nat, onewire_check_crc id = true ↔ (id >>> 56) % 256 = crc8 (id % 2 ^ 56)) ∧
    (∀ p : Nat, p < 2 ^ 56 → onewire_check_crc (p + crc8 p * 2 ^ 56) = true) := by
  constructor
  · intro id
    rw [check_crc_eq]
    simp [id_crc]
  · intro p hp
    rw [check_crc_eq]
    have hc : crc8 p < 256 := crc8_bits_lt 56 p
    have h1 : (p + crc8 p * 2 ^ 56) % 2 ^ 56 = p := by
      rw [Nat.add_mul_mod_self_right, Nat.mod_eq_of_lt hp]
    have h2 : (p + crc8 p * 2 ^ 56) >>> 56 = crc8 p := by
      rw [Nat.shiftRight_eq_div_pow, Nat.add_mul_div_right _ _ (by norm_num),
        Nat.div_eq_of_lt hp, Nat.zero_add]
    simp only [id_crc, h1, h2, Nat.mod_eq_of_lt hc, beq_self_eq_true]

/-- The id `0xF428FF123456789A` is built from the payload `0x28FF123456789A`
and its CRC-8 `0xF4`, and is accepted. -/
theorem check_crc_agrees_with_crc8_witness :
    (0x28FF123456789A : Nat) < 2 ^ 56 ∧
      onewire_check_crc (0x28FF123456789A + crc8 0x28FF123456789A * 2 ^ 56) = true :=
  ⟨by norm_num, check_crc_agrees_with_crc8.2 0x28FF123456789A (by norm_num)⟩

/-- C3: `onewire_check_crc` detects every single-bit corruption: if an id is
accepted, the id with bit `k` flipped (`k` in 0..63, payload or crc byte) is
rejected. -/
theorem check_crc_detects_single_bit (id : Nat) (h : onewire_check_crc id = true)
    (k : Nat) (hk : k < 64) : onewire_check_crc (id ^^^ (1 <<< k)) = false := by
  unfold onewire_check_crc at h ⊢
  simp only [beq_iff_eq] at h
  simp only [beq_eq_false_iff_ne, ne_eq]
  rw [crc_loop_flip]
  by_cases hlow : k < 56
  · rw [id_crc_flip_low id k hlow, h]
    exact fun e => xor_ne_self_of_ne_zero _ _ (crc_loop_single_low k hlow) e.symm
  · have hhigh : 56 ≤ k := by omega
    rw [crc_loop_single_high k hk hhigh, Nat.xor_zero, ← h]
    exact id_crc_flip_high id k hk hhigh

set_option maxRecDepth 100000 in
/-- The accepted id `0xF428FF123456789A` is rejected once bit 17 is flipped. -/
theorem check_crc_detects_single_bit_witness :
    onewire_check_crc 0xF428FF123456789A = true ∧ 17 < 64 ∧
      onewire_check_crc (0xF428FF123456789A ^^^ (1 <<< 17)) = false :=
  ⟨by decide, by decide,
    check_crc_detects_single_bit 0xF428FF123456789A (by decide) 17 (by decide)⟩


/-! ## Theorems: traces of the transport and of one pass -/

section Generic

variable {σ : Type} (H : Hw σ) (ow : onewire_instance_t)

theorem onewire_read_trace (w : World σ) :
    (onewire_read H ow w).2.trace = w.trace ++ [Event.read (onewire_read H ow w).1] := rfl

theorem onewire_send_trace (d : Nat) (w : World σ) :
    (onewire_send H ow d w).trace = w.trace ++ [Event.send (d % 256)] := rfl

theorem onewire_reset_trace (w : World σ) :
    (onewire_reset H ow w).2.trace = w.trace ++ [Event.reset (onewire_reset H ow w).1] := rfl

theorem driver_init_trace (bits : Nat) (w : World σ) :
    (driver_init H ow bits w).trace = w.trace ++ [Event.driver_init bits] := rfl

theorem send_command_trace (cmd : Nat) (n : Nat) : ∀ (i : Nat) (w : World σ),
    (send_command H ow cmd n i w).trace = w.trace ++ command_events cmd n i := by
  induction n with
  | zero => intro i w; simp [send_command, command_events]
  | succ n ih =>
    intro i w
    rw [send_command, ih, onewire_send_trace]
    simp only [command_events, List.range_succ_eq_map, List.map_cons, List.map_map,
      List.append_assoc, List.singleton_append, Nat.add_zero]
    congr 2
    apply List.map_congr_left
    intro j _
    simp only [Function.comp, Nat.succ_eq_add_one]
    congr 3
    omega

/-- What one address-bit step does to the trace and to `num_found`. -/
theorem address_step_spec (index : Nat) (l : Locals) (w : World σ) :
    (∃ a b s, ¬(a ≠ 0 ∧ b ≠ 0) ∧ (address_step H ow index l w).1 = true ∧
      (address_step H ow index l w).2.2.trace =
        w.trace ++ [Event.read a, Event.read b, Event.send s] ∧
      (address_step H ow index l w).2.1.num_found = l.num_found ∧
      (address_step H ow index l w).2.1.branch_point = l.branch_point) ∨
    (∃ a b, a ≠ 0 ∧ b ≠ 0 ∧ (address_step H ow index l w).1 = false ∧
      (address_step H ow index l w).2.2.trace = w.trace ++ [Event.read a, Event.read b] ∧
      (address_step H ow index l w).2.1.num_found = -2 ∧
      (address_step H ow index l w).2.1.finished = true) := by
  unfold address_step
  simp only []
  have tr : ∀ d, (onewire_send H ow d (onewire_read H ow (onewire_read H ow w).2).2).trace =
      w.trace ++ [Event.read (onewire_read H ow w).1,
        Event.read (onewire_read H ow (onewire_read H ow w).2).1, Event.send (d % 256)] := by
    intro d
    simp only [onewire_send_trace, onewire_read_trace, List.append_assoc,
      List.singleton_append, List.cons_append, List.nil_append]
  by_cases h1 : (onewire_read H ow w).1 = 0 ∧ (onewire_read H ow (onewire_read H ow w).2).1 = 0
  · rw [if_pos h1]
    left
    have hn : ¬((onewire_read H ow w).1 ≠ 0 ∧
        (onewire_read H ow (onewire_read H ow w).2).1 ≠ 0) := fun hh => hh.1 h1.1
    by_cases h2 : (index : Int) = l.branch_point
    · rw [if_pos h2]
      exact ⟨_, _, 1 % 256, hn, rfl, tr 1, rfl, rfl⟩
    · rw [if_neg h2]
      by_cases h3 : (index : Int) > l.branch_point ∨ (l.device_id &&& (1 <<< index)) = 0
      · rw [if_pos h3]
        exact ⟨_, _, 0 % 256, hn, rfl, tr 0, rfl, rfl⟩
      · rw [if_neg h3]
        exact ⟨_, _, 1 % 256, hn, rfl, tr 1, rfl, rfl⟩
  · rw [if_neg h1]
    by_cases h4 : (onewire_read H ow w).1 ≠ 0 ∧
        (onewire_read H ow (onewire_read H ow w).2).1 ≠ 0
    · rw [if_pos h4]
      right
      refine ⟨_, _, h4.1, h4.2, rfl, ?_, rfl, rfl⟩
      simp only [onewire_read_trace, List.append_assoc, List.singleton_append]
    · rw [if_neg h4]
      left
      by_cases h5 : (onewire_read H ow w).1 = 0
      · rw [if_pos h5]
        exact ⟨_, _, 0 % 256, h4, rfl, tr 0, rfl, rfl⟩
      · rw [if_neg h5]
        exact ⟨_, _, 1 % 256, h4, rfl, tr 1, rfl, rfl⟩

/-- The events of the address loop, and what it does to `num_found`. -/
theorem address_loop_run (n : Nat) : ∀ (index : Nat) (l : Locals) (w : World σ),
    ∃ k evs ok, AddrRun k evs ok ∧
      (address_loop H ow n index l w).2.trace = w.trace ++ evs ∧
      (ok = true → k = n ∧ (address_loop H ow n index l w).1.num_found = l.num_found) ∧
      (ok = false → k < n ∧ (address_loop H ow n index l w).1.num_found = -2 ∧
        (address_loop H ow n index l w).1.finished = true) := by
  induction n with
  | zero =>
    intro index l w
    exact ⟨0, [], true, AddrRun.done, by simp [address_loop], fun _ => ⟨rfl, rfl⟩,
      fun h => by simp at h⟩
  | succ n ih =>
    intro index l w
    rw [address_loop]
    rcases address_step_spec H ow index l w with
      ⟨a, b, s, hab, hc, htr, hnf, _⟩ | ⟨a, b, ha, hb, hc, htr, hnf, hfin⟩
    · rw [hc, if_pos rfl]
      obtain ⟨k, evs, ok, hrun, htr2, hok, hbad⟩ := ih (index + 1) _ (address_step H ow index l w).2.2
      refine ⟨k + 1, _, ok, AddrRun.step a b s k evs ok hab hrun, ?_, ?_, ?_⟩
      · rw [htr2, htr]; simp
      · intro h; obtain ⟨h1, h2⟩ := hok h; exact ⟨by omega, by rw [h2, hnf]⟩
      · intro h; obtain ⟨h1, h2, h3⟩ := hbad h; exact ⟨by omega, h2, h3⟩
    · rw [hc]
      refine ⟨0, _, false, AddrRun.abort a b ha hb, htr, fun h => by simp at h,
        fun _ => ⟨by omega, hnf, hfin⟩⟩

/-- A pass whose reset finds no device. -/
theorem scan_pass_absent (has_list : Bool) (cmd : Nat) (l : Locals) (w : World σ)
    (h : (onewire_reset H ow w).1 = false) :
    scan_pass H ow has_list cmd l w =
      (false, { l with finished := true, branch_point := l.next_branch_point, num_found := 0 },
        { hw := (onewire_reset H ow w).2.hw, trace := w.trace ++ [Event.reset false] }) := by
  unfold scan_pass
  simp only [h, if_true]
  congr 2
  rw [← h]
  rfl

/-- A pass whose reset finds a device: its events and what it does to
`num_found`. -/
theorem scan_pass_present (has_list : Bool) (cmd : Nat) (l : Locals) (w : World σ)
    (h : (onewire_reset H ow w).1 = true) :
    (scan_pass H ow has_list cmd l w).1 = true ∧
    ∃ k evs ok st, AddrRun k evs ok ∧
      (scan_pass H ow has_list cmd l w).2.2.trace =
        w.trace ++ Event.reset true :: (command_events cmd 8 0 ++ (evs ++ st)) ∧
      (has_list = false → st = []) ∧
      (has_list = true → st = [Event.store (if ok then l.num_found else -2)
        (scan_pass H ow has_list cmd l w).2.1.device_id]) ∧
      (ok = true → k = 64 ∧ (scan_pass H ow has_list cmd l w).2.1.num_found = l.num_found + 1) ∧
      (ok = false → k < 64 ∧ (scan_pass H ow has_list cmd l w).2.1.num_found = -1 ∧
        (scan_pass H ow has_list cmd l w).2.1.finished = true) := by
  unfold scan_pass
  simp only [h, if_false, Bool.true_eq_false]
  refine ⟨trivial, ?_⟩
  obtain ⟨k, evs, ok, hrun, htr, hok, hbad⟩ := address_loop_run H ow 64 0
    { l with finished := true, branch_point := l.next_branch_point }
    (send_command H ow cmd 8 0 (onewire_reset H ow w).2)
  rw [send_command_trace, onewire_reset_trace, h] at htr
  cases has_list with
  | false =>
    refine ⟨k, evs, ok, [], hrun, ?_, fun _ => rfl, fun hh => by simp at hh, ?_, ?_⟩
    · simp only [Bool.false_eq_true, if_false]; rw [htr]; simp
    · intro hh; obtain ⟨h1, h2⟩ := hok hh; exact ⟨h1, by rw [h2]⟩
    · intro hh; obtain ⟨h1, h2, h3⟩ := hbad hh
      exact ⟨h1, by rw [h2]; rfl, h3⟩
  | true =>
    refine ⟨k, evs, ok, _, hrun, ?_, fun hh => by simp at hh, fun _ => rfl, ?_, ?_⟩
    · simp only [if_true]; rw [htr]
      cases ok with
      | true => simp [(hok rfl).2]
      | false => simp [(hbad rfl).2.1]
    · intro hh; obtain ⟨h1, h2⟩ := hok hh; exact ⟨h1, by rw [h2]⟩
    · intro hh; obtain ⟨h1, h2, h3⟩ := hbad hh
      exact ⟨h1, by rw [h2]; rfl, h3⟩

/-- How a run of the `while` loop ends, given an invariant `Inv` of the passes
that do not leave the loop: out of fuel, by a false loop condition, or by a
pass that leaves the loop. -/
theorem scan_loop_cases (has_list : Bool) (maxdevs : Int) (cmd : Nat)
    (Inv : Locals → World σ → Prop)
    (hstep : ∀ l w, Inv l w → loop_cond maxdevs l = true →
      (scan_pass H ow has_list cmd l w).1 = true →
      Inv (scan_pass H ow has_list cmd l w).2.1 (scan_pass H ow has_list cmd l w).2.2)
    (fuel : Nat) : ∀ (l : Locals) (w : World σ), Inv l w →
    ∃ l0 w0, Inv l0 w0 ∧
      ((loop_cond maxdevs l0 = true ∧
          scan_loop H ow has_list maxdevs cmd fuel l w = (none, w0)) ∨
       (loop_cond maxdevs l0 = false ∧
          scan_loop H ow has_list maxdevs cmd fuel l w = (some l0, w0)) ∨
       (loop_cond maxdevs l0 = true ∧ (scan_pass H ow has_list cmd l0 w0).1 = false ∧
          scan_loop H ow has_list maxdevs cmd fuel l w =
            (some (scan_pass H ow has_list cmd l0 w0).2.1,
              (scan_pass H ow has_list cmd l0 w0).2.2))) := by
  induction fuel with
  | zero =>
    intro l w hI
    refine ⟨l, w, hI, ?_⟩
    unfold scan_loop
    cases hc : loop_cond maxdevs l with
    | true => left; simp
    | false => right; left; simp
  | succ fuel ih =>
    intro l w hI
    unfold scan_loop
    cases hc : loop_cond maxdevs l with
    | false => exact ⟨l, w, hI, Or.inr (Or.inl ⟨hc, by simp⟩)⟩
    | true =>
      simp only [if_true]
      cases hp : (scan_pass H ow has_list cmd l w).1 with
      | true =>
        simp only [if_true]
        exact ih _ _ (hstep l w hI hc hp)
      | false =>
        refine ⟨l, w, hI, Or.inr (Or.inr ⟨hc, hp, ?_⟩)⟩
        simp

/-! ## Theorems: traces without a `(1,1)` read -/

theorem pair_ok_of_left (x y : Event) (h : pair_ok x (Event.read 1)) : pair_ok x y := by
  rintro ⟨a, b, rfl, _, ha, _⟩
  exact h ⟨a, 1, rfl, rfl, ha, one_ne_zero⟩

theorem quiet_nil : quiet [] := by
  simp [quiet]

theorem quiet_append {t u : List Event} (ht : quiet t) (hu : quiet u) : quiet (t ++ u) := by
  unfold quiet at *
  rw [List.append_assoc]
  refine List.chain'_append.2 ⟨ht.left_of_append, hu, ?_⟩
  intro x hx y _
  exact pair_ok_of_left x y ((List.chain'_append.1 ht).2.2 x hx (Event.read 1) (by simp))

theorem quiet_single (e : Event) (h : ∀ v, e = Event.read v → v = 0) : quiet [e] := by
  unfold quiet
  simp only [List.singleton_append, List.chain'_pair]
  rintro ⟨a, b, rfl, _, ha, _⟩
  exact ha (h a rfl)

theorem quiet_cons {e : Event} {t : List Event} (h : ∀ v, e = Event.read v → v = 0)
    (ht : quiet t) : quiet (e :: t) :=
  quiet_append (quiet_single e h) ht

theorem quiet_step (a b s : Nat) (h : ¬(a ≠ 0 ∧ b ≠ 0)) :
    quiet [Event.read a, Event.read b, Event.send s] := by
  unfold quiet
  simp only [List.cons_append, List.nil_append, List.chain'_cons, List.chain'_singleton,
    and_true]
  refine ⟨?_, ?_, ?_⟩
  · rintro ⟨x, y, hx, hy, hx0, hy0⟩
    cases hx; cases hy
    exact h ⟨hx0, hy0⟩
  · rintro ⟨x, y, _, hy, _, _⟩
    cases hy
  · rintro ⟨x, y, hx, _, _, _⟩
    cases hx

theorem quiet_not_read_both (t : List Event) (h : quiet t) : ¬read_both_nonzero t := by
  rintro ⟨pre, a, b, post, rfl, ha, hb⟩
  have h1 : List.Chain' pair_ok (pre ++ Event.read a :: Event.read b :: post) :=
    List.Chain'.left_of_append h
  have h2 := (List.chain'_split.1 h1).2
  exact (List.chain'_cons.1 h2).1 ⟨a, b, rfl, rfl, ha, hb⟩

theorem read_both_append (t u v : List Event) (h : read_both_nonzero u) :
    read_both_nonzero (t ++ (u ++ v)) := by
  obtain ⟨pre, a, b, post, rfl, ha, hb⟩ := h
  exact ⟨t ++ pre, a, b, post ++ v, by simp, ha, hb⟩

theorem quiet_command (cmd n i : Nat) : quiet (command_events cmd n i) := by
  unfold command_events
  induction (List.range n) with
  | nil => exact quiet_nil
  | cons j js ih => exact quiet_cons (fun v hv => by cases hv) ih

theorem AddrRun.is_quiet {k : Nat} {evs : List Event} (h : AddrRun k evs true) :
    Onewire.quiet evs := by
  generalize hok : true = ok at h
  induction h with
  | done => exact quiet_nil
  | abort a b ha hb => cases hok
  | step a b s k evs ok hab _ ih =>
    exact quiet_append (t := [Event.read a, Event.read b, Event.send s]) (quiet_step a b s hab)
      (ih hok)

/-- An aborted address phase ends in two nonzero reads. -/
theorem AddrRun.ends_in_reads {k : Nat} {evs : List Event} (h : AddrRun k evs false) :
    ∃ pre a b, evs = pre ++ [Event.read a, Event.read b] ∧ a ≠ 0 ∧ b ≠ 0 ∧
      AddrRun k pre true := by
  generalize hok : false = ok at h
  induction h with
  | done => cases hok
  | abort a b ha hb => exact ⟨[], a, b, rfl, ha, hb, AddrRun.done⟩
  | step a b s k evs ok hab _ ih =>
    obtain ⟨pre, x, y, he, hx, hy, hp⟩ := ih hok
    exact ⟨Event.read a :: Event.read b :: Event.send s :: pre, x, y, by rw [he]; rfl, hx, hy,
      AddrRun.step a b s k pre true hab hp⟩

/-- The events of an address phase are reads and sends. -/
theorem AddrRun.events_mem {k : Nat} {evs : List Event} {ok : Bool} (h : AddrRun k evs ok) :
    ∀ e ∈ evs, (∃ v, e = Event.read v) ∨ (∃ v, e = Event.send v) := by
  induction h with
  | done => intro e he; cases he
  | abort a b ha hb =>
    intro e he
    simp only [List.mem_cons, List.mem_singleton, List.not_mem_nil, or_false] at he
    rcases he with rfl | rfl
    · exact Or.inl ⟨_, rfl⟩
    · exact Or.inl ⟨_, rfl⟩
  | step a b s k evs ok hab _ ih =>
    intro e he
    simp only [List.mem_cons] at he
    rcases he with rfl | rfl | rfl | he
    · exact Or.inl ⟨_, rfl⟩
    · exact Or.inl ⟨_, rfl⟩
    · exact Or.inr ⟨_, rfl⟩
    · exact ih e he

theorem command_events_mem (cmd n i : Nat) :
    ∀ e ∈ command_events cmd n i, ∃ v, e = Event.send v := by
  intro e he
  simp only [command_events, List.mem_map] at he
  obtain ⟨j, _, rfl⟩ := he
  exact ⟨_, rfl⟩

/-- A pass leaves the `while` loop exactly when its reset finds no device. -/
theorem scan_pass_fst (has_list : Bool) (cmd : Nat) (l : Locals) (w : World σ) :
    (scan_pass H ow has_list cmd l w).1 = (onewire_reset H ow w).1 := by
  cases h : (onewire_reset H ow w).1 with
  | false => rw [scan_pass_absent H ow has_list cmd l w h]
  | true => exact (scan_pass_present H ow has_list cmd l w h).1

/-- How a call of `onewire_bus_scan` ends, given an invariant of the passes
that do not leave the loop: still running when the fuel is spent, returning
`num_found` after the loop condition became false, or returning `0` after a
reset that found no device. -/
theorem scan_cases (has_list : Bool) (maxdevs : Int) (cmd : Nat)
    (Inv : Locals → World σ → Prop) (w : World σ)
    (hinit : Inv locals_init (driver_init H ow 1 w))
    (hstep : ∀ l w, Inv l w → loop_cond maxdevs l = true →
      (scan_pass H ow has_list (cmd % 256) l w).1 = true →
      Inv (scan_pass H ow has_list (cmd % 256) l w).2.1 (scan_pass H ow has_list (cmd % 256) l w).2.2)
    (fuel : Nat) :
    ∃ l0 w0, Inv l0 w0 ∧
      ((loop_cond maxdevs l0 = true ∧
          onewire_bus_scan H ow has_list maxdevs cmd fuel w = (none, w0)) ∨
       (loop_cond maxdevs l0 = false ∧
          onewire_bus_scan H ow has_list maxdevs cmd fuel w =
            (some l0.num_found, driver_init H ow 8 w0)) ∨
       (loop_cond maxdevs l0 = true ∧ (onewire_reset H ow w0).1 = false ∧
          onewire_bus_scan H ow has_list maxdevs cmd fuel w =
            (some 0, driver_init H ow 8
              { hw := (onewire_reset H ow w0).2.hw,
                trace := w0.trace ++ [Event.reset false] }))) := by
  obtain ⟨l0, w0, hI, hc⟩ :=
    scan_loop_cases H ow has_list maxdevs (cmd % 256) Inv hstep fuel locals_init _ hinit
  refine ⟨l0, w0, hI, ?_⟩
  unfold onewire_bus_scan
  rcases hc with ⟨h1, h2⟩ | ⟨h1, h2⟩ | ⟨h1, h2, h3⟩
  · left; exact ⟨h1, by simp only [h2]⟩
  · right; left; exact ⟨h1, by simp only [h2]⟩
  · right; right
    rw [scan_pass_fst] at h2
    rw [scan_pass_absent H ow has_list (cmd % 256) l0 w0 h2] at h3
    exact ⟨h1, h2, by simp only [h3]⟩

theorem loop_cond_init (maxdevs : Int) (hm : 0 ≤ maxdevs) :
    loop_cond maxdevs locals_init = true := by
  unfold loop_cond locals_init
  rcases hm.eq_or_lt with h | h
  · simp [← h]
  · simp [h]

/-- C7: empty bus. If the first reset reports no device then, for every
`maxdevs ≥ 0`, every search command and whether or not a list is given, the
scan returns `0`, and all it did is: switch to 1-bit mode, one reset, switch
to 8-bit mode (no send, no read, no store). -/
theorem scan_empty_bus (has_list : Bool) (maxdevs : Int) (cmd fuel : Nat) (s : σ)
    (hm : 0 ≤ maxdevs)
    (hr : (onewire_reset H ow (driver_init H ow 1 { hw := s, trace := [] })).1 = false) :
    (onewire_bus_scan H ow has_list maxdevs cmd (fuel + 1) { hw := s, trace := [] }).1 = some 0 ∧
    (onewire_bus_scan H ow has_list maxdevs cmd (fuel + 1) { hw := s, trace := [] }).2.trace =
      [Event.driver_init 1, Event.reset false, Event.driver_init 8] := by
  unfold onewire_bus_scan
  simp only []
  unfold scan_loop
  rw [loop_cond_init maxdevs hm]
  simp only [if_true]
  rw [scan_pass_absent H ow has_list (cmd % 256) _ _ hr]
  simp [driver_init]

/-- C8: a reset that reports no device aborts the whole scan. In every run,
however long, whose trace contains a reset that found no device, the call
has returned `0`, and that reset is the last bus transaction: the trace ends
with it and the switch to 8-bit mode, and no earlier reset failed. -/
theorem scan_reset_absent_aborts (has_list : Bool) (maxdevs : Int) (cmd fuel : Nat) (s : σ)
    (h : Event.reset false ∈
      (onewire_bus_scan H ow has_list maxdevs cmd fuel { hw := s, trace := [] }).2.trace) :
    (onewire_bus_scan H ow has_list maxdevs cmd fuel { hw := s, trace := [] }).1 = some 0 ∧
    ∃ pre, (onewire_bus_scan H ow has_list maxdevs cmd fuel { hw := s, trace := [] }).2.trace =
        pre ++ [Event.reset false, Event.driver_init 8] ∧ Event.reset false ∉ pre := by
  obtain ⟨l0, w0, hI, hc⟩ := scan_cases H ow has_list maxdevs cmd
    (fun _ w => Event.reset false ∉ w.trace) { hw := s, trace := [] }
    (by simp [driver_init])
    (by
      intro l w hI _ hp
      rw [scan_pass_fst] at hp
      obtain ⟨_, k, evs, ok, st, hrun, htr, hst0, hst1, _, _⟩ :=
        scan_pass_present H ow has_list (cmd % 256) l w hp
      rw [htr]
      simp only [List.mem_append, List.mem_cons, not_or]
      refine ⟨hI, by simp, ?_, ?_, ?_⟩
      · intro hm; obtain ⟨v, hv⟩ := command_events_mem (cmd % 256) 8 0 _ hm; cases hv
      · intro hm; rcases hrun.events_mem _ hm with ⟨v, hv⟩ | ⟨v, hv⟩ <;> cases hv
      · cases has_list with
        | false => rw [hst0 rfl]; simp
        | true => rw [hst1 rfl]; simp)
    fuel
  rcases hc with ⟨_, h2⟩ | ⟨_, h2⟩ | ⟨_, _, h2⟩
  · rw [h2] at h; exact absurd h hI
  · rw [h2] at h; simp [driver_init] at h; exact absurd h hI
  · rw [h2]
    exact ⟨rfl, w0.trace, by simp [driver_init], hI⟩

/-- Whenever the scan returns, its trace is: the switch to 1-bit mode, then
events none of which is a mode switch, then the switch to 8-bit mode. -/
theorem scan_mode_trace (has_list : Bool) (maxdevs : Int) (cmd fuel : Nat) (s : σ)
    (n : Int)
    (h : (onewire_bus_scan H ow has_list maxdevs cmd fuel { hw := s, trace := [] }).1 = some n) :
    ∃ mid, (onewire_bus_scan H ow has_list maxdevs cmd fuel { hw := s, trace := [] }).2.trace =
        Event.driver_init 1 :: (mid ++ [Event.driver_init 8]) ∧
      ∀ e ∈ mid, ∀ bits, e ≠ Event.driver_init bits := by
  obtain ⟨l0, w0, hI, hc⟩ := scan_cases H ow has_list maxdevs cmd
    (fun _ w => ∃ mid, w.trace = Event.driver_init 1 :: mid ∧
      ∀ e ∈ mid, ∀ bits, e ≠ Event.driver_init bits) { hw := s, trace := [] }
    ⟨[], by simp [driver_init], by simp⟩
    (by
      intro l w hI _ hp
      rw [scan_pass_fst] at hp
      obtain ⟨mid, hmid, hno⟩ := hI
      obtain ⟨_, k, evs, ok, st, hrun, htr, hst0, hst1, _, _⟩ :=
        scan_pass_present H ow has_list (cmd % 256) l w hp
      refine ⟨mid ++ Event.reset true :: (command_events (cmd % 256) 8 0 ++ (evs ++ st)), ?_, ?_⟩
      · rw [htr, hmid]; simp
      · intro e he bits
        simp only [List.mem_append, List.mem_cons] at he
        rcases he with he | rfl | he | he | he
        · exact hno e he bits
        · simp
        · obtain ⟨v, hv⟩ := command_events_mem (cmd % 256) 8 0 _ he; rw [hv]; simp
        · rcases hrun.events_mem _ he with ⟨v, hv⟩ | ⟨v, hv⟩ <;> rw [hv] <;> simp
        · cases has_list with
          | false => rw [hst0 rfl] at he; cases he
          | true => rw [hst1 rfl] at he; simp at he; rw [he]; simp)
    fuel
  obtain ⟨mid, hmid, hno⟩ := hI
  rcases hc with ⟨_, h2⟩ | ⟨_, h2⟩ | ⟨_, _, h2⟩
  · rw [h2] at h; cases h
  · rw [h2]; exact ⟨mid, by simp [driver_init, hmid], hno⟩
  · rw [h2]
    refine ⟨mid ++ [Event.reset false], by simp [driver_init, hmid], ?_⟩
    intro e he bits
    simp only [List.mem_append, List.mem_singleton] at he
    rcases he with he | rfl
    · exact hno e he bits
    · simp

theorem loop_cond_finished (maxdevs : Int) (l : Locals) (h : l.finished = true) :
    loop_cond maxdevs l = false := by
  simp [loop_cond, h]

theorem quiet_pass (cmd k : Nat) (evs st : List Event) (t : List Event) (ht : quiet t)
    (hrun : AddrRun k evs true) (hst : ∀ e ∈ st, ∀ v, e ≠ Event.read v) :
    quiet (t ++ Event.reset true :: (command_events cmd 8 0 ++ (evs ++ st))) := by
  refine quiet_append ht (quiet_cons (fun v hv => by cases hv)
    (quiet_append (quiet_command cmd 8 0) (quiet_append hrun.is_quiet ?_)))
  induction st with
  | nil => exact quiet_nil
  | cons e st ih =>
    refine quiet_cons (fun v hv => absurd hv (hst e (by simp) v)) (ih ?_)
    intro e' he'
    exact hst e' (by simp [he'])

/-- C4: the error value. Whenever the scan returns, the value is `-1` if and
only if some address-bit step read both bits nonzero, and otherwise it is a
count `≥ 0`. -/
theorem scan_error_value (has_list : Bool) (maxdevs : Int) (cmd fuel : Nat) (s : σ) (n : Int)
    (h : (onewire_bus_scan H ow has_list maxdevs cmd fuel { hw := s, trace := [] }).1 = some n) :
    (n = -1 ↔ read_both_nonzero
      (onewire_bus_scan H ow has_list maxdevs cmd fuel { hw := s, trace := [] }).2.trace) ∧
    (n ≠ -1 → 0 ≤ n) := by
  obtain ⟨l0, w0, hI, hc⟩ := scan_cases H ow has_list maxdevs cmd
    (fun l w => (0 ≤ l.num_found ∧ quiet w.trace) ∨
      (l.num_found = -1 ∧ l.finished = true ∧ read_both_nonzero w.trace))
    { hw := s, trace := [] }
    (Or.inl ⟨by simp [locals_init], by
      simpa [driver_init] using quiet_single (Event.driver_init 1) (fun v hv => by cases hv)⟩)
    (by
      intro l w hI hcond hp
      rw [scan_pass_fst] at hp
      obtain ⟨_, k, evs, ok, st, hrun, htr, hst0, hst1, hok, hbad⟩ :=
        scan_pass_present H ow has_list (cmd % 256) l w hp
      rcases hI with ⟨hnf, hq⟩ | ⟨_, hfin, _⟩
      · have hst : ∀ e ∈ st, ∀ v, e ≠ Event.read v := by
          intro e he v
          cases has_list with
          | false => rw [hst0 rfl] at he; cases he
          | true => rw [hst1 rfl] at he; simp at he; rw [he]; simp
        cases ok with
        | true =>
          left
          refine ⟨by rw [(hok rfl).2]; omega, ?_⟩
          rw [htr]
          exact quiet_pass (cmd % 256) k evs st _ hq hrun hst
        | false =>
          right
          refine ⟨(hbad rfl).2.1, (hbad rfl).2.2, ?_⟩
          rw [htr]
          obtain ⟨pre, a, b, he, ha, hb, _⟩ := hrun.ends_in_reads
          have : read_both_nonzero (pre ++ [Event.read a, Event.read b]) :=
            ⟨pre, a, b, [], rfl, ha, hb⟩
          rw [← he] at this
          have h2 := read_both_append (w.trace ++ Event.reset true :: command_events (cmd % 256) 8 0)
            evs st this
          simpa using h2
      · rw [loop_cond_finished maxdevs l hfin] at hcond
        cases hcond)
    fuel
  have key : ∀ (m : Int) (t : List Event),
      ((0 ≤ m ∧ quiet t) ∨ (m = -1 ∧ read_both_nonzero t)) →
      (m = -1 ↔ read_both_nonzero (t ++ [Event.driver_init 8])) ∧ (m ≠ -1 → 0 ≤ m) := by
    intro m t hm
    rcases hm with ⟨h0, hq⟩ | ⟨h1, hr⟩
    · have hq8 : quiet (t ++ [Event.driver_init 8]) :=
        quiet_append hq (quiet_single _ (fun v hv => by cases hv))
      exact ⟨⟨fun e => by omega, fun e => absurd e (quiet_not_read_both _ hq8)⟩, fun _ => h0⟩
    · refine ⟨⟨fun _ => ?_, fun _ => h1⟩, fun e => absurd h1 e⟩
      simpa using read_both_append [] t [Event.driver_init 8] hr
  rcases hc with ⟨_, h2⟩ | ⟨_, h2⟩ | ⟨hcond, _, h2⟩
  · rw [h2] at h; cases h
  · rw [h2] at h ⊢
    cases h
    apply key
    rcases hI with h' | ⟨h1, _, h3⟩
    · exact Or.inl h'
    · exact Or.inr ⟨h1, h3⟩
  · rw [h2] at h ⊢
    cases h
    simp only [driver_init]
    apply key
    left
    rcases hI with ⟨_, hq⟩ | ⟨_, hfin, _⟩
    · exact ⟨le_refl 0, quiet_append hq (quiet_single _ (fun v hv => by cases hv))⟩
    · rw [loop_cond_finished maxdevs l0 hfin] at hcond
      cases hcond

/-- With `maxdevs = m > 0` the scan never returns more than `m`, whatever the
bus does. -/
theorem scan_le_maxdevs (has_list : Bool) (m : Int) (cmd fuel : Nat) (s : σ) (n : Int)
    (hm : 0 < m)
    (h : (onewire_bus_scan H ow has_list m cmd fuel { hw := s, trace := [] }).1 = some n) :
    n ≤ m := by
  obtain ⟨l0, w0, hI, hc⟩ := scan_cases H ow has_list m cmd
    (fun l _ => l.num_found ≤ m) { hw := s, trace := [] }
    (by simp only [locals_init]; omega)
    (by
      intro l w _ hcond hp
      rw [scan_pass_fst] at hp
      obtain ⟨_, k, evs, ok, st, _, _, _, _, hok, hbad⟩ :=
        scan_pass_present H ow has_list (cmd % 256) l w hp
      have hlt : l.num_found < m := by
        simp only [loop_cond, Bool.and_eq_true, Bool.or_eq_true, beq_iff_eq,
          decide_eq_true_eq] at hcond
        rcases hcond.2 with h0 | h0
        · omega
        · exact h0
      cases ok with
      | true => rw [(hok rfl).2]; omega
      | false => rw [(hbad rfl).2.1]; omega)
    fuel
  rcases hc with ⟨_, h2⟩ | ⟨_, h2⟩ | ⟨_, _, h2⟩
  · rw [h2] at h; cases h
  · rw [h2] at h; cases h; exact hI
  · rw [h2] at h; cases h; omega

end Generic


/-! ## Theorems: the simulated bus -/

theorem wired_and_word (A : List Nat) (bit : Nat → Bool) :
    (((wired_and A bit <<< 24) % 2 ^ 32) >>> 24) % 256 = wired_and A bit := by
  unfold wired_and
  split <;> rfl

theorem sim_read_first (ow : onewire_instance_t) (w : World Sim) (S A : List Nat) (i rx : Nat)
    (h : w.hw = { devices := S, active := A, cmd := 8, index := i, slot := 0, rx := rx }) :
    (onewire_read sim_hw ow w).1 = wired_and A (fun d => d.testBit i) ∧
    (onewire_read sim_hw ow w).2.hw =
      { devices := S, active := A, cmd := 8, index := i, slot := 1,
        rx := wired_and A (fun d => d.testBit i) <<< 24 } := by
  simp only [onewire_read, sim_hw, sim_put, h, lt_irrefl, if_false, if_true, wired_and_word,
    and_self]

theorem sim_read_second (ow : onewire_instance_t) (w : World Sim) (S A : List Nat) (i rx : Nat)
    (h : w.hw = { devices := S, active := A, cmd := 8, index := i, slot := 1, rx := rx }) :
    (onewire_read sim_hw ow w).1 = wired_and A (fun d => !d.testBit i) ∧
    (onewire_read sim_hw ow w).2.hw =
      { devices := S, active := A, cmd := 8, index := i, slot := 2,
        rx := wired_and A (fun d => !d.testBit i) <<< 24 } := by
  simp only [onewire_read, sim_hw, sim_put, h, lt_irrefl, if_false, if_true, wired_and_word,
    one_ne_zero, and_self]

theorem sim_send_dir (ow : onewire_instance_t) (w : World Sim) (S A : List Nat) (i rx : Nat)
    (bit : Bool)
    (h : w.hw = { devices := S, active := A, cmd := 8, index := i, slot := 2, rx := rx }) :
    (onewire_send sim_hw ow (if bit then 1 else 0) w).hw =
      { devices := S, active := A.filter (fun d => d.testBit i == bit), cmd := 8,
        index := i + 1, slot := 0, rx := 0 } := by
  cases bit <;>
    simp [onewire_send, sim_hw, sim_put, h]

theorem sim_send_one (ow : onewire_instance_t) (w : World Sim) (S A : List Nat) (i rx : Nat)
    (h : w.hw = { devices := S, active := A, cmd := 8, index := i, slot := 2, rx := rx }) :
    (onewire_send sim_hw ow 1 w).hw =
      { devices := S, active := A.filter (fun d => d.testBit i == true), cmd := 8,
        index := i + 1, slot := 0, rx := 0 } :=
  sim_send_dir ow w S A i rx true h

theorem sim_send_zero (ow : onewire_instance_t) (w : World Sim) (S A : List Nat) (i rx : Nat)
    (h : w.hw = { devices := S, active := A, cmd := 8, index := i, slot := 2, rx := rx }) :
    (onewire_send sim_hw ow 0 w).hw =
      { devices := S, active := A.filter (fun d => d.testBit i == false), cmd := 8,
        index := i + 1, slot := 0, rx := 0 } :=
  sim_send_dir ow w S A i rx false h

theorem wired_and_eq_zero (A : List Nat) (bit : Nat → Bool) :
    wired_and A bit = 0 ↔ ∃ d ∈ A, bit d = false := by
  unfold wired_and
  by_cases h : A.all bit = true
  · rw [if_pos h]
    simp only [one_ne_zero, false_iff, not_exists, not_and, Bool.not_eq_false]
    exact fun d hd => List.all_eq_true.1 h d hd
  · rw [if_neg h]
    simp only [true_iff]
    simp only [List.all_eq_true, not_forall, Bool.not_eq_true] at h
    obtain ⟨d, hd, hb⟩ := h
    exact ⟨d, hd, hb⟩

theorem testBit_set (c i j : Nat) :
    (c ||| (1 <<< i)).testBit j = if j = i then true else c.testBit j := by
  rw [Nat.testBit_or, Nat.one_shiftLeft, Nat.testBit_two_pow]
  by_cases h : j = i
  · subst h; simp
  · have : ¬ i = j := fun e => h e.symm
    simp [h, this]

theorem testBit_clear (c i j : Nat) (hc : c < 2 ^ 64) :
    (c &&& ((2 ^ 64 - 1) ^^^ (1 <<< i))).testBit j = if j = i then false else c.testBit j := by
  rw [Nat.testBit_and, Nat.testBit_xor, Nat.one_shiftLeft, Nat.testBit_two_pow,
    Nat.testBit_two_pow_sub_one]
  by_cases h : j = i
  · subst h; by_cases h64 : j < 64 <;> simp [h64]
    exact Nat.testBit_lt_two_pow (lt_of_lt_of_le hc (Nat.pow_le_pow_right (by norm_num) (by omega)))
  · have : ¬ i = j := fun e => h e.symm
    by_cases h64 : j < 64
    · simp [h, this, h64]
    · simp only [h, this, h64, if_false, decide_False, Bool.xor_false, Bool.and_false]
      exact (Nat.testBit_lt_two_pow
        (lt_of_lt_of_le hc (Nat.pow_le_pow_right (by norm_num) (by omega)))).symm

theorem and_shift_eq_zero (c i : Nat) : (c &&& (1 <<< i)) = 0 ↔ c.testBit i = false := by
  constructor
  · intro h
    have := congrArg (fun x => x.testBit i) h
    simpa [Nat.testBit_and, Nat.one_shiftLeft, Nat.testBit_two_pow] using this
  · intro h
    apply Nat.eq_of_testBit_eq
    intro j
    rw [Nat.testBit_and, Nat.one_shiftLeft, Nat.testBit_two_pow]
    by_cases e : i = j
    · subst e; simp [h]
    · simp [e]

theorem set_lt (c i : Nat) (hc : c < 2 ^ 64) (hi : i < 64) : c ||| (1 <<< i) < 2 ^ 64 := by
  apply Nat.or_lt_two_pow hc
  rw [Nat.one_shiftLeft]
  exact Nat.pow_lt_pow_right (by norm_num) hi

theorem clear_lt (c m : Nat) (hc : c < 2 ^ 64) : c &&& m < 2 ^ 64 :=
  lt_of_le_of_lt Nat.and_le_left hc

theorem sim_reset_present (ow : onewire_instance_t) (w : World Sim) :
    (onewire_reset sim_hw ow w).1 = true ∧
    (onewire_reset sim_hw ow w).2.hw =
      { devices := w.hw.devices, active := w.hw.devices, cmd := 0, index := 0, slot := 0,
        rx := 0 } := by
  simp [onewire_reset, sim_hw, sim_reset]

theorem sim_send_command (ow : onewire_instance_t) (c : Nat) (w : World Sim) (S : List Nat)
    (h : w.hw = { devices := S, active := S, cmd := 0, index := 0, slot := 0, rx := 0 }) :
    (send_command sim_hw ow c 8 0 w).hw =
      { devices := S, active := S, cmd := 8, index := 0, slot := 0, rx := 0 } := by
  simp [send_command, onewire_send, sim_hw, sim_put, h]

/-- One address-bit step on the simulated bus with participating devices `A`:
never a `(1,1)` read; the bit sent is the bit of some participating device;
the candidate gets that bit at position `i`; the participating devices are
filtered by it; and `finished` / `next_branch_point` change exactly at a
collision answered by `0`. -/
theorem sim_address_step (ow : onewire_instance_t) (w : World Sim) (S A : List Nat)
    (i rx : Nat) (l : Locals) (hi : i < 64) (hc : l.device_id < 2 ^ 64)
    (hw : w.hw = { devices := S, active := A, cmd := 8, index := i, slot := 0, rx := rx })
    (hA : A ≠ []) :
    ∃ bit : Bool,
      (address_step sim_hw ow i l w).1 = true ∧
      (address_step sim_hw ow i l w).2.2.hw =
        { devices := S, active := A.filter (fun d => d.testBit i == bit), cmd := 8,
          index := i + 1, slot := 0, rx := 0 } ∧
      (address_step sim_hw ow i l w).2.1.num_found = l.num_found ∧
      (address_step sim_hw ow i l w).2.1.branch_point = l.branch_point ∧
      (address_step sim_hw ow i l w).2.1.device_id < 2 ^ 64 ∧
      (∀ j, (address_step sim_hw ow i l w).2.1.device_id.testBit j =
        if j = i then bit else l.device_id.testBit j) ∧
      (∃ d ∈ A, d.testBit i = bit) ∧
      (((∃ d ∈ A, d.testBit i = false) ∧ (∃ d ∈ A, d.testBit i = true)) →
        (bit = true ↔ ((i : Int) = l.branch_point ∨
          ((i : Int) < l.branch_point ∧ l.device_id.testBit i = true)))) ∧
      ((((∃ d ∈ A, d.testBit i = false) ∧ (∃ d ∈ A, d.testBit i = true)) ∧ bit = false) →
        (address_step sim_hw ow i l w).2.1.finished = false ∧
        (address_step sim_hw ow i l w).2.1.next_branch_point = i) ∧
      (¬(((∃ d ∈ A, d.testBit i = false) ∧ (∃ d ∈ A, d.testBit i = true)) ∧ bit = false) →
        (address_step sim_hw ow i l w).2.1.finished = l.finished ∧
        (address_step sim_hw ow i l w).2.1.next_branch_point = l.next_branch_point) := by
  have r1 := sim_read_first ow w S A i rx hw
  have r2 := sim_read_second ow (onewire_read sim_hw ow w).2 S A i _ r1.2
  have s1 := sim_send_one ow (onewire_read sim_hw ow (onewire_read sim_hw ow w).2).2 S A i _ r2.2
  have s0 := sim_send_zero ow (onewire_read sim_hw ow (onewire_read sim_hw ow w).2).2 S A i _ r2.2
  have za := wired_and_eq_zero A (fun d => d.testBit i)
  have zb := wired_and_eq_zero A (fun d => !d.testBit i)
  simp only [Bool.not_eq_false'] at zb
  unfold address_step
  simp only [r1.1, r2.1, za, zb]
  by_cases ha : ∃ d ∈ A, d.testBit i = false
  · by_cases hb : ∃ d ∈ A, d.testBit i = true
    · rw [if_pos ⟨ha, hb⟩]
      by_cases h2 : (i : Int) = l.branch_point
      · rw [if_pos h2]
        refine ⟨true, rfl, s1, rfl, rfl, set_lt _ _ hc hi, fun j => testBit_set _ _ _, hb,
          fun _ => ⟨fun _ => Or.inl h2, fun _ => rfl⟩, fun h => by simp at h,
          fun _ => ⟨rfl, rfl⟩⟩
      · rw [if_neg h2]
        by_cases h3 : (i : Int) > l.branch_point ∨ (l.device_id &&& (1 <<< i)) = 0
        · rw [if_pos h3]
          refine ⟨false, rfl, s0, rfl, rfl, clear_lt _ _ hc, fun j => testBit_clear _ _ _ hc, ha,
            fun _ => ⟨fun h => by simp at h, ?_⟩, fun _ => ⟨rfl, rfl⟩,
            fun h => absurd ⟨⟨ha, hb⟩, rfl⟩ h⟩
          rintro (h | ⟨h, hbit⟩)
          · exact absurd h h2
          · rcases h3 with h3 | h3
            · omega
            · rw [(and_shift_eq_zero _ _).1 h3] at hbit; cases hbit
        · rw [if_neg h3]
          have hbit : l.device_id.testBit i = true := by
            cases hb' : l.device_id.testBit i with
            | true => rfl
            | false => exact absurd (Or.inr ((and_shift_eq_zero _ _).2 hb')) h3
          refine ⟨true, rfl, s1, rfl, rfl, hc, ?_, hb,
            fun _ => ⟨fun _ => Or.inr ⟨by omega, hbit⟩, fun _ => rfl⟩, fun h => by simp at h,
            fun _ => ⟨rfl, rfl⟩⟩
          intro j
          by_cases hj : j = i
          · rw [if_pos hj, hj, hbit]
          · rw [if_neg hj]
    · have hall : ∀ d ∈ A, d.testBit i = false := by
        intro d hd
        cases hd' : d.testBit i with
        | false => rfl
        | true => exact absurd ⟨d, hd, hd'⟩ hb
      rw [if_neg (fun h => hb h.2), if_neg (fun h => h.1 (za.2 ha)), if_pos ha]
      refine ⟨false, rfl, s0, rfl, rfl, clear_lt _ _ hc, fun j => testBit_clear _ _ _ hc, ha,
        fun h => absurd h.2 hb, fun h => absurd h.1.2 hb, fun _ => ⟨rfl, rfl⟩⟩
  · have hall : ∀ d ∈ A, d.testBit i = true := by
      intro d hd
      cases hd' : d.testBit i with
      | true => rfl
      | false => exact absurd ⟨d, hd, hd'⟩ ha
    have hb : ∃ d ∈ A, d.testBit i = true := by
      cases A with
      | nil => exact absurd rfl hA
      | cons d A => exact ⟨d, by simp, hall d (by simp)⟩
    rw [if_neg (fun h => ha h.1), if_neg (fun h => h.2 (zb.2 hb)), if_neg ha]
    refine ⟨true, rfl, s1, rfl, rfl, set_lt _ _ hc hi, fun j => testBit_set _ _ _, hb,
      fun h => absurd h.1 ha, fun h => absurd h.1.1 ha, fun _ => ⟨rfl, rfl⟩⟩

/-! ## Theorems: one pass over the simulated bus -/

theorem agree_congr {j c c' : Nat} (h : ∀ k < j, c'.testBit k = c.testBit k) (e : Nat) :
    agree j c' e ↔ agree j c e := by
  unfold agree
  constructor
  · intro h1 k hk; rw [h1 k hk, h k hk]
  · intro h1 k hk; rw [h1 k hk, h k hk]

theorem branch_open_congr {S : List Nat} {j c c' : Nat}
    (h : ∀ k ≤ j, c'.testBit k = c.testBit k) :
    branch_open S c' j ↔ branch_open S c j := by
  unfold branch_open
  rw [h j (le_refl j)]
  have hc : ∀ e, agree j c' e ↔ agree j c e :=
    fun e => agree_congr (fun k hk => h k (le_of_lt hk)) e
  simp only [hc]

theorem agree_succ (i c d : Nat) :
    agree (i + 1) c d ↔ agree i c d ∧ d.testBit i = c.testBit i := by
  unfold agree
  constructor
  · intro h
    exact ⟨fun j hj => h j (by omega), h i (by omega)⟩
  · rintro ⟨h1, h2⟩ j hj
    rcases Nat.lt_succ_iff_lt_or_eq.1 hj with h | h
    · exact h1 j h
    · rw [h]; exact h2

theorem agree_refl (i c : Nat) : agree i c c := fun _ _ => rfl

theorem agree_full {c d : Nat} (hc : c < 2 ^ 64) (hd : d < 2 ^ 64) (h : agree 64 c d) :
    d = c := by
  apply Nat.eq_of_testBit_eq
  intro j
  by_cases hj : j < 64
  · exact h j hj
  · have hp : (2 : Nat) ^ 64 ≤ 2 ^ j := Nat.pow_le_pow_right (by norm_num) (by omega)
    rw [Nat.testBit_lt_two_pow (lt_of_lt_of_le hd hp),
      Nat.testBit_lt_two_pow (lt_of_lt_of_le hc hp)]

/-- One address-bit step preserves the invariant of the walk. -/
theorem walk_step (ow : onewire_instance_t) (S : List Nat) (c0 : Nat) (bp : Int) (i : Nat)
    (l : Locals) (A : List Nat) (w : World Sim) (rx : Nat) (hi : i < 64)
    (hpre : resumable S c0 bp) (hinv : WalkInv S c0 bp i l A)
    (hw : w.hw = { devices := S, active := A, cmd := 8, index := i, slot := 0, rx := rx }) :
    (address_step sim_hw ow i l w).1 = true ∧
    (address_step sim_hw ow i l w).2.1.num_found = l.num_found ∧
    ∃ A', WalkInv S c0 bp (i + 1) (address_step sim_hw ow i l w).2.1 A' ∧
      (address_step sim_hw ow i l w).2.2.hw =
        { devices := S, active := A', cmd := 8, index := i + 1, slot := 0, rx := 0 } := by
  obtain ⟨bit, h1, hhw, hnf, hbp, hlt, hbits, hex, hdir, hmark, hnomark⟩ :=
    sim_address_step ow w S A i rx l hi hinv.lt hw hinv.nonempty
  refine ⟨h1, hnf, _, ?_, hhw⟩
  generalize (address_step sim_hw ow i l w).2.1 = l' at hnf hbp hlt hbits hmark hnomark
  have hlow : ∀ k, k ≠ i → l'.device_id.testBit k = l.device_id.testBit k := by
    intro k hk; rw [hbits, if_neg hk]
  have hat : l'.device_id.testBit i = bit := by rw [hbits, if_pos rfl]
  have memA : ∀ d, d ∈ A ↔ d ∈ S ∧ agree i l.device_id d := by
    intro d; rw [hinv.active]; simp [List.mem_filter]
  have agree_le : ∀ j ≤ i, ∀ e, agree j l'.device_id e ↔ agree j l.device_id e :=
    fun j hj e => agree_congr (fun k hk => hlow k (by omega)) e
  have open_lt : ∀ j < i, (branch_open S l'.device_id j ↔ branch_open S l.device_id j) :=
    fun j hj => branch_open_congr (fun k hk => hlow k (by omega))
  have open_i : branch_open S l'.device_id i ↔
      (((∃ d ∈ A, d.testBit i = false) ∧ (∃ d ∈ A, d.testBit i = true)) ∧ bit = false) := by
    unfold branch_open
    rw [hat]
    constructor
    · rintro ⟨hb, e, he, hag, hbit⟩
      have heA : e ∈ A := (memA e).2 ⟨he, (agree_le i (le_refl i) e).1 hag⟩
      obtain ⟨d, hd, hdb⟩ := hex
      exact ⟨⟨⟨d, hd, by rw [hdb, hb]⟩, ⟨e, heA, hbit⟩⟩, hb⟩
    · rintro ⟨⟨_, e, he, hbit⟩, hb⟩
      exact ⟨hb, e, ((memA e).1 he).1, (agree_le i (le_refl i) e).2 ((memA e).1 he).2, hbit⟩
  have c0A : (i : Int) ≤ bp → c0 ∈ S ∧ c0 ∈ A := by
    intro hle
    rcases hpre with h | ⟨_, _, hS, _⟩
    · omega
    · refine ⟨hS, (memA c0).2 ⟨hS, ?_⟩⟩
      intro k hk
      exact (hinv.replay k hk (by omega)).symm
  constructor
  · exact hlt
  · rw [hbp, hinv.bp_eq]
  · rw [hinv.active, List.filter_filter]
    apply List.filter_congr
    intro d _
    have := agree_succ i l'.device_id d
    rw [agree_le i (le_refl i) d, hat] at this
    by_cases ha : agree i l.device_id d <;> by_cases hb : d.testBit i = bit <;>
      simp [ha, hb, this]
  · obtain ⟨d, hd, hdb⟩ := hex
    intro hnil
    have : d ∈ A.filter (fun d => d.testBit i == bit) := by
      simp [List.mem_filter, hd, hdb]
    rw [hnil] at this
    cases this
  · intro j hj
    rw [hlow j (by omega)]
    exact hinv.high j (by omega)
  · intro j hj hjbp
    by_cases hji : j = i
    · subst hji
      rw [hat]
      obtain ⟨_, hc0A⟩ := c0A (le_of_lt hjbp)
      by_cases hcoll : (∃ d ∈ A, d.testBit j = false) ∧ (∃ d ∈ A, d.testBit j = true)
      · have hd := hdir hcoll
        have hh := hinv.high j (le_refl j)
        cases hb : bit with
        | true =>
          rw [hb] at hd
          rcases hd.1 rfl with h | ⟨_, h⟩
          · rw [hinv.bp_eq] at h; omega
          · rw [← hh, h]
        | false =>
          rw [hb] at hd
          cases hc : c0.testBit j with
          | false => rfl
          | true =>
            have := hd.2 (Or.inr ⟨by rw [hinv.bp_eq]; exact hjbp, by rw [hh, hc]⟩)
            cases this
      · obtain ⟨d, hd, hdb⟩ := hex
        cases hc : c0.testBit j with
        | false =>
          cases hb : bit with
          | false => rfl
          | true => exact absurd ⟨⟨c0, hc0A, hc⟩, ⟨d, hd, by rw [hdb, hb]⟩⟩ hcoll
        | true =>
          cases hb : bit with
          | true => rfl
          | false => exact absurd ⟨⟨d, hd, by rw [hdb, hb]⟩, ⟨c0, hc0A, hc⟩⟩ hcoll
    · rw [hlow j hji]
      exact hinv.replay j (by omega) hjbp
  · intro j hj hjbp
    by_cases hji : j = i
    · subst hji
      rw [hat]
      obtain ⟨_, hc0A⟩ := c0A (le_of_eq hjbp)
      rcases hpre with h | ⟨h0, _, hS, hopen⟩
      · omega
      · have hbn : bp.toNat = j := by omega
        rw [hbn] at hopen
        obtain ⟨hc0, e, he, hag, hbit⟩ := hopen
        have heA : e ∈ A := by
          refine (memA e).2 ⟨he, ?_⟩
          intro k hk
          rw [hag k hk]
          exact (hinv.replay k hk (by omega)).symm
        exact (hdir ⟨⟨c0, hc0A, hc0⟩, ⟨e, heA, hbit⟩⟩).2 (Or.inl (by rw [hinv.bp_eq]; exact hjbp))
    · rw [hlow j hji]
      exact hinv.flip j (by omega) hjbp
  · intro j hj hjbp hbit e he hag
    by_cases hji : j = i
    · subst hji
      rw [hat] at hbit
      have heA : e ∈ A := (memA e).2 ⟨he, (agree_le j (le_refl j) e).1 hag⟩
      cases hb : e.testBit j with
      | true => rfl
      | false =>
        obtain ⟨d, hd, hdb⟩ := hex
        have hcoll : (∃ d ∈ A, d.testBit j = false) ∧ (∃ d ∈ A, d.testBit j = true) :=
          ⟨⟨e, heA, hb⟩, ⟨d, hd, by rw [hdb, hbit]⟩⟩
        rcases (hdir hcoll).1 hbit with h | ⟨h, _⟩
        · rw [hinv.bp_eq] at h; omega
        · rw [hinv.bp_eq] at h; omega
    · rw [hlow j hji] at hbit
      exact hinv.least j (by omega) hjbp hbit e he ((agree_le j (by omega) e).1 hag)
  · intro hfin j hj
    by_cases hm : ((∃ d ∈ A, d.testBit i = false) ∧ (∃ d ∈ A, d.testBit i = true)) ∧ bit = false
    · rw [(hmark hm).1] at hfin; cases hfin
    · by_cases hji : j = i
      · subst hji; rw [open_i]; exact hm
      · rw [open_lt j (by omega)]
        exact hinv.fin_true (by rw [← (hnomark hm).1]; exact hfin) j (by omega)
  · intro hfin
    by_cases hm : ((∃ d ∈ A, d.testBit i = false) ∧ (∃ d ∈ A, d.testBit i = true)) ∧ bit = false
    · exact ⟨i, (hmark hm).2, by omega, open_i.2 hm, fun j h1 h2 => by omega⟩
    · obtain ⟨nb, hnb, hlt', hopen, hbetween⟩ :=
        hinv.fin_false (by rw [← (hnomark hm).1]; exact hfin)
      refine ⟨nb, by rw [(hnomark hm).2]; exact hnb, by omega, (open_lt nb hlt').2 hopen, ?_⟩
      intro j h1 h2
      by_cases hji : j = i
      · subst hji; rw [open_i]; exact hm
      · rw [open_lt j (by omega)]
        exact hbetween j h1 (by omega)

/-- The address loop on the simulated bus runs all its steps and keeps the
invariant of the walk. -/
theorem walk_loop (ow : onewire_instance_t) (S : List Nat) (c0 : Nat) (bp : Int)
    (hpre : resumable S c0 bp) (n : Nat) :
    ∀ (i : Nat) (l : Locals) (A : List Nat) (w : World Sim) (rx : Nat), i + n = 64 →
      WalkInv S c0 bp i l A →
      w.hw = { devices := S, active := A, cmd := 8, index := i, slot := 0, rx := rx } →
      (address_loop sim_hw ow n i l w).1.num_found = l.num_found ∧
      (address_loop sim_hw ow n i l w).2.hw.devices = S ∧
      ∃ A', WalkInv S c0 bp 64 (address_loop sim_hw ow n i l w).1 A' := by
  induction n with
  | zero =>
    intro i l A w rx hi hinv hw
    have : i = 64 := by omega
    subst this
    exact ⟨rfl, by simp [address_loop, hw], A, hinv⟩
  | succ n ih =>
    intro i l A w rx hi hinv hw
    obtain ⟨h1, hnf, A', hinv', hw'⟩ := walk_step ow S c0 bp i l A w rx (by omega) hpre hinv hw
    rw [address_loop]
    simp only [h1, if_true]
    obtain ⟨h2, h3, h4⟩ := ih (i + 1) _ A' _ 0 (by omega) hinv' hw'
    exact ⟨by rw [h2, hnf], h3, h4⟩

theorem walk_init (S : List Nat) (l : Locals) (hS : S ≠ []) (hc : l.device_id < 2 ^ 64) :
    WalkInv S l.device_id l.next_branch_point 0
      { l with finished := true, branch_point := l.next_branch_point } S where
  lt := hc
  bp_eq := rfl
  active := by
    symm
    rw [List.filter_eq_self]
    intro d _
    simp [agree]
  nonempty := hS
  high := fun _ _ => rfl
  replay := fun j hj => by omega
  flip := fun j hj => by omega
  least := fun j hj => by omega
  fin_true := fun _ j hj => by omega
  fin_false := fun h => by simp at h

/-- Two different 64-bit codes have a first bit where they differ. -/
theorem first_diff {c e : Nat} (hc : c < 2 ^ 64) (he : e < 2 ^ 64) (hne : e ≠ c) :
    ∃ j < 64, agree j c e ∧ e.testBit j ≠ c.testBit j := by
  by_contra hcon
  apply hne
  apply agree_full hc he
  have key : ∀ n, n ≤ 64 → agree n c e := by
    intro n
    induction n with
    | zero => intro _ j hj; omega
    | succ n ih =>
      intro hn
      have hag := ih (by omega)
      rw [agree_succ]
      refine ⟨hag, ?_⟩
      by_contra hd
      exact hcon ⟨n, by omega, hag, hd⟩
  exact key 64 (le_refl 64)


theorem stores_append (t u : List Event) : stores (t ++ u) = stores t ++ stores u := by
  induction t with
  | nil => rfl
  | cons e t ih => cases e <;> simp [stores, ih]

theorem resets_append (t u : List Event) : resets (t ++ u) = resets t + resets u := by
  induction t with
  | nil => simp [resets]
  | cons e t ih => cases e <;> simp [resets, ih]; omega

theorem stores_resets_of_bits (t : List Event)
    (h : ∀ e ∈ t, (∃ v, e = Event.read v) ∨ (∃ v, e = Event.send v)) :
    stores t = [] ∧ resets t = 0 := by
  induction t with
  | nil => exact ⟨rfl, rfl⟩
  | cons e t ih =>
    have ih' := ih (fun e' he' => h e' (by simp [he']))
    rcases h e (by simp) with ⟨v, rfl⟩ | ⟨v, rfl⟩
    · exact ⟨by simp [stores, ih'.1], by simp [resets, ih'.2]⟩
    · exact ⟨by simp [stores, ih'.1], by simp [resets, ih'.2]⟩

section Generic

variable {σ : Type} (H : Hw σ) (ow : onewire_instance_t)

/-- The local variables and the hardware state after a pass whose reset found
a device. -/
theorem scan_pass_locals (has_list : Bool) (cmd : Nat) (l : Locals) (w : World σ)
    (h : (onewire_reset H ow w).1 = true) :
    (scan_pass H ow has_list cmd l w).2.1 =
      { (address_loop H ow 64 0 { l with finished := true, branch_point := l.next_branch_point }
          (send_command H ow cmd 8 0 (onewire_reset H ow w).2)).1 with
        num_found := (address_loop H ow 64 0
          { l with finished := true, branch_point := l.next_branch_point }
          (send_command H ow cmd 8 0 (onewire_reset H ow w).2)).1.num_found + 1 } ∧
    (scan_pass H ow has_list cmd l w).2.2.hw =
      (address_loop H ow 64 0 { l with finished := true, branch_point := l.next_branch_point }
          (send_command H ow cmd 8 0 (onewire_reset H ow w).2)).2.hw := by
  unfold scan_pass
  simp only [h, Bool.true_eq_false, if_false]
  cases has_list <;> simp

/-- The stores and resets of a completed pass. -/
theorem scan_pass_stores (has_list : Bool) (cmd : Nat) (l : Locals) (w : World σ)
    (h : (onewire_reset H ow w).1 = true)
    (hnf : (scan_pass H ow has_list cmd l w).2.1.num_found ≠ -1) :
    stores (scan_pass H ow has_list cmd l w).2.2.trace =
      stores w.trace ++
        (if has_list then [(l.num_found, (scan_pass H ow has_list cmd l w).2.1.device_id)]
          else []) ∧
    resets (scan_pass H ow has_list cmd l w).2.2.trace = resets w.trace + 1 := by
  obtain ⟨_, k, evs, ok, st, hrun, htr, hst0, hst1, hok, hbad⟩ :=
    scan_pass_present H ow has_list cmd l w h
  have hok' : ok = true := by
    cases ok with
    | true => rfl
    | false => exact absurd (hbad rfl).2.1 hnf
  subst hok'
  have h1 := stores_resets_of_bits (command_events cmd 8 0)
    (fun e he => Or.inr (command_events_mem cmd 8 0 e he))
  have h2 := stores_resets_of_bits evs hrun.events_mem
  rw [htr]
  cases has_list with
  | false =>
    rw [hst0 rfl]
    simp [stores_append, resets_append, stores, resets, h1, h2]
  | true =>
    rw [hst1 rfl]
    simp [stores_append, resets_append, stores, resets, h1, h2]

end Generic

/-- A pass over the simulated bus: it completes, and what it leaves behind. -/
theorem sim_pass (ow : onewire_instance_t) (has_list : Bool) (cmd : Nat) (S : List Nat)
    (l : Locals) (w : World Sim) (hS : S ≠ []) (hS64 : ∀ d ∈ S, d < 2 ^ 64)
    (hdev : w.hw.devices = S) (hc : l.device_id < 2 ^ 64)
    (hpre : resumable S l.device_id l.next_branch_point) (hnf : 0 ≤ l.num_found) :
    (scan_pass sim_hw ow has_list cmd l w).1 = true ∧
    PassPost S l (scan_pass sim_hw ow has_list cmd l w).2.1 ∧
    (scan_pass sim_hw ow has_list cmd l w).2.2.hw.devices = S ∧
    stores (scan_pass sim_hw ow has_list cmd l w).2.2.trace =
      stores w.trace ++
        (if has_list then [(l.num_found, (scan_pass sim_hw ow has_list cmd l w).2.1.device_id)]
          else []) ∧
    resets (scan_pass sim_hw ow has_list cmd l w).2.2.trace = resets w.trace + 1 := by
  obtain ⟨hr, hrhw⟩ := sim_reset_present ow w
  rw [hdev] at hrhw
  have hcmd := sim_send_command ow cmd (onewire_reset sim_hw ow w).2 S hrhw
  obtain ⟨hl, hhw⟩ := scan_pass_locals sim_hw ow has_list cmd l w hr
  obtain ⟨wnf, wdev, A', winv⟩ := walk_loop ow S l.device_id l.next_branch_point hpre 64 0
    { l with finished := true, branch_point := l.next_branch_point } S
    (send_command sim_hw ow cmd 8 0 (onewire_reset sim_hw ow w).2) 0 (by norm_num)
    (walk_init S l hS hc) hcmd
  have hnf' : (scan_pass sim_hw ow has_list cmd l w).2.1.num_found = l.num_found + 1 := by
    rw [hl]; simp only []; rw [wnf]
  have hst := scan_pass_stores sim_hw ow has_list cmd l w hr (by rw [hnf']; omega)
  refine ⟨(scan_pass_present sim_hw ow has_list cmd l w hr).1, ?_, by rw [hhw, wdev], hst.1,
    hst.2⟩
  rw [hl]
  generalize (address_loop sim_hw ow 64 0
    { l with finished := true, branch_point := l.next_branch_point }
    (send_command sim_hw ow cmd 8 0 (onewire_reset sim_hw ow w).2)).1 = l2 at wnf winv
  have hmem : l2.device_id ∈ S := by
    have hne := winv.nonempty
    cases hA : A' with
    | nil => exact absurd hA hne
    | cons d A2 =>
      have hd : d ∈ A' := by rw [hA]; simp
      rw [winv.active, List.mem_filter] at hd
      have hag : agree 64 l2.device_id d := by simpa using hd.2
      rw [← agree_full winv.lt (hS64 d hd.1) hag]
      exact hd.1
  have hb64 : l.next_branch_point < 64 := by
    rcases hpre with h | ⟨_, h, _⟩
    · omega
    · exact h
  exact {
    mem := hmem
    lt := winv.lt
    num_found := by simp only []; rw [wnf]
    replay := fun j hj => winv.replay j (by omega) hj
    flip := fun j hj => winv.flip j (by omega) hj
    least := fun j hj hb => winv.least j hj hb
    fin_true := winv.fin_true
    fin_false := winv.fin_false }

/-! ## Theorems: the order of discovery -/

theorem rom_lt_irrefl (c : Nat) : ¬rom_lt c c := by
  rintro ⟨i, _, _, h0, h1⟩
  rw [h0] at h1
  cases h1

theorem no_branch_open_iff (S : List Nat) (c : Nat) :
    (∀ j < 64, ¬branch_open S c j) ↔ ∀ e ∈ S, ¬rom_lt c e := by
  constructor
  · rintro h e he ⟨j, hj, hag, h0, h1⟩
    exact h j hj ⟨h0, e, he, hag, h1⟩
  · rintro h j hj ⟨h0, e, he, hag, h1⟩
    exact h e he ⟨j, hj, hag, h0, h1⟩

/-- The first pass finds the least device. -/
theorem pass_first {S : List Nat} {l l' : Locals} (hS64 : ∀ d ∈ S, d < 2 ^ 64)
    (hp : PassPost S l l') (hb : l.next_branch_point = -1) :
    ∀ e ∈ S, e ≠ l'.device_id → rom_lt l'.device_id e := by
  intro e he hne
  obtain ⟨j, hj, hag, hd⟩ := first_diff hp.lt (hS64 e he) hne
  refine ⟨j, hj, hag, ?_⟩
  cases hc : l'.device_id.testBit j with
  | true =>
    have := hp.least j hj (by omega) hc e he hag
    rw [this, hc] at hd
    exact absurd rfl hd
  | false =>
    cases hb' : e.testBit j with
    | true => exact ⟨rfl, rfl⟩
    | false => rw [hb', hc] at hd; exact absurd rfl hd

/-- A later pass finds the successor of the device found before. -/
theorem pass_next {S : List Nat} {l l' : Locals} (hS64 : ∀ d ∈ S, d < 2 ^ 64)
    (hp : PassPost S l l') (nb : Nat) (hb : l.next_branch_point = nb) (hnb : nb < 64)
    (hopen : branch_open S l.device_id nb)
    (hmax : ∀ j, nb < j → j < 64 → ¬branch_open S l.device_id j) :
    rom_lt l.device_id l'.device_id ∧
    (∀ e, rom_lt l'.device_id e → rom_lt l.device_id e) ∧
    (∀ e ∈ S, rom_lt l.device_id e → e = l'.device_id ∨ rom_lt l'.device_id e) := by
  have hrep : ∀ j, j < nb → l'.device_id.testBit j = l.device_id.testBit j :=
    fun j hj => hp.replay j (by rw [hb]; exact_mod_cast hj)
  have hflip : l'.device_id.testBit nb = true := hp.flip nb (by rw [hb])
  have h0 : l.device_id.testBit nb = false := hopen.1
  refine ⟨⟨nb, hnb, fun j hj => hrep j hj, h0, hflip⟩, ?_, ?_⟩
  · rintro e ⟨j, hj, hag, hc, he⟩
    rcases Nat.lt_trichotomy j nb with h | h | h
    · exact ⟨j, hj, fun k hk => by rw [hag k hk, hrep k (by omega)], by rw [← hrep j h, hc], he⟩
    · subst h; rw [hflip] at hc; cases hc
    · exact ⟨nb, hnb, fun k hk => by rw [hag k (by omega), hrep k hk], h0,
        by rw [hag nb h, hflip]⟩
  · rintro e he ⟨j, hj, hag, hc, hbit⟩
    rcases Nat.lt_trichotomy j nb with h | h | h
    · right
      exact ⟨j, hj, fun k hk => by rw [hag k hk, hrep k (by omega)], by rw [hrep j h, hc], hbit⟩
    · subst h
      by_cases hne : e = l'.device_id
      · exact Or.inl hne
      · right
        obtain ⟨k, hk, hagk, hd⟩ := first_diff hp.lt (hS64 e he) hne
        have hkj : j < k := by
          by_contra hle
          rcases Nat.lt_or_eq_of_le (Nat.le_of_not_lt hle) with h | h
          · exact hd (by rw [hag k h, hrep k h])
          · subst h; exact hd (by rw [hbit, hflip])
        refine ⟨k, hk, hagk, ?_⟩
        cases hc' : l'.device_id.testBit k with
        | true =>
          have := hp.least k hk (by rw [hb]; exact_mod_cast hkj) hc' e he hagk
          rw [this, hc'] at hd
          exact absurd rfl hd
        | false =>
          cases hb' : e.testBit k with
          | true => exact ⟨rfl, rfl⟩
          | false => rw [hb', hc'] at hd; exact absurd rfl hd
    · exact absurd ⟨hc, e, he, hag, hbit⟩ (hmax j h hj)

theorem stores_from_append (ids : List Nat) : ∀ (k : Int) (c : Nat),
    stores_from k (ids ++ [c]) = stores_from k ids ++ [(k + ids.length, c)] := by
  induction ids with
  | nil => intro k c; simp [stores_from]
  | cons x xs ih =>
    intro k c
    have e : k + 1 + (xs.length : Int) = k + ((xs.length : Int) + 1) := by omega
    show (k, x) :: stores_from (k + 1) (xs ++ [c]) =
      (k, x) :: stores_from (k + 1) xs ++ [(k + ((x :: xs).length : Nat), c)]
    rw [ih (k + 1) c]
    simp only [List.length_cons, Nat.cast_add, Nat.cast_one, e, List.cons_append]

theorem filter_length_le (S : List Nat) (p q : Nat → Bool) (h : ∀ x ∈ S, q x = true → p x = true) :
    (S.filter q).length ≤ (S.filter p).length := by
  induction S with
  | nil => simp
  | cons a S ih =>
    have ih' := ih (fun x hx => h x (by simp [hx]))
    have ha := h a (by simp)
    cases hq : q a <;> cases hpa : p a <;> simp [List.filter_cons, hq, hpa] <;>
      first | omega | (rw [hq] at ha; simp [hpa] at ha)

theorem filter_length_lt (S : List Nat) (p q : Nat → Bool)
    (h : ∀ x ∈ S, q x = true → p x = true) (x : Nat) (hx : x ∈ S) (hpx : p x = true)
    (hqx : q x = false) : (S.filter q).length < (S.filter p).length := by
  induction S with
  | nil => cases hx
  | cons a S ih =>
    have hle := filter_length_le S p q (fun y hy => h y (by simp [hy]))
    rcases List.mem_cons.1 hx with rfl | hxS
    · simp [List.filter_cons, hpx, hqx]; omega
    · have ih' := ih (fun y hy => h y (by simp [hy])) hxS
      have ha := h a (by simp)
      cases hq : q a <;> cases hpa : p a <;> simp [List.filter_cons, hq, hpa] <;>
        first | omega | (rw [hq] at ha; simp [hpa] at ha)

/-! ## Theorems: the scan of the simulated bus -/

/-- The first pass establishes the invariant of the scan. -/
theorem scan_inv_first (ow : onewire_instance_t) (has_list : Bool) (cmd : Nat) (S : List Nat)
    (w : World Sim) (hS : S ≠ []) (hS64 : ∀ d ∈ S, d < 2 ^ 64) (hdev : w.hw.devices = S)
    (hst : stores w.trace = []) (hrs : resets w.trace = 0) :
    (scan_pass sim_hw ow has_list cmd locals_init w).1 = true ∧
    ScanInv S has_list [(scan_pass sim_hw ow has_list cmd locals_init w).2.1.device_id]
      (scan_pass sim_hw ow has_list cmd locals_init w).2.1
      (scan_pass sim_hw ow has_list cmd locals_init w).2.2 := by
  obtain ⟨h1, hp, hd, hstores, hresets⟩ := sim_pass ow has_list cmd S locals_init w hS hS64 hdev
    (by simp [locals_init]) (Or.inl rfl) (by simp [locals_init])
  have hfirst := pass_first hS64 hp rfl
  refine ⟨h1, ?_⟩
  generalize (scan_pass sim_hw ow has_list cmd locals_init w).2.1 = l' at *
  generalize (scan_pass sim_hw ow has_list cmd locals_init w).2.2 = w' at *
  exact {
    dev := hd
    lt := hp.lt
    last := rfl
    nodup := List.nodup_singleton _
    sub := fun x hx => by rw [List.mem_singleton.1 hx]; exact hp.mem
    found := fun x hx => by rw [List.mem_singleton.1 hx]; exact rom_lt_irrefl _
    cover := fun e he => by
      by_cases h : e = l'.device_id
      · exact Or.inl (by simp [h])
      · exact Or.inr (hfirst e he h)
    num_found := by rw [hp.num_found]; simp [locals_init]
    stores := by
      rw [hstores, hst]
      cases has_list <;> simp [stores_from, locals_init]
    resets := by rw [hresets, hrs]; simp
    fin_true := fun h => (no_branch_open_iff S _).1 (hp.fin_true h)
    fin_false := hp.fin_false }

/-- A later pass keeps the invariant of the scan, finds a new device, and
leaves fewer devices to be found. -/
theorem scan_inv_next (ow : onewire_instance_t) (has_list : Bool) (cmd : Nat) (S : List Nat)
    (ids : List Nat) (l : Locals) (w : World Sim) (hS : S ≠ []) (hS64 : ∀ d ∈ S, d < 2 ^ 64)
    (hinv : ScanInv S has_list ids l w) (hfin : l.finished = false) :
    (scan_pass sim_hw ow has_list cmd l w).1 = true ∧
    ScanInv S has_list (ids ++ [(scan_pass sim_hw ow has_list cmd l w).2.1.device_id])
      (scan_pass sim_hw ow has_list cmd l w).2.1 (scan_pass sim_hw ow has_list cmd l w).2.2 ∧
    rom_lt l.device_id (scan_pass sim_hw ow has_list cmd l w).2.1.device_id ∧
    (S.filter (fun e => decide (rom_lt
      (scan_pass sim_hw ow has_list cmd l w).2.1.device_id e))).length <
      (S.filter (fun e => decide (rom_lt l.device_id e))).length := by
  obtain ⟨nb, hnb, hlt, hopen, hmax⟩ := hinv.fin_false hfin
  have hcS : l.device_id ∈ S := hinv.sub _ (List.mem_of_getLast?_eq_some hinv.last)
  obtain ⟨h1, hp, hd, hstores, hresets⟩ := sim_pass ow has_list cmd S l w hS hS64 hinv.dev
    hinv.lt (Or.inr ⟨by rw [hnb]; omega, by rw [hnb]; omega, hcS, by rw [hnb]; simpa using hopen⟩)
    (by rw [hinv.num_found]; omega)
  obtain ⟨hlt', hback, hfwd⟩ := pass_next hS64 hp nb hnb hlt hopen hmax
  refine ⟨h1, ?_, hlt', ?_⟩
  · generalize (scan_pass sim_hw ow has_list cmd l w).2.1 = l' at *
    generalize (scan_pass sim_hw ow has_list cmd l w).2.2 = w' at *
    exact {
      dev := hd
      lt := hp.lt
      last := List.getLast?_concat ids
      nodup := by
        rw [List.nodup_append]
        refine ⟨hinv.nodup, List.nodup_singleton _, ?_⟩
        intro x hx hx'
        rw [List.mem_singleton.1 hx'] at hx
        exact hinv.found _ hx hlt'
      sub := fun x hx => by
        rcases List.mem_append.1 hx with h | h
        · exact hinv.sub x h
        · rw [List.mem_singleton.1 h]; exact hp.mem
      found := fun x hx hr => by
        rcases List.mem_append.1 hx with h | h
        · exact hinv.found x h (hback x hr)
        · rw [List.mem_singleton.1 h] at hr; exact rom_lt_irrefl _ hr
      cover := fun e he => by
        rcases hinv.cover e he with h | h
        · exact Or.inl (List.mem_append.2 (Or.inl h))
        · rcases hfwd e he h with h' | h'
          · exact Or.inl (List.mem_append.2 (Or.inr (by simp [h'])))
          · exact Or.inr h'
      num_found := by rw [hp.num_found, hinv.num_found]; simp
      stores := by
        rw [hstores, hinv.stores, hinv.num_found]
        cases has_list with
        | false => simp
        | true => simp [stores_from_append]
      resets := by rw [hresets, hinv.resets]; simp
      fin_true := fun h => (no_branch_open_iff S _).1 (hp.fin_true h)
      fin_false := hp.fin_false }
  · apply filter_length_lt S _ _ _ _ hp.mem
    · simpa using hlt'
    · simpa using rom_lt_irrefl _
    · intro x _ hx
      simp only [decide_eq_true_eq] at hx ⊢
      exact hback x hx

/-- The `while` loop on the simulated bus: with fuel for the devices still to
be found it returns, the invariant holds at the end and the loop condition is
false. -/
theorem sim_loop (ow : onewire_instance_t) (has_list : Bool) (m : Int) (cmd : Nat)
    (S : List Nat) (hS : S ≠ []) (hS64 : ∀ d ∈ S, d < 2 ^ 64) (fuel : Nat) :
    ∀ (ids : List Nat) (l : Locals) (w : World Sim), ScanInv S has_list ids l w →
      (0 < m → l.num_found ≤ m) →
      (S.filter (fun e => decide (rom_lt l.device_id e))).length ≤ fuel →
      ∃ ids' l' w', scan_loop sim_hw ow has_list m cmd fuel l w = (some l', w') ∧
        ScanInv S has_list ids' l' w' ∧ loop_cond m l' = false ∧ (0 < m → l'.num_found ≤ m) := by
  induction fuel with
  | zero =>
    intro ids l w hinv hm hfuel
    refine ⟨ids, l, w, ?_, hinv, ?_, hm⟩
    all_goals
      have hfin : l.finished = true := by
        cases hf : l.finished with
        | true => rfl
        | false =>
          obtain ⟨nb, _, hlt, ⟨h0, e, he, hag, h1⟩, _⟩ := hinv.fin_false hf
          have : e ∈ S.filter (fun e => decide (rom_lt l.device_id e)) := by
            simp only [List.mem_filter, decide_eq_true_eq]
            exact ⟨he, nb, hlt, hag, h0, h1⟩
          have hlen := List.length_pos_of_mem this
          omega
    · unfold scan_loop
      simp [loop_cond_finished m l hfin]
    · exact loop_cond_finished m l hfin
  | succ fuel ih =>
    intro ids l w hinv hm hfuel
    cases hc : loop_cond m l with
    | false =>
      refine ⟨ids, l, w, ?_, hinv, hc, hm⟩
      unfold scan_loop
      simp [hc]
    | true =>
      have hfin : l.finished = false := by
        simp only [loop_cond, Bool.and_eq_true, beq_iff_eq] at hc
        exact hc.1
      obtain ⟨h1, hinv', _, hlt⟩ := scan_inv_next ow has_list cmd S ids l w hS hS64 hinv hfin
      have hm' : 0 < m → (scan_pass sim_hw ow has_list cmd l w).2.1.num_found ≤ m := by
        intro h0
        simp only [loop_cond, Bool.and_eq_true, Bool.or_eq_true, beq_iff_eq,
          decide_eq_true_eq] at hc
        rw [hinv'.num_found]
        have := hinv.num_found
        simp only [List.length_append, List.length_singleton, Nat.cast_add, Nat.cast_one]
        rcases hc.2 with h | h
        · omega
        · omega
      obtain ⟨ids', l', w', hrun, hinv2, hcond, hm2⟩ := ih _ _ _ hinv' hm' (by omega)
      refine ⟨ids', l', w', ?_, hinv2, hcond, hm2⟩
      unfold scan_loop
      simp only [hc, if_true, h1]
      exact hrun

theorem stores_driver_init (t : List Event) (bits : Nat) :
    stores (t ++ [Event.driver_init bits]) = stores t ∧
    resets (t ++ [Event.driver_init bits]) = resets t := by
  simp [stores_append, resets_append, stores, resets]

/-- The scan of a simulated bus with devices `S`: with fuel for `|S|` passes
it returns the number `|ids|` of codes found, which are distinct devices,
stored in the order found; it makes one reset per code; it stops early only
because of `maxdevs`. -/
theorem sim_scan (ow : onewire_instance_t) (has_list : Bool) (m : Int) (cmd : Nat)
    (S : List Nat) (hS : S ≠ []) (hnd : S.Nodup) (hS64 : ∀ d ∈ S, d < 2 ^ 64) (hm : 0 ≤ m)
    (fuel : Nat) (hfuel : S.length ≤ fuel) :
    ∃ ids : List Nat,
      (onewire_bus_scan sim_hw ow has_list m cmd fuel (sim_world S)).1 =
        some (ids.length : Int) ∧
      ids.Nodup ∧ (∀ x ∈ ids, x ∈ S) ∧
      ((ids.length : Int) = if m = 0 then (S.length : Int) else min (S.length : Int) m) ∧
      (ids.length = S.length → ids.Perm S) ∧
      stores (onewire_bus_scan sim_hw ow has_list m cmd fuel (sim_world S)).2.trace =
        (if has_list then stores_from 0 ids else []) ∧
      resets (onewire_bus_scan sim_hw ow has_list m cmd fuel (sim_world S)).2.trace =
        ids.length := by
  have hpos : 0 < S.length := List.length_pos.2 hS
  obtain ⟨f, rfl⟩ : ∃ f, fuel = f + 1 := ⟨fuel - 1, by omega⟩
  obtain ⟨h1, hinv1⟩ := scan_inv_first ow has_list (cmd % 256) S (driver_init sim_hw ow 1 (sim_world S))
    hS hS64 rfl rfl rfl
  have hmeasure : (S.filter (fun e => decide (rom_lt
      (scan_pass sim_hw ow has_list (cmd % 256) locals_init
        (driver_init sim_hw ow 1 (sim_world S))).2.1.device_id e))).length ≤ f := by
    have hmem := hinv1.sub _ (List.mem_singleton.2 rfl)
    have := filter_length_lt S (fun _ => true)
      (fun e => decide (rom_lt (scan_pass sim_hw ow has_list (cmd % 256) locals_init
        (driver_init sim_hw ow 1 (sim_world S))).2.1.device_id e))
      (fun _ _ _ => rfl) _ hmem rfl (by simpa using rom_lt_irrefl _)
    simp only [List.filter_true] at this
    omega
  obtain ⟨ids, l', w', hrun, hinv, hcond, hle⟩ := sim_loop ow has_list m (cmd % 256) S hS hS64 f _ _ _
    hinv1 (by intro h0; rw [hinv1.num_found]; simp; omega) hmeasure
  have hscan : onewire_bus_scan sim_hw ow has_list m cmd (f + 1) (sim_world S) =
      (some l'.num_found, driver_init sim_hw ow 8 w') := by
    unfold onewire_bus_scan
    simp only []
    unfold scan_loop
    simp only [loop_cond_init m hm, if_true, h1, hrun]
  have hsub : ids.length ≤ S.length :=
    (List.subperm_of_subset hinv.nodup (fun x hx => hinv.sub x hx)).length_le
  have hperm : l'.finished = true → ids.Perm S := by
    intro hfin
    rw [List.perm_ext_iff_of_nodup hinv.nodup hnd]
    intro a
    constructor
    · exact hinv.sub a
    · intro ha
      rcases hinv.cover a ha with h | h
      · exact h
      · exact absurd h (hinv.fin_true hfin a ha)
  have hstrict : l'.finished = false → ids.length < S.length := by
    intro hfin
    obtain ⟨nb, _, hlt, ⟨h0, e, he, hag, hb⟩, _⟩ := hinv.fin_false hfin
    have hne : e ∉ ids := fun h => hinv.found e h ⟨nb, hlt, hag, h0, hb⟩
    have hnd' : (e :: ids).Nodup := List.nodup_cons.2 ⟨hne, hinv.nodup⟩
    have := (List.subperm_of_subset hnd' (fun x hx => by
      rcases List.mem_cons.1 hx with rfl | h
      · exact he
      · exact hinv.sub x h)).length_le
    simp only [List.length_cons] at this
    omega
  have hnum := hinv.num_found
  refine ⟨ids, by rw [hscan, hnum], hinv.nodup, hinv.sub, ?_, ?_, ?_, ?_⟩
  · simp only [loop_cond, Bool.and_eq_false_iff, Bool.or_eq_false_iff, beq_eq_false_iff_ne,
      decide_eq_false_iff_not, ne_eq, Bool.not_eq_false, beq_iff_eq] at hcond
    by_cases hm0 : m = 0
    · rw [if_pos hm0]
      rcases hcond with h | ⟨h, _⟩
      · rw [(hperm h).length_eq]
      · exact absurd hm0 h
    · rw [if_neg hm0]
      have hle' := hle (by omega)
      rcases hcond with h | ⟨_, h⟩
      · rw [(hperm h).length_eq]
        rw [hnum, (hperm h).length_eq] at hle'
        omega
      · omega
  · intro hlen
    cases hf : l'.finished with
    | true => exact hperm hf
    | false => have := hstrict hf; omega
  · rw [hscan]
    simp only [driver_init]
    rw [(stores_driver_init _ _).1, hinv.stores]
  · rw [hscan]
    simp only [driver_init]
    rw [(stores_driver_init _ _).2, hinv.resets]

theorem list_at_stores_from_below (ids : List Nat) : ∀ (k i : Int), i < k →
    list_at (stores_from k ids) i = none := by
  induction ids with
  | nil => intro k i _; rfl
  | cons c cs ih =>
    intro k i hi
    simp only [stores_from, list_at, ih (k + 1) i (by omega)]
    rw [if_neg (by omega)]

theorem list_at_stores_from (ids : List Nat) : ∀ (k : Int) (j : Nat), j < ids.length →
    list_at (stores_from k ids) (k + j) = ids[j]? := by
  induction ids with
  | nil => intro k j hj; simp at hj
  | cons c cs ih =>
    intro k j hj
    cases j with
    | zero =>
      simp only [stores_from, list_at, Nat.cast_zero, add_zero,
        list_at_stores_from_below cs (k + 1) k (by omega), if_true, List.getElem?_cons_zero]
    | succ j =>
      have hj' : j < cs.length := by simpa using hj
      have e : k + ((j + 1 : Nat) : Int) = (k + 1) + (j : Int) := by push_cast; omega
      have h := ih (k + 1) j hj'
      rw [e]
      simp only [stores_from, list_at, h, List.getElem?_cons_succ]
      rw [List.getElem?_eq_getElem hj']

theorem mem_stores_from (ids : List Nat) : ∀ (k : Int) (p : Int × Nat),
    p ∈ stores_from k ids → k ≤ p.1 ∧ p.1 < k + ids.length := by
  induction ids with
  | nil => intro k p hp; cases hp
  | cons c cs ih =>
    intro k p hp
    simp only [stores_from, List.mem_cons] at hp
    rcases hp with rfl | hp
    · simp
    · have := ih (k + 1) p hp
      simp only [List.length_cons, Nat.cast_add, Nat.cast_one]
      omega

theorem stores_from_mem (ids : List Nat) : ∀ (k : Int) (j : Nat), j < ids.length →
    ∃ v, (k + (j : Int), v) ∈ stores_from k ids := by
  induction ids with
  | nil => intro k j hj; simp at hj
  | cons c cs ih =>
    intro k j hj
    cases j with
    | zero => exact ⟨c, by simp [stores_from]⟩
    | succ j =>
      obtain ⟨v, hv⟩ := ih (k + 1) j (by simpa using hj)
      refine ⟨v, ?_⟩
      have e : k + ((j + 1 : Nat) : Int) = (k + 1) + (j : Int) := by push_cast; omega
      rw [e]
      simp [stores_from, hv]

/-! ## Theorems: the scan on the simulated bus -/

/-- C1: `onewire_bus_scan` enumerates the bus exactly. For every non-empty
list `S` of distinct 64-bit ROM codes on the simulated wired-AND bus, the scan
with `maxdevs = 0` and a non-NULL list returns (any fuel of at least `|S|`
passes is enough) the value `|S|`, and the entries of the list at the indices
`0 .. |S|-1` are the elements of a duplicate-free permutation `ids` of `S`. -/
theorem scan_enumerates_bus (ow : onewire_instance_t) (cmd : Nat) (S : List Nat)
    (hS : S ≠ []) (hnd : S.Nodup) (hS64 : ∀ d ∈ S, d < 2 ^ 64) (fuel : Nat)
    (hfuel : S.length ≤ fuel) :
    (onewire_bus_scan sim_hw ow true 0 cmd fuel (sim_world S)).1 = some (S.length : Int) ∧
    ∃ ids : List Nat, ids.Perm S ∧ ids.Nodup ∧
      ∀ i : Nat, i < S.length →
        list_at (stores (onewire_bus_scan sim_hw ow true 0 cmd fuel (sim_world S)).2.trace) i =
          ids[i]? := by
  obtain ⟨ids, hret, hnodup, _, hlen, hperm, hst, _⟩ :=
    sim_scan ow true 0 cmd S hS hnd hS64 (le_refl 0) fuel hfuel
  rw [if_pos rfl] at hlen
  have hlen' : ids.length = S.length := by exact_mod_cast hlen
  refine ⟨by rw [hret, hlen], ids, hperm hlen', hnodup, ?_⟩
  intro i hi
  rw [hst, if_pos rfl]
  have := list_at_stores_from ids 0 i (by omega)
  rwa [zero_add] at this

/-- The two devices of the specification's example are both found. -/
theorem scan_enumerates_bus_witness :
    ([0x0100000000000000, 0x0200000000000000] : List Nat) ≠ [] ∧
    ([0x0100000000000000, 0x0200000000000000] : List Nat).Nodup ∧
    (∀ d ∈ ([0x0100000000000000, 0x0200000000000000] : List Nat), d < 2 ^ 64) ∧
    (onewire_bus_scan sim_hw ow0 true 0 0xF0 2
      (sim_world [0x0100000000000000, 0x0200000000000000])).1 = some (2 : Nat) ∧
    ∃ ids : List Nat, ids.Perm [0x0100000000000000, 0x0200000000000000] ∧ ids.Nodup ∧
      ∀ i : Nat, i < 2 →
        list_at (stores (onewire_bus_scan sim_hw ow0 true 0 0xF0 2
          (sim_world [0x0100000000000000, 0x0200000000000000])).2.trace) i = ids[i]? :=
  ⟨by decide, by decide, by decide,
    scan_enumerates_bus ow0 0xF0 [0x0100000000000000, 0x0200000000000000] (by decide)
      (by decide) (by decide) 2 (by decide)⟩

/-- C6: `maxdevs` bounds the scan. On the simulated bus with devices `S` and
`maxdevs = m > 0` the scan returns `min |S| m`, makes exactly that many
resets, and the codes it found (and stored, if a list is given) are that many
distinct devices of `S`; and on any hardware the value returned with
`maxdevs = m > 0` is at most `m`. -/
theorem scan_maxdevs_bound :
    (∀ (ow : onewire_instance_t) (has_list : Bool) (cmd : Nat) (S : List Nat) (m : Int),
      S ≠ [] → S.Nodup → (∀ d ∈ S, d < 2 ^ 64) → 0 < m → ∀ fuel : Nat, S.length ≤ fuel →
      (onewire_bus_scan sim_hw ow has_list m cmd fuel (sim_world S)).1 =
        some (min (S.length : Int) m) ∧
      (resets (onewire_bus_scan sim_hw ow has_list m cmd fuel (sim_world S)).2.trace : Int) =
        min (S.length : Int) m ∧
      ∃ ids : List Nat, ids.Nodup ∧ (∀ x ∈ ids, x ∈ S) ∧
        (ids.length : Int) = min (S.length : Int) m ∧
        stores (onewire_bus_scan sim_hw ow has_list m cmd fuel (sim_world S)).2.trace =
          (if has_list then stores_from 0 ids else [])) ∧
    (∀ (σ : Type) (H : Hw σ) (ow : onewire_instance_t) (has_list : Bool) (m : Int)
      (cmd fuel : Nat) (s : σ) (n : Int), 0 < m →
      (onewire_bus_scan H ow has_list m cmd fuel { hw := s, trace := [] }).1 = some n →
      n ≤ m) := by
  constructor
  · intro ow has_list cmd S m hS hnd hS64 hm fuel hfuel
    obtain ⟨ids, hret, hnodup, hsub, hlen, _, hst, hrs⟩ :=
      sim_scan ow has_list m cmd S hS hnd hS64 (le_of_lt hm) fuel hfuel
    rw [if_neg (by omega)] at hlen
    exact ⟨by rw [hret, hlen], by rw [hrs, hlen], ids, hnodup, hsub, hlen, hst⟩
  · intro σ H ow has_list m cmd fuel s n hm h
    exact scan_le_maxdevs H ow has_list m cmd fuel s n hm h

/-- Five devices and `maxdevs = 3`: the scan returns `3` after `3` resets. -/
theorem scan_maxdevs_bound_witness :
    (([1, 2, 3, 4, 5] : List Nat) ≠ [] ∧ ([1, 2, 3, 4, 5] : List Nat).Nodup ∧
      (∀ d ∈ ([1, 2, 3, 4, 5] : List Nat), d < 2 ^ 64) ∧ (0 : Int) < 3 ∧
      ([1, 2, 3, 4, 5] : List Nat).length ≤ 5) ∧
    ((onewire_bus_scan sim_hw ow0 true 3 0xF0 5 (sim_world [1, 2, 3, 4, 5])).1 =
        some (min (([1, 2, 3, 4, 5] : List Nat).length : Int) 3) ∧
      (resets (onewire_bus_scan sim_hw ow0 true 3 0xF0 5
        (sim_world [1, 2, 3, 4, 5])).2.trace : Int) =
        min (([1, 2, 3, 4, 5] : List Nat).length : Int) 3 ∧
      ∃ ids : List Nat, ids.Nodup ∧ (∀ x ∈ ids, x ∈ ([1, 2, 3, 4, 5] : List Nat)) ∧
        (ids.length : Int) = min (([1, 2, 3, 4, 5] : List Nat).length : Int) 3 ∧
        stores (onewire_bus_scan sim_hw ow0 true 3 0xF0 5
          (sim_world [1, 2, 3, 4, 5])).2.trace =
          (if true then stores_from 0 ids else [])) ∧
    ((onewire_bus_scan (const_hw 1) ow0 true 3 0xF0 5 { hw := (), trace := [] }).1 = some 0 ∧
      (0 : Int) ≤ 3) :=
  ⟨⟨by decide, by decide, by decide, by decide, by decide⟩,
    scan_maxdevs_bound.1 ow0 true 0xF0 [1, 2, 3, 4, 5] 3 (by decide) (by decide) (by decide)
      (by decide) 5 (by decide),
    rfl,
    scan_maxdevs_bound.2 Unit (const_hw 1) ow0 true 3 0xF0 5 () 0 (by decide) rfl⟩

set_option maxRecDepth 100000 in
/-- C9, as stated, fails: with the two devices `1` and `2` and a list of
capacity `1`, the scan with `maxdevs = 0` makes a store at index `1`. -/
theorem scan_store_beyond_capacity :
    ¬∀ p ∈ stores (onewire_bus_scan sim_hw ow0 true 0 0xF0 2 (sim_world [1, 2])).2.trace,
      p.1 < (1 : Int) := by
  have e : stores (onewire_bus_scan sim_hw ow0 true 0 0xF0 2 (sim_world [1, 2])).2.trace =
      [(0, 2), (1, 1)] := by rfl
  rw [e]
  intro h
  have := h (1, 1) (by simp)
  omega

section Generic

variable {σ : Type} (H : Hw σ) (ow : onewire_instance_t)

/-- With `maxdevs = m > 0` every store, on any hardware and at any moment of
the scan, is at an index below `m`: an index in `0 .. m-1`, or the index `-2`
used by a pass that was aborted. -/
theorem stores_below_maxdevs (has_list : Bool) (m : Int) (hm : 0 < m) (cmd fuel : Nat)
    (s : σ) :
    ∀ p ∈ stores (onewire_bus_scan H ow has_list m cmd fuel { hw := s, trace := [] }).2.trace,
      p.1 < m ∧ (0 ≤ p.1 ∨ p.1 = -2) := by
  obtain ⟨l0, w0, hI, hc⟩ := scan_cases H ow has_list m cmd
    (fun l w => (∀ p ∈ stores w.trace, p.1 < m ∧ (0 ≤ p.1 ∨ p.1 = -2)) ∧
      (l.finished = false → 0 ≤ l.num_found))
    { hw := s, trace := [] }
    ⟨by simp [driver_init, stores], fun _ => le_refl _⟩
    (by
      intro l w hI hcond hp
      rw [scan_pass_fst] at hp
      obtain ⟨_, k, evs, ok, st, hrun, htr, hst0, hst1, hok, hbad⟩ :=
        scan_pass_present H ow has_list (cmd % 256) l w hp
      simp only [loop_cond, Bool.and_eq_true, beq_iff_eq, Bool.or_eq_true,
        decide_eq_true_eq] at hcond
      have hnf := hI.2 hcond.1
      have hlt : l.num_found < m := by
        rcases hcond.2 with h0 | h0
        · omega
        · exact h0
      have hbits : stores (Event.reset true :: (command_events (cmd % 256) 8 0 ++ evs)) = [] := by
        have := (stores_resets_of_bits (command_events (cmd % 256) 8 0 ++ evs) (by
          intro e he
          rcases List.mem_append.1 he with he | he
          · exact Or.inr (command_events_mem _ _ _ _ he)
          · exact hrun.events_mem _ he)).1
        simpa [stores] using this
      refine ⟨?_, ?_⟩
      · show ∀ p ∈ stores (scan_pass H ow has_list (cmd % 256) l w).2.2.trace, _
        rw [htr]
        have e : w.trace ++ Event.reset true :: (command_events (cmd % 256) 8 0 ++ (evs ++ st)) =
            w.trace ++ ((Event.reset true :: (command_events (cmd % 256) 8 0 ++ evs)) ++ st) := by
          simp
        rw [e, stores_append, stores_append, hbits, List.nil_append]
        intro p hp
        rcases List.mem_append.1 hp with hp | hp
        · exact hI.1 p hp
        · cases has_list with
          | false => rw [hst0 rfl] at hp; cases hp
          | true =>
            rw [hst1 rfl] at hp
            simp only [stores, List.mem_singleton] at hp
            rw [hp]
            cases ok with
            | true => exact ⟨by simpa using hlt, Or.inl (by simpa using hnf)⟩
            | false => exact ⟨by simp; omega, Or.inr (by simp)⟩
      · intro hfin
        cases ok with
        | true => rw [(hok rfl).2]; omega
        | false => rw [(hbad rfl).2.2] at hfin; cases hfin)
    fuel
  rcases hc with ⟨_, h2⟩ | ⟨_, h2⟩ | ⟨_, _, h2⟩
  · rw [h2]; exact hI.1
  · rw [h2]
    simp only [driver_init]
    rw [(stores_driver_init _ _).1]
    exact hI.1
  · rw [h2]
    simp only [driver_init]
    rw [(stores_driver_init _ _).1, stores_append]
    simpa [stores] using hI.1

end Generic

/-- C9, amended: the output is not capped. On the simulated bus with the
`n = |S|` devices `S`, the scan with `maxdevs = 0` and a non-NULL list returns
`n`, and its stores are exactly `(0, ids[0]), ..., (n-1, ids[n-1])` for a
duplicate-free enumeration `ids` of `S`: every index `0 .. n-1` receives a
discovered code, whatever the size of the caller's array, and no other index
is written. Only `maxdevs` bounds the stores: on the same bus with
`maxdevs = m > 0` the stores are exactly `(0, ids[0]), ...` for `min n m`
distinct devices, all at indices in `0 .. m-1`; and on any hardware every
store is at an index below `m` (in `0 .. m-1`, or the index `-2` of an aborted
pass). -/
theorem scan_stores_uncapped :
    (∀ (ow : onewire_instance_t) (cmd : Nat) (S : List Nat), S ≠ [] → S.Nodup →
      (∀ d ∈ S, d < 2 ^ 64) → ∀ fuel : Nat, S.length ≤ fuel →
      (onewire_bus_scan sim_hw ow true 0 cmd fuel (sim_world S)).1 = some (S.length : Int) ∧
      (∃ ids : List Nat, ids.Perm S ∧ ids.Nodup ∧
        stores (onewire_bus_scan sim_hw ow true 0 cmd fuel (sim_world S)).2.trace =
          stores_from 0 ids ∧
        ∀ c : Nat, c < S.length →
          list_at (stores (onewire_bus_scan sim_hw ow true 0 cmd fuel (sim_world S)).2.trace) c =
            ids[c]? ∧
          ∃ v ∈ S, ids[c]? = some v) ∧
      (∀ c : Nat, c < S.length → ∃ v, ((c : Int), v) ∈
        stores (onewire_bus_scan sim_hw ow true 0 cmd fuel (sim_world S)).2.trace) ∧
      (∀ p ∈ stores (onewire_bus_scan sim_hw ow true 0 cmd fuel (sim_world S)).2.trace,
        0 ≤ p.1 ∧ p.1 < (S.length : Int))) ∧
    (∀ (ow : onewire_instance_t) (cmd : Nat) (S : List Nat) (m : Int), S ≠ [] → S.Nodup →
      (∀ d ∈ S, d < 2 ^ 64) → 0 < m → ∀ fuel : Nat, S.length ≤ fuel →
      (∃ ids : List Nat, ids.Nodup ∧ (∀ x ∈ ids, x ∈ S) ∧
        (ids.length : Int) = min (S.length : Int) m ∧
        stores (onewire_bus_scan sim_hw ow true m cmd fuel (sim_world S)).2.trace =
          stores_from 0 ids) ∧
      ∀ p ∈ stores (onewire_bus_scan sim_hw ow true m cmd fuel (sim_world S)).2.trace,
        0 ≤ p.1 ∧ p.1 < m) ∧
    (∀ (σ : Type) (H : Hw σ) (ow : onewire_instance_t) (has_list : Bool) (m : Int), 0 < m →
      ∀ (cmd fuel : Nat) (s : σ),
      ∀ p ∈ stores (onewire_bus_scan H ow has_list m cmd fuel { hw := s, trace := [] }).2.trace,
        p.1 < m ∧ (0 ≤ p.1 ∨ p.1 = -2)) := by
  refine ⟨?_, ?_, ?_⟩
  · intro ow cmd S hS hnd hS64 fuel hfuel
    obtain ⟨ids, hret, hnodup, _, hlen, hperm, hst, _⟩ :=
      sim_scan ow true 0 cmd S hS hnd hS64 (le_refl 0) fuel hfuel
    rw [if_pos rfl] at hlen
    have hlen' : ids.length = S.length := by exact_mod_cast hlen
    rw [if_pos rfl] at hst
    rw [hst]
    refine ⟨by rw [hret, hlen], ⟨ids, hperm hlen', hnodup, rfl, ?_⟩, ?_, ?_⟩
    · intro c hc
      have hc' : c < ids.length := by omega
      refine ⟨?_, ids[c], (hperm hlen').subset (List.getElem_mem _), ?_⟩
      · have := list_at_stores_from ids 0 c hc'
        rwa [zero_add] at this
      · exact List.getElem?_eq_getElem hc'
    · intro c hc
      obtain ⟨v, hv⟩ := stores_from_mem ids 0 c (by omega)
      rw [zero_add] at hv
      exact ⟨v, hv⟩
    · intro p hp
      have := mem_stores_from ids 0 p hp
      omega
  · intro ow cmd S m hS hnd hS64 hm fuel hfuel
    obtain ⟨ids, _, hnodup, hsub, hlen, _, hst, _⟩ :=
      sim_scan ow true m cmd S hS hnd hS64 (le_of_lt hm) fuel hfuel
    rw [if_neg (by omega)] at hlen
    rw [if_pos rfl] at hst
    rw [hst]
    refine ⟨⟨ids, hnodup, hsub, hlen, rfl⟩, ?_⟩
    intro p hp
    have := mem_stores_from ids 0 p hp
    have : (ids.length : Int) ≤ m := by rw [hlen]; exact min_le_right _ _
    omega
  · intro σ H ow has_list m hm cmd fuel s
    exact stores_below_maxdevs H ow has_list m hm cmd fuel s

set_option maxRecDepth 100000 in
/-- Two devices: the stores are `(0, 2)` and `(1, 1)`, both devices, at the
indices `0` and `1`; with `maxdevs = 1` only `(0, 2)` is stored; on hardware
that answers `(1, 1)` the only store, with `maxdevs = 1`, is at index `-2`. -/
theorem scan_stores_uncapped_witness :
    (([1, 2] : List Nat) ≠ [] ∧ ([1, 2] : List Nat).Nodup ∧
      (∀ d ∈ ([1, 2] : List Nat), d < 2 ^ 64) ∧ ([1, 2] : List Nat).length ≤ 2 ∧
      (0 : Int) < 1) ∧
    stores (onewire_bus_scan sim_hw ow0 true 0 0xF0 2 (sim_world [1, 2])).2.trace =
      [(0, 2), (1, 1)] ∧
    stores (onewire_bus_scan sim_hw ow0 true 1 0xF0 2 (sim_world [1, 2])).2.trace = [(0, 2)] ∧
    ((onewire_bus_scan sim_hw ow0 true 0 0xF0 2 (sim_world [1, 2])).1 =
        some (([1, 2] : List Nat).length : Int) ∧
      (∃ ids : List Nat, ids.Perm [1, 2] ∧ ids.Nodup ∧
        stores (onewire_bus_scan sim_hw ow0 true 0 0xF0 2 (sim_world [1, 2])).2.trace =
          stores_from 0 ids ∧
        ∀ c : Nat, c < ([1, 2] : List Nat).length →
          list_at (stores (onewire_bus_scan sim_hw ow0 true 0 0xF0 2
            (sim_world [1, 2])).2.trace) c = ids[c]? ∧
          ∃ v ∈ ([1, 2] : List Nat), ids[c]? = some v) ∧
      (∀ c : Nat, c < ([1, 2] : List Nat).length → ∃ v, ((c : Int), v) ∈
        stores (onewire_bus_scan sim_hw ow0 true 0 0xF0 2 (sim_world [1, 2])).2.trace) ∧
      (∀ p ∈ stores (onewire_bus_scan sim_hw ow0 true 0 0xF0 2 (sim_world [1, 2])).2.trace,
        0 ≤ p.1 ∧ p.1 < (([1, 2] : List Nat).length : Int))) ∧
    ((∃ ids : List Nat, ids.Nodup ∧ (∀ x ∈ ids, x ∈ ([1, 2] : List Nat)) ∧
        (ids.length : Int) = min (([1, 2] : List Nat).length : Int) 1 ∧
        stores (onewire_bus_scan sim_hw ow0 true 1 0xF0 2 (sim_world [1, 2])).2.trace =
          stores_from 0 ids) ∧
      ∀ p ∈ stores (onewire_bus_scan sim_hw ow0 true 1 0xF0 2 (sim_world [1, 2])).2.trace,
        0 ≤ p.1 ∧ p.1 < (1 : Int)) ∧
    (∀ p ∈ stores (onewire_bus_scan (const_hw 0x1000000) ow0 true 1 0xF0 1
        { hw := (), trace := [] }).2.trace, p.1 < (1 : Int) ∧ (0 ≤ p.1 ∨ p.1 = -2)) :=
  ⟨⟨by decide, by decide, by decide, by decide, by decide⟩, by rfl, by rfl,
    scan_stores_uncapped.1 ow0 0xF0 [1, 2] (by decide) (by decide) (by decide) 2 (by decide),
    scan_stores_uncapped.2.1 ow0 0xF0 [1, 2] 1 (by decide) (by decide) (by decide) (by decide) 2
      (by decide),
    scan_stores_uncapped.2.2 Unit (const_hw 0x1000000) ow0 true 1 (by decide) 0xF0 1 ()⟩

/-! ## Examples on concrete hardware -/

/-- On a bus where nothing answers the reset, the scan returns `0` after one
reset. -/
theorem scan_empty_bus_witness :
    (0 : Int) ≤ 3 ∧
    (onewire_reset (const_hw 1) ow0 (driver_init (const_hw 1) ow0 1 { hw := (), trace := [] })).1
      = false ∧
    (onewire_bus_scan (const_hw 1) ow0 true 3 0xF0 (0 + 1) { hw := (), trace := [] }).1 = some 0 ∧
    (onewire_bus_scan (const_hw 1) ow0 true 3 0xF0 (0 + 1) { hw := (), trace := [] }).2.trace =
      [Event.driver_init 1, Event.reset false, Event.driver_init 8] :=
  ⟨by decide, rfl, scan_empty_bus (const_hw 1) ow0 true 3 0xF0 0 () (by decide) rfl⟩

set_option maxRecDepth 100000 in
/-- On hardware whose second reset finds no device, the scan returns `0`
although its first pass found (and stored) a code. -/
theorem scan_reset_absent_aborts_witness :
    Event.store 0 0 ∈
      (onewire_bus_scan (flaky_hw 1) ow0 true 0 0xF0 5 { hw := 0, trace := [] }).2.trace ∧
    Event.reset false ∈
      (onewire_bus_scan (flaky_hw 1) ow0 true 0 0xF0 5 { hw := 0, trace := [] }).2.trace ∧
    (onewire_bus_scan (flaky_hw 1) ow0 true 0 0xF0 5 { hw := 0, trace := [] }).1 = some 0 ∧
    ∃ pre, (onewire_bus_scan (flaky_hw 1) ow0 true 0 0xF0 5 { hw := 0, trace := [] }).2.trace =
        pre ++ [Event.reset false, Event.driver_init 8] ∧ Event.reset false ∉ pre :=
  ⟨by decide, by decide,
    scan_reset_absent_aborts (flaky_hw 1) ow0 true 0 0xF0 5 0 (by decide)⟩

/-- On hardware that reports presence and answers every read with a nonzero
value, the scan returns `-1`. -/
theorem scan_error_value_witness :
    (onewire_bus_scan (const_hw 0x1000000) ow0 true 0 0xF0 1 { hw := (), trace := [] }).1 =
      some (-1) ∧
    (((-1 : Int) = -1 ↔ read_both_nonzero
      (onewire_bus_scan (const_hw 0x1000000) ow0 true 0 0xF0 1
        { hw := (), trace := [] }).2.trace) ∧
    ((-1 : Int) ≠ -1 → (0 : Int) ≤ -1)) :=
  ⟨rfl, scan_error_value (const_hw 0x1000000) ow0 true 0 0xF0 1 () (-1) rfl⟩

/-- C10 fails on the code: when the first address bit reads `(1,1)` and a list
is given, the aborted pass stores the candidate `0` at index `-2` (in front of
the caller's array) before the scan returns `-1`. The hardware reports
presence at the reset and answers every read with `1`. -/
theorem scan_collision_stores_at_minus_two :
    onewire_bus_scan (const_hw 0x1000000) ow0 true 0 0xF0 1 { hw := (), trace := [] } =
      (some (-1), { hw := (), trace :=
        [Event.driver_init 1, Event.reset true,
          Event.send 0xF0, Event.send 0x78, Event.send 0x3C, Event.send 0x1E,
          Event.send 0x0F, Event.send 0x07, Event.send 0x03, Event.send 0x01,
          Event.read 1, Event.read 1, Event.store (-2) 0, Event.driver_init 8] }) := by
  rfl

/-! ## Theorems: the direction rule and the branch-point bookkeeping -/

section Generic

variable {σ : Type} (H : Hw σ) (ow : onewire_instance_t)

/-- C14: the direction rule at a collision. At an address bit `i` where
both reads return `0`, the step does not abort, the bit sent is
`collision_direction i branch_point device_id`, and afterwards bit `i` of the
candidate is the bit sent while every other bit is unchanged. -/
theorem collision_direction_rule (i : Nat) (l : Locals) (w : World σ)
    (hc : l.device_id < 2 ^ 64) (ha : (onewire_read H ow w).1 = 0)
    (hb : (onewire_read H ow (onewire_read H ow w).2).1 = 0) :
    (address_step H ow i l w).1 = true ∧
    (address_step H ow i l w).2.2.trace =
      w.trace ++ [Event.read 0, Event.read 0,
        Event.send (if collision_direction i l.branch_point l.device_id then 1 else 0)] ∧
    (∀ j, (address_step H ow i l w).2.1.device_id.testBit j =
      if j = i then collision_direction i l.branch_point l.device_id
      else l.device_id.testBit j) ∧
    (address_step H ow i l w).2.1.branch_point = l.branch_point := by
  have tr : ∀ d, (onewire_send H ow d (onewire_read H ow (onewire_read H ow w).2).2).trace =
      w.trace ++ [Event.read 0, Event.read 0, Event.send (d % 256)] := by
    intro d
    simp only [onewire_send_trace, onewire_read_trace, ha, hb, List.append_assoc,
      List.singleton_append, List.cons_append, List.nil_append]
  unfold address_step
  simp only []
  rw [if_pos ⟨ha, hb⟩]
  by_cases h2 : (i : Int) = l.branch_point
  · have hd : collision_direction i l.branch_point l.device_id = true := by
      simp [collision_direction, h2]
    rw [if_pos h2, hd]
    exact ⟨rfl, tr 1, fun j => testBit_set _ _ _, rfl⟩
  · rw [if_neg h2]
    by_cases h3 : (i : Int) > l.branch_point ∨ (l.device_id &&& (1 <<< i)) = 0
    · have hd : collision_direction i l.branch_point l.device_id = false := by
        simp only [collision_direction, decide_eq_false_iff_not, not_or, not_and]
        refine ⟨h2, fun hlt => ?_⟩
        rcases h3 with h3 | h3
        · omega
        · simp [(and_shift_eq_zero _ _).1 h3]
      rw [if_pos h3, hd]
      exact ⟨rfl, tr 0, fun j => by simpa using testBit_clear _ _ j hc, rfl⟩
    · have hbit : l.device_id.testBit i = true := by
        cases hb' : l.device_id.testBit i with
        | true => rfl
        | false => exact absurd (Or.inr ((and_shift_eq_zero _ _).2 hb')) h3
      have hd : collision_direction i l.branch_point l.device_id = true := by
        simp only [collision_direction, decide_eq_true_eq]
        exact Or.inr ⟨by omega, hbit⟩
      rw [if_neg h3, hd]
      refine ⟨rfl, tr 1, fun j => ?_, rfl⟩
      by_cases hj : j = i
      · rw [if_pos hj, hj, hbit]
      · rw [if_neg hj]

/-- One address-bit step, with the bookkeeping of `finished` and
`next_branch_point`: they change exactly when the step read `(0,0)` and sent
`0`. -/
theorem address_step_book (index : Nat) (l : Locals) (w : World σ) :
    (∃ a b s, ¬(a ≠ 0 ∧ b ≠ 0) ∧ (address_step H ow index l w).1 = true ∧
      (address_step H ow index l w).2.2.trace =
        w.trace ++ [Event.read a, Event.read b, Event.send s] ∧
      (address_step H ow index l w).2.1.branch_point = l.branch_point ∧
      ((a = 0 ∧ b = 0 ∧ s = 0) → (address_step H ow index l w).2.1.finished = false ∧
        (address_step H ow index l w).2.1.next_branch_point = index) ∧
      (¬(a = 0 ∧ b = 0 ∧ s = 0) →
        (address_step H ow index l w).2.1.finished = l.finished ∧
        (address_step H ow index l w).2.1.next_branch_point = l.next_branch_point)) ∨
    (∃ a b, a ≠ 0 ∧ b ≠ 0 ∧ (address_step H ow index l w).1 = false ∧
      (address_step H ow index l w).2.2.trace = w.trace ++ [Event.read a, Event.read b]) := by
  unfold address_step
  simp only []
  have tr : ∀ d, (onewire_send H ow d (onewire_read H ow (onewire_read H ow w).2).2).trace =
      w.trace ++ [Event.read (onewire_read H ow w).1,
        Event.read (onewire_read H ow (onewire_read H ow w).2).1, Event.send (d % 256)] := by
    intro d
    simp only [onewire_send_trace, onewire_read_trace, List.append_assoc,
      List.singleton_append, List.cons_append, List.nil_append]
  by_cases h1 : (onewire_read H ow w).1 = 0 ∧ (onewire_read H ow (onewire_read H ow w).2).1 = 0
  · rw [if_pos h1]
    left
    have hn : ¬((onewire_read H ow w).1 ≠ 0 ∧
        (onewire_read H ow (onewire_read H ow w).2).1 ≠ 0) := fun hh => hh.1 h1.1
    by_cases h2 : (index : Int) = l.branch_point
    · rw [if_pos h2]
      exact ⟨_, _, 1 % 256, hn, rfl, tr 1, rfl, fun h => by simp at h, fun _ => ⟨rfl, rfl⟩⟩
    · rw [if_neg h2]
      by_cases h3 : (index : Int) > l.branch_point ∨ (l.device_id &&& (1 <<< index)) = 0
      · rw [if_pos h3]
        exact ⟨_, _, 0 % 256, hn, rfl, tr 0, rfl, fun _ => ⟨rfl, rfl⟩,
          fun h => absurd ⟨h1.1, h1.2, rfl⟩ h⟩
      · rw [if_neg h3]
        exact ⟨_, _, 1 % 256, hn, rfl, tr 1, rfl, fun h => by simp at h, fun _ => ⟨rfl, rfl⟩⟩
  · rw [if_neg h1]
    by_cases h4 : (onewire_read H ow w).1 ≠ 0 ∧
        (onewire_read H ow (onewire_read H ow w).2).1 ≠ 0
    · rw [if_pos h4]
      right
      refine ⟨_, _, h4.1, h4.2, rfl, ?_⟩
      simp only [onewire_read_trace, List.append_assoc, List.singleton_append]
    · rw [if_neg h4]
      left
      by_cases h5 : (onewire_read H ow w).1 = 0
      · rw [if_pos h5]
        exact ⟨_, _, 0 % 256, h4, rfl, tr 0, rfl, fun h => absurd ⟨h.1, h.2.1⟩ h1,
          fun _ => ⟨rfl, rfl⟩⟩
      · rw [if_neg h5]
        exact ⟨_, _, 1 % 256, h4, rfl, tr 1, rfl, fun h => by simp at h, fun _ => ⟨rfl, rfl⟩⟩

/-- The address loop, with the bookkeeping of `finished` and
`next_branch_point` in terms of the steps that read `(0,0)` and sent `0`. -/
theorem address_loop_book (n : Nat) : ∀ (index : Nat) (l : Locals) (w : World σ),
    ∃ k evs ok, AddrRun k evs ok ∧
      (address_loop H ow n index l w).2.trace = w.trace ++ evs ∧
      (ok = true → k = n ∧
        (address_loop H ow n index l w).1.branch_point = l.branch_point ∧
        (∀ j ∈ answered_zero index evs, index ≤ j ∧ j < index + n) ∧
        (answered_zero index evs = [] →
          (address_loop H ow n index l w).1.finished = l.finished ∧
          (address_loop H ow n index l w).1.next_branch_point = l.next_branch_point) ∧
        (answered_zero index evs ≠ [] →
          (address_loop H ow n index l w).1.finished = false ∧
          ∃ nb ∈ answered_zero index evs,
            (address_loop H ow n index l w).1.next_branch_point = (nb : Int) ∧
            ∀ j ∈ answered_zero index evs, j ≤ nb)) := by
  induction n with
  | zero =>
    intro index l w
    refine ⟨0, [], true, AddrRun.done, by simp [address_loop], fun _ => ⟨rfl, rfl, ?_, ?_, ?_⟩⟩
    · intro j hj; simp [answered_zero] at hj
    · intro _; exact ⟨rfl, rfl⟩
    · intro h; simp [answered_zero] at h
  | succ n ih =>
    intro index l w
    rw [address_loop]
    rcases address_step_book H ow index l w with
      ⟨a, b, s, hab, hc, htr, hbp, hz, hnz⟩ | ⟨a, b, ha, hb, hc, htr⟩
    · rw [hc, if_pos rfl]
      obtain ⟨k, evs, ok, hrun, htr2, hok⟩ :=
        ih (index + 1) _ (address_step H ow index l w).2.2
      refine ⟨k + 1, _, ok, AddrRun.step a b s k evs ok hab hrun, ?_, ?_⟩
      · rw [htr2, htr]; simp
      · intro h
        obtain ⟨h1, h2, h3, h4, h5⟩ := hok h
        refine ⟨by omega, by rw [h2, hbp], ?_, ?_, ?_⟩
        · intro j hj
          simp only [answered_zero] at hj
          split_ifs at hj with hzz
          · rcases List.mem_cons.1 hj with rfl | hj
            · omega
            · have := h3 j hj; omega
          · have := h3 j hj; omega
        · intro hnil
          simp only [answered_zero] at hnil
          split_ifs at hnil with hzz
          obtain ⟨e1, e2⟩ := h4 hnil
          obtain ⟨f1, f2⟩ := hnz hzz
          exact ⟨by rw [e1, f1], by rw [e2, f2]⟩
        · intro _
          by_cases hrest : answered_zero (index + 1) evs = []
          · obtain ⟨e1, e2⟩ := h4 hrest
            by_cases hzz : a = 0 ∧ b = 0 ∧ s = 0
            · obtain ⟨f1, f2⟩ := hz hzz
              refine ⟨by rw [e1, f1], index, ?_, by rw [e2, f2], ?_⟩
              · simp [answered_zero, hzz]
              · intro j hj
                simp only [answered_zero, hzz, and_self, if_true, hrest, List.mem_singleton] at hj
                omega
            · exfalso
              have : answered_zero index
                  (Event.read a :: Event.read b :: Event.send s :: evs) = [] := by
                simp only [answered_zero, if_neg hzz, hrest]
              contradiction
          · obtain ⟨e1, nb, hnb, e2, hmax⟩ := h5 hrest
            refine ⟨e1, nb, ?_, e2, ?_⟩
            · simp only [answered_zero]
              split_ifs
              · exact List.mem_cons_of_mem _ hnb
              · exact hnb
            · intro j hj
              simp only [answered_zero] at hj
              split_ifs at hj
              · rcases List.mem_cons.1 hj with rfl | hj
                · have := (h3 nb hnb).1; omega
                · exact hmax j hj
              · exact hmax j hj
    · rw [hc]
      exact ⟨0, _, false, AddrRun.abort a b ha hb, htr, fun h => by simp at h⟩

/-- C15: branch-point bookkeeping. In every pass whose reset reports presence
the events are the reset, the command, an address phase `evs` and the store;
the branch point of the pass is the `next_branch_point` it started with; and
when the address phase completed all 64 bits (`ok`), `finished` is true
exactly when no step read `(0,0)` and sent `0`, and otherwise
`next_branch_point` is the largest index of such a step. -/
theorem pass_bookkeeping (has_list : Bool) (cmd : Nat) (l : Locals) (w : World σ)
    (h : (onewire_reset H ow w).1 = true) :
    ∃ k evs ok st, AddrRun k evs ok ∧
      (scan_pass H ow has_list cmd l w).2.2.trace =
        w.trace ++ Event.reset true :: (command_events cmd 8 0 ++ (evs ++ st)) ∧
      (∀ e ∈ st, ∃ i v, e = Event.store i v) ∧
      (ok = true → k = 64 ∧
        (scan_pass H ow has_list cmd l w).2.1.branch_point = l.next_branch_point ∧
        ((scan_pass H ow has_list cmd l w).2.1.finished = true ↔ answered_zero 0 evs = []) ∧
        ((scan_pass H ow has_list cmd l w).2.1.finished = false →
          ∃ nb : Nat, (scan_pass H ow has_list cmd l w).2.1.next_branch_point = (nb : Int) ∧
            nb < 64 ∧ nb ∈ answered_zero 0 evs ∧ ∀ j ∈ answered_zero 0 evs, j ≤ nb)) := by
  obtain ⟨hl, _⟩ := scan_pass_locals H ow has_list cmd l w h
  obtain ⟨k, evs, ok, hrun, htr, hok⟩ := address_loop_book H ow 64 0
    { l with finished := true, branch_point := l.next_branch_point }
    (send_command H ow cmd 8 0 (onewire_reset H ow w).2)
  rw [send_command_trace, onewire_reset_trace, h] at htr
  have htrace : ∃ st, (scan_pass H ow has_list cmd l w).2.2.trace =
      w.trace ++ Event.reset true :: (command_events cmd 8 0 ++ (evs ++ st)) ∧
      ∀ e ∈ st, ∃ i v, e = Event.store i v := by
    unfold scan_pass
    simp only [h, Bool.true_eq_false, if_false]
    cases has_list with
    | false =>
      refine ⟨[], ?_, fun e he => by cases he⟩
      simp only [Bool.false_eq_true, if_false]; rw [htr]; simp
    | true =>
      refine ⟨[Event.store
        (address_loop H ow 64 0 { l with finished := true, branch_point := l.next_branch_point }
          (send_command H ow cmd 8 0 (onewire_reset H ow w).2)).1.num_found
        (address_loop H ow 64 0 { l with finished := true, branch_point := l.next_branch_point }
          (send_command H ow cmd 8 0 (onewire_reset H ow w).2)).1.device_id], ?_,
        fun e he => ⟨_, _, List.mem_singleton.1 he⟩⟩
      simp only [if_true]; rw [htr]; simp
  obtain ⟨st, hst, hstore⟩ := htrace
  refine ⟨k, evs, ok, st, hrun, hst, hstore, ?_⟩
  intro hok'
  obtain ⟨h1, h2, h3, h4, h5⟩ := hok hok'
  rw [hl]
  refine ⟨h1, h2, ?_, ?_⟩
  · constructor
    · intro hfin
      by_contra hne
      rw [(h5 hne).1] at hfin
      cases hfin
    · intro hnil
      exact (h4 hnil).1
  · intro hfin
    have hne : answered_zero 0 evs ≠ [] := by
      intro hnil
      rw [(h4 hnil).1] at hfin
      cases hfin
    obtain ⟨_, nb, hnb, e2, hmax⟩ := h5 hne
    exact ⟨nb, e2, by have := (h3 nb hnb).2; omega, hnb, hmax⟩

end Generic

/-- On hardware whose reads all return `0`, with branch point `5` and a
candidate whose bit `3` is set, the step at bit `3` sends `1`. -/
theorem collision_direction_rule_witness :
    (8 : Nat) < 2 ^ 64 ∧
    (address_step (const_hw 0) ow0 3
      { device_id := 8, branch_point := 5, next_branch_point := -1, num_found := 0,
        finished := true } { hw := (), trace := [] }).1 = true ∧
    (address_step (const_hw 0) ow0 3
      { device_id := 8, branch_point := 5, next_branch_point := -1, num_found := 0,
        finished := true } { hw := (), trace := [] }).2.2.trace =
      [] ++ [Event.read 0, Event.read 0,
        Event.send (if collision_direction 3 5 8 then 1 else 0)] ∧
    (∀ j, (address_step (const_hw 0) ow0 3
      { device_id := 8, branch_point := 5, next_branch_point := -1, num_found := 0,
        finished := true } { hw := (), trace := [] }).2.1.device_id.testBit j =
      if j = 3 then collision_direction 3 5 8 else (8 : Nat).testBit j) ∧
    (address_step (const_hw 0) ow0 3
      { device_id := 8, branch_point := 5, next_branch_point := -1, num_found := 0,
        finished := true } { hw := (), trace := [] }).2.1.branch_point = 5 :=
  ⟨by decide,
    collision_direction_rule (const_hw 0) ow0 3
      { device_id := 8, branch_point := 5, next_branch_point := -1, num_found := 0,
        finished := true } { hw := (), trace := [] } (by decide) rfl rfl⟩

set_option maxRecDepth 100000 in
/-- On hardware whose reads all return `0` every address bit of the first pass
is a collision answered by `0`: the pass ends with `finished = false` and
`next_branch_point = 63`. -/
theorem pass_bookkeeping_witness :
    (onewire_reset (const_hw 0) ow0 { hw := (), trace := [] }).1 = true ∧
    (scan_pass (const_hw 0) ow0 true 0xF0 locals_init { hw := (), trace := [] }).2.1.finished =
      false ∧
    (scan_pass (const_hw 0) ow0 true 0xF0 locals_init
      { hw := (), trace := [] }).2.1.next_branch_point = 63 ∧
    ∃ k evs ok st, AddrRun k evs ok ∧
      (scan_pass (const_hw 0) ow0 true 0xF0 locals_init { hw := (), trace := [] }).2.2.trace =
        [] ++ Event.reset true :: (command_events 0xF0 8 0 ++ (evs ++ st)) ∧
      (∀ e ∈ st, ∃ i v, e = Event.store i v) ∧
      (ok = true → k = 64 ∧
        (scan_pass (const_hw 0) ow0 true 0xF0 locals_init
          { hw := (), trace := [] }).2.1.branch_point = locals_init.next_branch_point ∧
        ((scan_pass (const_hw 0) ow0 true 0xF0 locals_init
          { hw := (), trace := [] }).2.1.finished = true ↔ answered_zero 0 evs = []) ∧
        ((scan_pass (const_hw 0) ow0 true 0xF0 locals_init
          { hw := (), trace := [] }).2.1.finished = false →
          ∃ nb : Nat, (scan_pass (const_hw 0) ow0 true 0xF0 locals_init
              { hw := (), trace := [] }).2.1.next_branch_point = (nb : Int) ∧
            nb < 64 ∧ nb ∈ answered_zero 0 evs ∧ ∀ j ∈ answered_zero 0 evs, j ≤ nb)) :=
  ⟨rfl, rfl, rfl,
    pass_bookkeeping (const_hw 0) ow0 true 0xF0 locals_init { hw := (), trace := [] } rfl⟩

/-! ## Theorems: the command phase and the end of an aborted scan -/

theorem append_eq_split {α : Type} (t u pre post : List α) (x : α)
    (h : t ++ u = pre ++ x :: post) :
    (∃ post0, t = pre ++ x :: post0 ∧ post = post0 ++ u) ∨
    (∃ pre1, pre = t ++ pre1 ∧ u = pre1 ++ x :: post) := by
  rcases List.append_eq_append_iff.1 h with ⟨a, h1, h2⟩ | ⟨c, h1, h2⟩
  · exact Or.inr ⟨a, h1, h2⟩
  · cases c with
    | nil => exact Or.inr ⟨[], by simpa using h1.symm, by simpa using h2.symm⟩
    | cons y c =>
      simp only [List.cons_append, List.cons.injEq] at h2
      obtain ⟨rfl, h3⟩ := h2
      exact Or.inl ⟨c, h1, h3⟩

/-- After every reset that found a device come the eight command bits and
then a read. -/
def command_follows (c : Nat) (t : List Event) : Prop :=
  ∀ pre post, t = pre ++ Event.reset true :: post →
    ∃ a rest, post = command_events c 8 0 ++ Event.read a :: rest

theorem command_follows_append {c : Nat} {t u : List Event} (ht : command_follows c t)
    (hu : Event.reset true ∉ u) : command_follows c (t ++ u) := by
  intro pre post h
  rcases append_eq_split t u pre post _ h with ⟨post0, h1, h2⟩ | ⟨pre1, _, h2⟩
  · obtain ⟨a, rest, h3⟩ := ht pre post0 h1
    exact ⟨a, rest ++ u, by rw [h2, h3]; simp⟩
  · exact absurd (by rw [h2]; simp) hu

theorem AddrRun.head_read {k : Nat} {evs : List Event} {ok : Bool} (h : AddrRun k evs ok)
    (hk : ok = true → 0 < k) : ∃ a rest, evs = Event.read a :: rest := by
  cases h with
  | done => exact absurd (hk rfl) (by omega)
  | abort a b _ _ => exact ⟨a, _, rfl⟩
  | step a b s k evs ok _ _ => exact ⟨a, _, rfl⟩

theorem command_follows_pass {c k : Nat} {t evs st : List Event} {ok : Bool}
    (ht : command_follows c t) (hrun : AddrRun k evs ok) (hk : ok = true → 0 < k)
    (hst : ∀ e ∈ st, ∃ i v, e = Event.store i v) :
    command_follows c (t ++ Event.reset true :: (command_events c 8 0 ++ (evs ++ st))) := by
  have hno : Event.reset true ∉ command_events c 8 0 ++ (evs ++ st) := by
    simp only [List.mem_append, not_or]
    refine ⟨?_, ?_, ?_⟩
    · intro hm; obtain ⟨v, hv⟩ := command_events_mem c 8 0 _ hm; cases hv
    · intro hm; rcases hrun.events_mem _ hm with ⟨v, hv⟩ | ⟨v, hv⟩ <;> cases hv
    · intro hm; obtain ⟨i, v, hv⟩ := hst _ hm; cases hv
  intro pre post h
  rcases append_eq_split t _ pre post _ h with ⟨post0, h1, h2⟩ | ⟨pre1, _, h2⟩
  · obtain ⟨a, rest, h3⟩ := ht pre post0 h1
    exact ⟨a, rest ++ Event.reset true :: (command_events c 8 0 ++ (evs ++ st)),
      by rw [h2, h3]; simp⟩
  · cases pre1 with
    | nil =>
      simp only [List.nil_append, List.cons.injEq, true_and] at h2
      obtain ⟨a, rest, he⟩ := hrun.head_read hk
      exact ⟨a, rest ++ st, by rw [← h2, he]; simp⟩
    | cons y pre1 =>
      simp only [List.cons_append, List.cons.injEq] at h2
      exact absurd (by rw [h2.2]; simp) hno

section Generic

variable {σ : Type} (H : Hw σ) (ow : onewire_instance_t)

/-- C13: the search command is sent bit by bit, least significant bit first.
In every run, after each reset that reported presence the trace continues
with exactly eight sends and then a read, and the least significant bit of
the value handed to the `k`-th send is bit `k` of `search_command`. -/
theorem command_sent_lsb_first (has_list : Bool) (maxdevs : Int) (cmd fuel : Nat) (s : σ)
    (pre post : List Event)
    (h : (onewire_bus_scan H ow has_list maxdevs cmd fuel { hw := s, trace := [] }).2.trace =
      pre ++ Event.reset true :: post) :
    ∃ (ds : List Nat) (a : Nat) (rest : List Event),
      post = ds.map Event.send ++ Event.read a :: rest ∧ ds.length = 8 ∧
      ∀ k < 8, ∃ d, ds[k]? = some d ∧ d.testBit 0 = cmd.testBit k := by
  obtain ⟨l0, w0, hI, hc⟩ := scan_cases H ow has_list maxdevs cmd
    (fun _ w => command_follows (cmd % 256) w.trace) { hw := s, trace := [] }
    (by
      intro pre post h
      simp only [driver_init, List.nil_append] at h
      cases pre with
      | nil => simp at h
      | cons y pre => simp at h)
    (by
      intro l w hI _ hp
      rw [scan_pass_fst] at hp
      obtain ⟨_, k, evs, ok, st, hrun, htr, hst0, hst1, hok, _⟩ :=
        scan_pass_present H ow has_list (cmd % 256) l w hp
      show command_follows (cmd % 256) (scan_pass H ow has_list (cmd % 256) l w).2.2.trace
      rw [htr]
      refine command_follows_pass hI hrun (fun h => by rw [(hok h).1]; norm_num) ?_
      intro e he
      cases has_list with
      | false => rw [hst0 rfl] at he; cases he
      | true => rw [hst1 rfl] at he; exact ⟨_, _, List.mem_singleton.1 he⟩)
    fuel
  have hfinal : command_follows (cmd % 256)
      (onewire_bus_scan H ow has_list maxdevs cmd fuel { hw := s, trace := [] }).2.trace := by
    rcases hc with ⟨_, h2⟩ | ⟨_, h2⟩ | ⟨_, _, h2⟩
    · rw [h2]; exact hI
    · rw [h2]; exact command_follows_append hI (by simp)
    · rw [h2]
      simp only [driver_init, List.append_assoc]
      exact command_follows_append hI (by simp)
  obtain ⟨a, rest, hpost⟩ := hfinal pre post h
  refine ⟨(List.range 8).map (fun j => ((cmd % 256) >>> (0 + j)) % 256), a, rest, ?_, by simp, ?_⟩
  · rw [hpost, command_events, List.map_map]; rfl
  · intro k hk
    refine ⟨((cmd % 256) >>> (0 + k)) % 256, ?_, ?_⟩
    · rw [List.getElem?_map, List.getElem?_range hk]; rfl
    · have e256 : (256 : Nat) = 2 ^ 8 := by norm_num
      rw [e256, Nat.testBit_mod_two_pow, Nat.testBit_shiftRight, Nat.testBit_mod_two_pow]
      simp [hk]

end Generic

set_option maxRecDepth 100000 in
/-- The command `0xF0` goes out as the bits `0,0,0,0,1,1,1,1` before the first
read. -/
theorem command_sent_lsb_first_witness :
    (onewire_bus_scan (const_hw 0x1000000) ow0 true 0 0xF0 1 { hw := (), trace := [] }).2.trace =
      [Event.driver_init 1] ++ Event.reset true ::
        ((onewire_bus_scan (const_hw 0x1000000) ow0 true 0 0xF0 1
          { hw := (), trace := [] }).2.trace.drop 2) ∧
    ∃ (ds : List Nat) (a : Nat) (rest : List Event),
      (onewire_bus_scan (const_hw 0x1000000) ow0 true 0 0xF0 1
          { hw := (), trace := [] }).2.trace.drop 2 =
        ds.map Event.send ++ Event.read a :: rest ∧ ds.length = 8 ∧
      ∀ k < 8, ∃ d, ds[k]? = some d ∧ d.testBit 0 = (0xF0 : Nat).testBit k :=
  ⟨rfl, command_sent_lsb_first (const_hw 0x1000000) ow0 true 0 0xF0 1 () [Event.driver_init 1]
    _ rfl⟩

theorem quiet_not_ends_in_read (pre : List Event) (a : Nat) (ha : a ≠ 0) :
    ¬quiet (pre ++ [Event.read a]) := by
  intro h
  unfold quiet at h
  rw [List.append_assoc] at h
  have h2 := (List.chain'_append.1 h).2.1
  simp only [List.singleton_append, List.chain'_cons, List.chain'_singleton, and_true] at h2
  exact h2 ⟨a, 1, rfl, rfl, ha, one_ne_zero⟩

/-- In a trace that is quiet up to one pair of nonzero reads followed by events
that are not reads, that pair is the only pair of consecutive nonzero reads. -/
theorem bad_pair_unique {P tl pre post : List Event} {a b c d : Nat} (hP : quiet P)
    (htl : ∀ e ∈ tl, ∀ v, e ≠ Event.read v) (hc : c ≠ 0) (hd : d ≠ 0)
    (h : P ++ Event.read a :: Event.read b :: tl = pre ++ Event.read c :: Event.read d :: post) :
    pre = P ∧ post = tl := by
  rcases append_eq_split P _ pre _ _ h with ⟨post0, h1, h2⟩ | ⟨pre1, h1, h2⟩
  · exfalso
    cases post0 with
    | nil =>
      rw [h1] at hP
      exact quiet_not_ends_in_read pre c hc hP
    | cons y post0 =>
      simp only [List.cons_append, List.cons.injEq] at h2
      rw [h1, ← h2.1] at hP
      exact quiet_not_read_both _ hP ⟨pre, c, d, post0, rfl, hc, hd⟩
  · cases pre1 with
    | nil =>
      simp only [List.nil_append, List.cons.injEq] at h2
      exact ⟨by simpa using h1, h2.2.2.symm⟩
    | cons x pre1 =>
      exfalso
      cases pre1 with
      | nil =>
        simp only [List.cons_append, List.nil_append, List.cons.injEq] at h2
        exact htl (Event.read d) (by rw [h2.2.2]; simp) d rfl
      | cons y pre1 =>
        simp only [List.cons_append, List.cons.injEq] at h2
        exact htl (Event.read c) (by rw [h2.2.2]; simp) c rfl

section Generic

variable {σ : Type} (H : Hw σ) (ow : onewire_instance_t)

/-- C16: a scan that reads both bits of an address step nonzero stops at once.
In every run, if the trace contains two consecutive nonzero reads, then the
scan has returned `-1` and what follows the two reads is no reset, send or
read: it is at most the store of the aborted pass (only when a list is given)
and then the switch of the driver back to 8-bit mode. -/
theorem scan_stops_at_inconsistency (has_list : Bool) (maxdevs : Int) (cmd fuel : Nat) (s : σ)
    (pre post : List Event) (a b : Nat) (ha : a ≠ 0) (hb : b ≠ 0)
    (h : (onewire_bus_scan H ow has_list maxdevs cmd fuel { hw := s, trace := [] }).2.trace =
      pre ++ Event.read a :: Event.read b :: post) :
    (onewire_bus_scan H ow has_list maxdevs cmd fuel { hw := s, trace := [] }).1 = some (-1) ∧
    (∃ st, post = st ++ [Event.driver_init 8] ∧ (has_list = false → st = []) ∧
      (has_list = true → ∃ v, st = [Event.store (-2) v])) ∧
    ∀ e ∈ post, (∀ p, e ≠ Event.reset p) ∧ (∀ v, e ≠ Event.send v) ∧ (∀ v, e ≠ Event.read v) := by
  obtain ⟨l0, w0, hI, hc⟩ := scan_cases H ow has_list maxdevs cmd
    (fun l w => quiet w.trace ∨
      (l.num_found = -1 ∧ l.finished = true ∧ ∃ P c d st, w.trace = P ++ Event.read c ::
        Event.read d :: st ∧ quiet P ∧ (has_list = false → st = []) ∧
        (has_list = true → ∃ v, st = [Event.store (-2) v])))
    { hw := s, trace := [] }
    (Or.inl (by
      simpa [driver_init] using quiet_single (Event.driver_init 1) (fun v hv => by cases hv)))
    (by
      intro l w hI hcond hp
      rw [scan_pass_fst] at hp
      obtain ⟨_, k, evs, ok, st, hrun, htr, hst0, hst1, hok, hbad⟩ :=
        scan_pass_present H ow has_list (cmd % 256) l w hp
      rcases hI with hq | ⟨_, hfin, _⟩
      · cases ok with
        | true =>
          left
          have hst : ∀ e ∈ st, ∀ v, e ≠ Event.read v := by
            intro e he v
            cases has_list with
            | false => rw [hst0 rfl] at he; cases he
            | true => rw [hst1 rfl] at he; simp at he; rw [he]; simp
          show quiet (scan_pass H ow has_list (cmd % 256) l w).2.2.trace
          rw [htr]
          exact quiet_pass (cmd % 256) k evs st _ hq hrun hst
        | false =>
          right
          refine ⟨(hbad rfl).2.1, (hbad rfl).2.2, ?_⟩
          obtain ⟨pre1, c, d, he, _, _, hrun1⟩ := hrun.ends_in_reads
          refine ⟨w.trace ++ Event.reset true :: (command_events (cmd % 256) 8 0 ++ (pre1 ++ [])),
            c, d, st, ?_, quiet_pass (cmd % 256) k pre1 [] _ hq hrun1 (fun e he => by cases he),
            hst0, ?_⟩
          · show (scan_pass H ow has_list (cmd % 256) l w).2.2.trace = _
            rw [htr, he]; simp
          · intro hl
            exact ⟨_, by rw [hst1 hl]; rfl⟩
      · rw [loop_cond_finished maxdevs l hfin] at hcond
        cases hcond)
    fuel
  have hq8 : ∀ t : List Event, quiet t → quiet (t ++ [Event.driver_init 8]) := fun t ht =>
    quiet_append ht (quiet_single _ (fun v hv => by cases hv))
  have hrb : read_both_nonzero
      (onewire_bus_scan H ow has_list maxdevs cmd fuel { hw := s, trace := [] }).2.trace :=
    ⟨pre, a, b, post, h, ha, hb⟩
  have hquiet : quiet w0.trace → loop_cond maxdevs l0 = true → False := by
    intro hq hcond
    rcases hc with ⟨_, h2⟩ | ⟨hf, _⟩ | ⟨_, _, h2⟩
    · rw [h2] at hrb; exact quiet_not_read_both _ hq hrb
    · rw [hf] at hcond; cases hcond
    · rw [h2] at hrb
      refine quiet_not_read_both _ (hq8 _ (quiet_append hq (quiet_single _ ?_))) hrb
      intro v hv; cases hv
  rcases hI with hq | ⟨hnf, hfin, P, c, d, st, htr, hP, hst0, hst1⟩
  · exfalso
    rcases hc with ⟨hcond, _⟩ | ⟨_, h2⟩ | ⟨hcond, _, _⟩
    · exact hquiet hq hcond
    · rw [h2] at hrb; exact quiet_not_read_both _ (hq8 _ hq) hrb
    · exact hquiet hq hcond
  · have hcf := loop_cond_finished maxdevs l0 hfin
    rcases hc with ⟨hcond, _⟩ | ⟨_, h2⟩ | ⟨hcond, _, _⟩
    · rw [hcf] at hcond; cases hcond
    · rw [h2] at h ⊢
      have hst : ∀ e ∈ st, ∃ v, e = Event.store (-2) v := by
        intro e he
        cases has_list with
        | false => rw [hst0 rfl] at he; cases he
        | true =>
          obtain ⟨v, hv⟩ := hst1 rfl
          rw [hv] at he
          exact ⟨v, List.mem_singleton.1 he⟩
      have h3 : P ++ Event.read c :: Event.read d :: (st ++ [Event.driver_init 8]) =
          pre ++ Event.read a :: Event.read b :: post := by
        rw [← h]; simp [driver_init, htr]
      obtain ⟨_, hpost⟩ := bad_pair_unique hP (by
        intro e he v
        rcases List.mem_append.1 he with he | he
        · obtain ⟨v2, hv2⟩ := hst e he; rw [hv2]; simp
        · rw [List.mem_singleton.1 he]; simp) ha hb h3
      refine ⟨by rw [hnf], ⟨st, hpost, hst0, hst1⟩, ?_⟩
      intro e he
      rw [hpost] at he
      rcases List.mem_append.1 he with he | he
      · obtain ⟨v2, hv2⟩ := hst e he; rw [hv2]; simp
      · rw [List.mem_singleton.1 he]; simp
    · rw [hcf] at hcond; cases hcond

end Generic

set_option maxRecDepth 100000 in
/-- After the first pair of reads returned `(1, 1)` the trace ends with the
store of the aborted pass and the switch to 8-bit mode. -/
theorem scan_stops_at_inconsistency_witness :
    (1 : Nat) ≠ 0 ∧ (1 : Nat) ≠ 0 ∧
    (onewire_bus_scan (const_hw 0x1000000) ow0 true 0 0xF0 1 { hw := (), trace := [] }).2.trace =
      (Event.driver_init 1 :: Event.reset true :: command_events 0xF0 8 0) ++
        Event.read 1 :: Event.read 1 :: [Event.store (-2) 0, Event.driver_init 8] ∧
    (onewire_bus_scan (const_hw 0x1000000) ow0 true 0 0xF0 1 { hw := (), trace := [] }).1 =
      some (-1) ∧
    (∃ st, [Event.store (-2) 0, Event.driver_init 8] = st ++ [Event.driver_init 8] ∧
      (true = false → st = []) ∧ (true = true → ∃ v, st = [Event.store (-2) v])) ∧
    ∀ e ∈ [Event.store (-2) 0, Event.driver_init 8],
      (∀ p, e ≠ Event.reset p) ∧ (∀ v, e ≠ Event.send v) ∧ (∀ v, e ≠ Event.read v) :=
  ⟨by decide, by decide, rfl,
    scan_stops_at_inconsistency (const_hw 0x1000000) ow0 true 0 0xF0 1 ()
      (Event.driver_init 1 :: Event.reset true :: command_events 0xF0 8 0)
      [Event.store (-2) 0, Event.driver_init 8] 1 1 (by decide) (by decide) rfl⟩

/-! ## Theorems: the zero-residue form of the CRC check -/

theorem crc_loop_add (m n : Nat) : ∀ st : Nat × Nat,
    crc_loop (m + n) st = crc_loop n (crc_loop m st) := by
  induction m with
  | zero => intro st; simp [crc_loop]
  | succ m ih =>
    intro st
    rw [Nat.add_right_comm]
    exact ih (crc_iter st)

set_option maxRecDepth 100000 in
theorem crc_loop_byte_self : ∀ c < 256, (crc_loop 8 (c, c)).2 = 0 := by decide

set_option maxRecDepth 100000 in
theorem crc_loop_byte_zero : ∀ e < 256, (crc_loop 8 (e, 0)).2 = 0 → e = 0 := by decide

/-- Feeding a byte `d` into the register `c` gives `0` exactly when `d = c`. -/
theorem crc_loop_byte (d c : Nat) (hd : d < 256) (hc : c < 256) :
    (crc_loop 8 (d, c)).2 = 0 ↔ d = c := by
  have hx : d ^^^ c < 256 := Nat.xor_lt_two_pow (n := 8) hd hc
  have h := crc_loop_xor 8 (d ^^^ c) c 0 c (by norm_num) hc
  rw [Nat.xor_assoc, Nat.xor_self, Nat.xor_zero, Nat.zero_xor, crc_loop_byte_self c hc,
    Nat.xor_zero] at h
  rw [h]
  constructor
  · intro h0
    have := crc_loop_byte_zero _ hx h0
    exact Nat.xor_eq_zero.1 this
  · intro e
    rw [e, Nat.xor_self]
    rfl

theorem id_crc_compose (p c : Nat) (hp : p < 2 ^ 56) (hc : c < 256) :
    id_crc (p + c * 2 ^ 56) = c ∧ (p + c * 2 ^ 56) % 2 ^ 56 = p := by
  unfold id_crc
  rw [Nat.shiftRight_eq_div_pow]
  constructor
  · rw [Nat.add_mul_div_right _ _ (by norm_num), Nat.div_eq_of_lt hp, Nat.zero_add,
      Nat.mod_eq_of_lt hc]
  · rw [Nat.add_mul_mod_self_right, Nat.mod_eq_of_lt hp]

/-- C20: zero-residue form of the CRC check. For every 64-bit id,
`onewire_check_crc` accepts it exactly when the loop body of the function, run
over all 64 bits of the id from register `0`, ends with register `0`; that run
is the reference LFSR over 64 bits. Hence every 56-bit payload has exactly one
accepted crc byte. -/
theorem check_crc_zero_residue :
    (∀ id : Nat, id < 2 ^ 64 →
      (onewire_check_crc id = true ↔ (crc_loop 64 (id, 0)).2 = 0)) ∧
    (∀ id : Nat, (crc_loop 64 (id, 0)).2 = crc8_bits 64 id) ∧
    (∀ p : Nat, p < 2 ^ 56 →
      ∃! c : Nat, c < 256 ∧ onewire_check_crc (p + c * 2 ^ 56) = true) := by
  refine ⟨?_, ?_, ?_⟩
  · intro id hid
    have hlt : ((List.range 56).map id.testBit).foldl crc8_step 0 < 256 := crc8_bits_lt 56 id
    have hd : id >>> 56 < 256 := by
      rw [Nat.shiftRight_eq_div_pow]
      exact Nat.div_lt_of_lt_mul (by norm_num at hid ⊢; omega)
    rw [show (64 : Nat) = 56 + 8 from rfl, crc_loop_add, crc_loop_eq 56 id 0 (by norm_num),
      crc_loop_byte _ _ hd hlt]
    unfold onewire_check_crc id_crc
    rw [crc_loop_eq 56 id 0 (by norm_num), Nat.mod_eq_of_lt hd]
    simp
  · intro id
    rw [crc_loop_eq 64 id 0 (by norm_num)]
    rfl
  · intro p hp
    refine ⟨crc8 p, ⟨crc8_bits_lt 56 p, ?_⟩, ?_⟩
    · have h := id_crc_compose p (crc8 p) hp (crc8_bits_lt 56 p)
      rw [check_crc_eq, h.1, h.2]
      simp
    · rintro c ⟨hc, hacc⟩
      have h := id_crc_compose p c hp hc
      rw [check_crc_eq, h.1, h.2] at hacc
      simpa using hacc

set_option maxRecDepth 100000 in
/-- The id `0xF428FF123456789A` is accepted and leaves the register at `0`;
`0xF4` is the only crc byte accepted for its payload. -/
theorem check_crc_zero_residue_witness :
    ((0xF428FF123456789A : Nat) < 2 ^ 64 ∧
      (onewire_check_crc 0xF428FF123456789A = true ↔
        (crc_loop 64 (0xF428FF123456789A, 0)).2 = 0)) ∧
    ((0x28FF123456789A : Nat) < 2 ^ 56 ∧
      ∃! c : Nat, c < 256 ∧ onewire_check_crc (0x28FF123456789A + c * 2 ^ 56) = true) :=
  ⟨⟨by norm_num, check_crc_zero_residue.1 0xF428FF123456789A (by norm_num)⟩,
    ⟨by norm_num, check_crc_zero_residue.2.2 0x28FF123456789A (by norm_num)⟩⟩

/-! ## Theorems: the CRC as a polynomial remainder -/

theorem two_mul_xor (a b : Nat) : 2 * (a ^^^ b) = 2 * a ^^^ 2 * b := by
  have h2 : ∀ c : Nat, 2 * c = c <<< 1 := fun c => by rw [Nat.shiftLeft_eq]; omega
  apply Nat.eq_of_testBit_eq
  intro i
  simp only [h2, Nat.testBit_shiftLeft, Nat.testBit_xor]
  cases decide (i ≥ 1) <;> simp

theorem bitrev_testBit (n p : Nat) : ∀ j, (bitrev n p).testBit j =
    (decide (j < n) && p.testBit (n - 1 - j)) := by
  induction n with
  | zero => intro j; simp [bitrev]
  | succ n ih =>
    intro j
    cases j with
    | zero =>
      cases hb : p.testBit n <;> simp [bitrev, Nat.testBit_zero, hb, Nat.add_mod]
    | succ j =>
      have : (2 * bitrev n p + (p.testBit n).toNat) / 2 = bitrev n p := by
        cases p.testBit n <;> simp; omega
      rw [bitrev, Nat.testBit_succ, this, ih]
      simp only [Nat.add_lt_add_iff_right, Nat.add_sub_cancel]
      congr 2
      omega

theorem bitrev_lt (n p : Nat) : bitrev n p < 2 ^ n := by
  apply Nat.lt_pow_two_of_testBit
  intro i hi
  rw [bitrev_testBit]
  simp [Nat.not_lt.2 hi]

set_option maxRecDepth 100000 in
/-- One LFSR step, seen on the reversed register, multiplies by `x`, adds the
input bit at `x^8` and reduces by the generator polynomial. -/
theorem bitrev_crc8_step : ∀ c < 256, ∀ x : Bool, bitrev 8 (crc8_step c x) =
    (2 * bitrev 8 c ^^^ x.toNat * 256) ^^^ (if (x != c.testBit 0) then crc_poly else 0) := by
  decide

theorem crc8_bits_succ (n p : Nat) :
    crc8_bits (n + 1) p = crc8_step (crc8_bits n p) (p.testBit n) := by
  unfold crc8_bits
  rw [List.range_succ, List.map_append, List.foldl_append]
  rfl

theorem shift_add_eq_xor (m x : Nat) (hx : x < 512) : 2 * (m * 256) + x = 2 * (m * 256) ^^^ x := by
  have e1 : 2 * (m * 256) = 2 ^ 9 * m := by omega
  rw [e1]
  apply Nat.eq_of_testBit_eq
  intro j
  rw [Nat.testBit_mul_pow_two_add m (by simpa using hx) j, Nat.testBit_xor,
    Nat.testBit_mul_pow_two]
  by_cases hj : j < 9
  · simp [hj, Nat.not_le.2 hj]
  · have : x.testBit j = false :=
      Nat.testBit_lt_two_pow (lt_of_lt_of_le hx (by
        have : 2 ^ 9 ≤ 2 ^ j := Nat.pow_le_pow_right (by norm_num) (Nat.not_lt.1 hj)
        simpa using this))
    simp [hj, Nat.not_lt.1 hj, this]

theorem clmul_bit (n Q g : Nat) (b : Bool) :
    clmul (n + 1) (2 * Q + b.toNat) g = (if b then g else 0) ^^^ 2 * clmul n Q g := by
  have h0 : (2 * Q + b.toNat).testBit 0 = b := by
    cases b <;> simp [Nat.testBit_zero, Nat.add_mod]
  have h1 : (2 * Q + b.toNat) / 2 = Q := by cases b <;> simp; omega
  rw [clmul, h0, h1]

/-- The reversed register is a remainder of the reversed input times `x^8`. -/
theorem crc8_bits_quotient (p : Nat) : ∀ n : Nat,
    ∃ Q, clmul n Q crc_poly ^^^ bitrev 8 (crc8_bits n p) = bitrev n p * 256 := by
  intro n
  induction n with
  | zero =>
    have h8 : bitrev 8 0 = 0 := by decide
    exact ⟨0, by
      show 0 ^^^ bitrev 8 0 = 0 * 256
      rw [h8]; rfl⟩
  | succ n ih =>
    obtain ⟨Q, hQ⟩ := ih
    refine ⟨2 * Q + ((p.testBit n) != (crc8_bits n p).testBit 0).toNat, ?_⟩
    have hb : bitrev (n + 1) p = 2 * bitrev n p + (p.testBit n).toNat := rfl
    rw [clmul_bit, crc8_bits_succ, bitrev_crc8_step _ (crc8_bits_lt n p), hb, Nat.add_mul,
      Nat.mul_assoc, shift_add_eq_xor _ _ (by cases p.testBit n <;> simp), ← hQ, two_mul_xor]
    generalize (if ((p.testBit n) != (crc8_bits n p).testBit 0) = true then crc_poly else 0) = F
    generalize 2 * clmul n Q crc_poly = A
    generalize 2 * bitrev 8 (crc8_bits n p) = R
    generalize (p.testBit n).toNat * 256 = X
    calc F ^^^ A ^^^ (R ^^^ X ^^^ F) = (F ^^^ F) ^^^ (A ^^^ R ^^^ X) := by ac_rfl
      _ = A ^^^ R ^^^ X := by rw [Nat.xor_self, Nat.zero_xor]

theorem clmul_xor (g : Nat) : ∀ (n Q1 Q2 : Nat),
    clmul n (Q1 ^^^ Q2) g = clmul n Q1 g ^^^ clmul n Q2 g := by
  intro n
  induction n with
  | zero => intro Q1 Q2; simp [clmul]
  | succ n ih =>
    intro Q1 Q2
    have hd : (Q1 ^^^ Q2) / 2 = Q1 / 2 ^^^ Q2 / 2 := by
      have := shiftRight_one_xor Q1 Q2
      simpa [Nat.shiftRight_eq_div_pow] using this
    rw [clmul, clmul, clmul, hd, ih, two_mul_xor, Nat.testBit_xor]
    generalize 2 * clmul n (Q1 / 2) g = A
    generalize 2 * clmul n (Q2 / 2) g = B
    cases Q1.testBit 0 <;> cases Q2.testBit 0 <;> simp
    · ac_rfl
    · ac_rfl
    · calc A ^^^ B = (g ^^^ g) ^^^ (A ^^^ B) := by rw [Nat.xor_self, Nat.zero_xor]
        _ = g ^^^ A ^^^ (g ^^^ B) := by ac_rfl

/-- A multiple of the generator polynomial of degree below 8 is zero. -/
theorem clmul_small : ∀ (n Q : Nat), clmul n Q crc_poly < 256 → clmul n Q crc_poly = 0 := by
  intro n
  induction n with
  | zero => intro Q _; rfl
  | succ n ih =>
    intro Q h
    rw [clmul] at h ⊢
    have hF : (if Q.testBit 0 then crc_poly else 0) < 2 ^ 9 := by
      split <;> simp [crc_poly]
    have hT : clmul n (Q / 2) crc_poly < 256 := by
      by_contra hge
      have h512 : 2 * clmul n (Q / 2) crc_poly < 2 ^ 9 := by
        have h3 := Nat.xor_lt_two_pow (lt_trans h (by norm_num : 256 < 2 ^ 9)) hF
        generalize (if Q.testBit 0 then crc_poly else 0) = F at h3
        rw [Nat.xor_comm F, Nat.xor_assoc, Nat.xor_self, Nat.xor_zero] at h3
        exact h3
      norm_num at h512
      omega
    rw [ih _ hT] at h ⊢
    cases hb : Q.testBit 0
    · simp
    · rw [hb] at h; simp [crc_poly] at h

theorem clmul_zero (g : Nat) : ∀ n : Nat, clmul n 0 g = 0 := by
  intro n
  induction n with
  | zero => rfl
  | succ n ih => simp [clmul, ih]

/-- Only the low `n` bits of the first factor count, and more bits may be
taken into account when they are zero. -/
theorem clmul_extend (g k : Nat) : ∀ (n Q : Nat), clmul n Q g = clmul (n + k) (Q % 2 ^ n) g := by
  intro n
  induction n with
  | zero => intro Q; simp [clmul, Nat.mod_one, clmul_zero]
  | succ n ih =>
    intro Q
    have h0 : (Q % 2 ^ (n + 1)).testBit 0 = Q.testBit 0 := by
      rw [Nat.testBit_mod_two_pow]; simp
    have h1 : Q % 2 ^ (n + 1) / 2 = Q / 2 % 2 ^ n := by
      rw [Nat.pow_succ, Nat.mul_comm, Nat.mod_mul_right_div_self]
    rw [Nat.add_right_comm, clmul, clmul, h0, h1, ← ih]

theorem xor_eq_xor_swap {a b r s : Nat} (h : a ^^^ r = b ^^^ s) : a ^^^ b = r ^^^ s := by
  apply Nat.eq_of_testBit_eq
  intro i
  have := congrArg (fun z : Nat => z.testBit i) h
  simp only [Nat.testBit_xor] at this ⊢
  revert this
  cases a.testBit i <;> cases b.testBit i <;> cases r.testBit i <;> cases s.testBit i <;> simp

/-- The remainder modulo the generator polynomial is unique. -/
theorem remainder_unique (M n1 Q1 R1 n2 Q2 R2 : Nat) (h1 : R1 < 2 ^ 8) (h2 : R2 < 2 ^ 8)
    (e1 : clmul n1 Q1 crc_poly ^^^ R1 = M) (e2 : clmul n2 Q2 crc_poly ^^^ R2 = M) : R1 = R2 := by
  rw [clmul_extend crc_poly n2 n1 Q1] at e1
  rw [clmul_extend crc_poly n1 n2 Q2, Nat.add_comm n2 n1] at e2
  have hx := xor_eq_xor_swap (e1.trans e2.symm)
  rw [← clmul_xor] at hx
  have hz := clmul_small _ _ (by rw [hx]; exact Nat.xor_lt_two_pow h1 h2)
  rw [hx] at hz
  exact Nat.xor_eq_zero.1 hz

/-- C17: `onewire_check_crc` computes the CRC of the generator polynomial
`x^8 + x^5 + x^4 + 1`. For a 56-bit payload `p`, let `M = bitrev 56 p` be the
polynomial whose coefficient of `x^(55-i)` is bit `i` of `p`. If the crc byte
`c` is accepted, then the polynomial `bitrev 8 c`, whose coefficient of `x^k`
is bit `7-k` of `c`, is the remainder of `M * x^8` divided by the generator:
it has degree below 8, differs from `M * x^8` by a multiple of the generator,
and is the only such polynomial. -/
theorem check_crc_is_polynomial_remainder (p c : Nat) (hp : p < 2 ^ 56) (hc : c < 256)
    (hacc : onewire_check_crc (p + c * 2 ^ 56) = true) :
    (∀ i < 56, (bitrev 56 p).testBit (55 - i) = p.testBit i) ∧
    (∀ k < 8, (bitrev 8 c).testBit k = c.testBit (7 - k)) ∧
    bitrev 8 c < 2 ^ 8 ∧
    (∃ Q, clmul 56 Q crc_poly ^^^ bitrev 8 c = bitrev 56 p * 2 ^ 8) ∧
    (∀ n Q R, R < 2 ^ 8 → clmul n Q crc_poly ^^^ R = bitrev 56 p * 2 ^ 8 → R = bitrev 8 c) := by
  have hcp : c = crc8_bits 56 p := by
    have h := id_crc_compose p c hp hc
    rw [check_crc_eq, h.1, h.2] at hacc
    simpa [crc8] using hacc
  obtain ⟨Q0, hQ0⟩ := crc8_bits_quotient p 56
  rw [← hcp] at hQ0
  refine ⟨?_, ?_, bitrev_lt 8 c, ⟨Q0, hQ0⟩, ?_⟩
  · intro i hi
    rw [bitrev_testBit]
    have e : 56 - 1 - (55 - i) = i := by omega
    rw [e]
    simp; omega
  · intro k hk
    rw [bitrev_testBit]
    simp [hk]
  · intro n Q R hR hQ
    exact remainder_unique _ n Q R 56 Q0 _ hR (bitrev_lt 8 c) hQ hQ0

set_option maxRecDepth 100000 in
/-- The payload `0x28FF123456789A` and its accepted crc byte `0xF4`: the
reversed byte `0x2F` is the remainder. -/
theorem check_crc_is_polynomial_remainder_witness :
    ((0x28FF123456789A : Nat) < 2 ^ 56 ∧ (0xF4 : Nat) < 256 ∧
      onewire_check_crc (0x28FF123456789A + 0xF4 * 2 ^ 56) = true) ∧ bitrev 8 0xF4 = 0x2F ∧
    ((∀ i < 56, (bitrev 56 0x28FF123456789A).testBit (55 - i) =
        (0x28FF123456789A : Nat).testBit i) ∧
    (∀ k < 8, (bitrev 8 0xF4).testBit k = (0xF4 : Nat).testBit (7 - k)) ∧
    bitrev 8 0xF4 < 2 ^ 8 ∧
    (∃ Q, clmul 56 Q crc_poly ^^^ bitrev 8 0xF4 = bitrev 56 0x28FF123456789A * 2 ^ 8) ∧
    (∀ n Q R, R < 2 ^ 8 → clmul n Q crc_poly ^^^ R = bitrev 56 0x28FF123456789A * 2 ^ 8 →
      R = bitrev 8 0xF4)) :=
  ⟨⟨by norm_num, by norm_num, by decide⟩, by decide,
    check_crc_is_polynomial_remainder 0x28FF123456789A 0xF4 (by norm_num) (by norm_num)
      (by decide)⟩

/-! ## Theorems: the stored codes in bit-reversed order -/

theorem bitrev_agree (c e : Nat) : ∀ n : Nat, agree n c e → bitrev n e = bitrev n c := by
  intro n
  induction n with
  | zero => intro _; rfl
  | succ n ih =>
    intro h
    have h1 : bitrev n e = bitrev n c := ih (fun j hj => h j (by omega))
    show 2 * bitrev n e + (e.testBit n).toNat = 2 * bitrev n c + (c.testBit n).toNat
    rw [h1, h n (by omega)]

theorem bitrev_lt_of_first_diff (c e : Nat) : ∀ n : Nat,
    (∃ i < n, agree i c e ∧ c.testBit i = false ∧ e.testBit i = true) →
    bitrev n c < bitrev n e := by
  intro n
  induction n with
  | zero => rintro ⟨i, hi, _⟩; omega
  | succ n ih =>
    rintro ⟨i, hi, hag, hc, he⟩
    show 2 * bitrev n c + (c.testBit n).toNat < 2 * bitrev n e + (e.testBit n).toNat
    rcases Nat.lt_succ_iff_lt_or_eq.1 hi with hlt | rfl
    · have := ih ⟨i, hlt, hag, hc, he⟩
      have h1 : (c.testBit n).toNat ≤ 1 := Bool.toNat_le _
      omega
    · rw [bitrev_agree c e i hag, hc, he]
      simp

/-- The search order is the order of the bit-reversed values. -/
theorem rom_lt_bitrev {c e : Nat} (h : rom_lt c e) : bitrev 64 c < bitrev 64 e :=
  bitrev_lt_of_first_diff c e 64 h

theorem stores_from_inj : ∀ (ids1 ids2 : List Nat) (k : Int),
    stores_from k ids1 = stores_from k ids2 → ids1 = ids2 := by
  intro ids1
  induction ids1 with
  | nil =>
    intro ids2 k h
    cases ids2 with
    | nil => rfl
    | cons c cs => simp [stores_from] at h
  | cons c cs ih =>
    intro ids2 k h
    cases ids2 with
    | nil => simp [stores_from] at h
    | cons d ds =>
      simp only [stores_from, List.cons.injEq, Prod.mk.injEq, true_and] at h
      rw [h.1, ih ds (k + 1) h.2]

/-- Two duplicate-free lists of the same length that are both initial segments
of the same set, in the same strict order, have the same elements. -/
theorem lower_set_mem (key : Nat → Nat) (S ids1 ids2 : List Nat)
    (hn2 : ids2.Nodup) (hlen : ids1.length ≤ ids2.length) (hs2 : ∀ x ∈ ids2, x ∈ S)
    (hl1 : ∀ x ∈ ids1, ∀ e ∈ S, e ∉ ids1 → key x < key e)
    (hl2 : ∀ x ∈ ids2, ∀ e ∈ S, e ∉ ids2 → key x < key e) (hs1 : ∀ x ∈ ids1, x ∈ S) :
    ∀ x ∈ ids1, x ∈ ids2 := by
  intro x hx
  by_contra hx2
  have hex : ∃ y ∈ ids2, y ∉ ids1 := by
    by_contra hno
    have hsub : ∀ y ∈ ids2, y ∈ ids1 := fun y hy => by
      by_contra hy1
      exact hno ⟨y, hy, hy1⟩
    have hperm := (List.subperm_of_subset hn2 hsub).perm_of_length_le hlen
    exact hx2 (hperm.symm.subset hx)
  obtain ⟨y, hy, hy1⟩ := hex
  have h1 := hl1 x hx y (hs2 y hy) hy1
  have h2 := hl2 y hy x (hs1 x hx) hx2
  omega

theorem lower_set_eq (key : Nat → Nat) (S ids1 ids2 : List Nat)
    (ho1 : ids1.Pairwise (fun a b => key a < key b))
    (ho2 : ids2.Pairwise (fun a b => key a < key b)) (hlen : ids1.length = ids2.length)
    (hs1 : ∀ x ∈ ids1, x ∈ S) (hs2 : ∀ x ∈ ids2, x ∈ S)
    (hl1 : ∀ x ∈ ids1, ∀ e ∈ S, e ∉ ids1 → key x < key e)
    (hl2 : ∀ x ∈ ids2, ∀ e ∈ S, e ∉ ids2 → key x < key e) : ids1 = ids2 := by
  have hn1 : ids1.Nodup := ho1.imp (fun h e => by rw [e] at h; omega)
  have hn2 : ids2.Nodup := ho2.imp (fun h e => by rw [e] at h; omega)
  have hperm : ids1.Perm ids2 := by
    rw [List.perm_ext_iff_of_nodup hn1 hn2]
    intro a
    exact ⟨lower_set_mem key S ids1 ids2 hn2 hlen.le hs2 hl1 hl2 hs1 a,
      lower_set_mem key S ids2 ids1 hn1 hlen.ge hs1 hl2 hl1 hs2 a⟩
  haveI : IsAntisymm Nat (fun a b => key a < key b) :=
    ⟨fun a b h1 h2 => absurd h1 (by omega)⟩
  exact List.eq_of_perm_of_sorted hperm ho1 ho2

/-- The loop of the scan on the simulated bus keeps the codes found so far in
strictly increasing order of their bit-reversed values, the last one being
the candidate. -/
theorem sim_loop_sorted (ow : onewire_instance_t) (has_list : Bool) (m : Int) (cmd : Nat)
    (S : List Nat) (hS : S ≠ []) (hS64 : ∀ d ∈ S, d < 2 ^ 64) (fuel : Nat) :
    ∀ (ids : List Nat) (l : Locals) (w : World Sim), ScanInv S has_list ids l w →
      ids.Pairwise (fun a b => bitrev 64 a < bitrev 64 b) →
      (∀ x ∈ ids, bitrev 64 x ≤ bitrev 64 l.device_id) →
      ∃ ids' l' w', (scan_loop sim_hw ow has_list m cmd fuel l w).2 = w' ∧
        ((scan_loop sim_hw ow has_list m cmd fuel l w).1 = some l' ∨
          (scan_loop sim_hw ow has_list m cmd fuel l w).1 = none) ∧
        ScanInv S has_list ids' l' w' ∧
        ids'.Pairwise (fun a b => bitrev 64 a < bitrev 64 b) ∧
        (∀ x ∈ ids', bitrev 64 x ≤ bitrev 64 l'.device_id) := by
  induction fuel with
  | zero =>
    intro ids l w hinv ho hle
    refine ⟨ids, l, w, ?_, ?_, hinv, ho, hle⟩
    · unfold scan_loop; split <;> rfl
    · unfold scan_loop; split
      · exact Or.inr rfl
      · exact Or.inl rfl
  | succ fuel ih =>
    intro ids l w hinv ho hle
    cases hc : loop_cond m l with
    | false =>
      refine ⟨ids, l, w, ?_, ?_, hinv, ho, hle⟩
      · unfold scan_loop; simp [hc]
      · unfold scan_loop; simp [hc]
    | true =>
      have hfin : l.finished = false := by
        simp only [loop_cond, Bool.and_eq_true, beq_iff_eq] at hc
        exact hc.1
      obtain ⟨h1, hinv', hlt, _⟩ := scan_inv_next ow has_list cmd S ids l w hS hS64 hinv hfin
      have hb := rom_lt_bitrev hlt
      have ho' : (ids ++ [(scan_pass sim_hw ow has_list cmd l w).2.1.device_id]).Pairwise
          (fun a b => bitrev 64 a < bitrev 64 b) := by
        rw [List.pairwise_append]
        refine ⟨ho, List.pairwise_singleton _ _, ?_⟩
        intro x hx y hy
        rw [List.mem_singleton.1 hy]
        exact lt_of_le_of_lt (hle x hx) hb
      have hle' : ∀ x ∈ ids ++ [(scan_pass sim_hw ow has_list cmd l w).2.1.device_id],
          bitrev 64 x ≤ bitrev 64 (scan_pass sim_hw ow has_list cmd l w).2.1.device_id := by
        intro x hx
        rcases List.mem_append.1 hx with hx | hx
        · exact le_of_lt (lt_of_le_of_lt (hle x hx) hb)
        · rw [List.mem_singleton.1 hx]
      obtain ⟨ids', l', w', hw, hrun, hinv2, ho2, hle2⟩ := ih _ _ _ hinv' ho' hle'
      refine ⟨ids', l', w', ?_, ?_, hinv2, ho2, hle2⟩
      · unfold scan_loop
        simp only [hc, if_true, h1]
        exact hw
      · unfold scan_loop
        simp only [hc, if_true, h1]
        exact hrun

/-- The codes stored by a scan of the simulated bus are in strictly increasing
order of their bit-reversed values and precede every device not stored. -/
theorem sim_scan_sorted (ow : onewire_instance_t) (has_list : Bool) (m : Int) (cmd : Nat)
    (S : List Nat) (hS : S ≠ []) (hS64 : ∀ d ∈ S, d < 2 ^ 64) (hm : 0 ≤ m) (f : Nat) :
    ∃ ids : List Nat,
      stores (onewire_bus_scan sim_hw ow has_list m cmd (f + 1) (sim_world S)).2.trace =
        (if has_list then stores_from 0 ids else []) ∧
      ids.Pairwise (fun a b => bitrev 64 a < bitrev 64 b) ∧
      (∀ x ∈ ids, ∀ e ∈ S, e ∉ ids → bitrev 64 x < bitrev 64 e) := by
  obtain ⟨h1, hinv1⟩ := scan_inv_first ow has_list (cmd % 256) S
    (driver_init sim_hw ow 1 (sim_world S)) hS hS64 rfl rfl rfl
  obtain ⟨ids, l', w', hw, hrun, hinv, ho, hle⟩ := sim_loop_sorted ow has_list m (cmd % 256) S hS
    hS64 f _ _ _ hinv1 (List.pairwise_singleton _ _)
    (fun x hx => by rw [List.mem_singleton.1 hx])
  have hloop : scan_loop sim_hw ow has_list m (cmd % 256) (f + 1) locals_init
      (driver_init sim_hw ow 1 (sim_world S)) =
      scan_loop sim_hw ow has_list m (cmd % 256) f
        (scan_pass sim_hw ow has_list (cmd % 256) locals_init
          (driver_init sim_hw ow 1 (sim_world S))).2.1
        (scan_pass sim_hw ow has_list (cmd % 256) locals_init
          (driver_init sim_hw ow 1 (sim_world S))).2.2 := by
    rw [scan_loop]
    simp only [loop_cond_init m hm, if_true, h1]
  refine ⟨ids, ?_, ho, ?_⟩
  · unfold onewire_bus_scan
    simp only []
    rw [hloop]
    generalize scan_loop sim_hw ow has_list m (cmd % 256) f
      (scan_pass sim_hw ow has_list (cmd % 256) locals_init
        (driver_init sim_hw ow 1 (sim_world S))).2.1
      (scan_pass sim_hw ow has_list (cmd % 256) locals_init
        (driver_init sim_hw ow 1 (sim_world S))).2.2 = r at hw hrun
    rcases hrun with hr | hr
    · rw [hr]
      show stores (r.2.trace ++ [Event.driver_init 8]) = _
      rw [(stores_driver_init _ _).1, hw, hinv.stores]
    · rw [hr]
      show stores r.2.trace = _
      rw [hw, hinv.stores]
  · intro x hx e he hne
    rcases hinv.cover e he with h | h
    · exact absurd h hne
    · exact lt_of_le_of_lt (hle x hx) (rom_lt_bitrev h)

/-- C19: the order of discovery. On the simulated bus with the distinct
devices `S`, the scan stores the codes in strictly increasing order of their
bit-reversed values (`bitrev 64`, in which bit `0` is the most significant
digit); the stored codes precede every device that is not stored, so with
`maxdevs = m < |S|` they are the `m` smallest; and the stored list is the same
for every call and every arrangement of the same devices. -/
theorem scan_discovery_order (ow : onewire_instance_t) (cmd : Nat) (S : List Nat) (hS : S ≠ [])
    (hnd : S.Nodup) (hS64 : ∀ d ∈ S, d < 2 ^ 64) (m : Int) (hm : 0 ≤ m) (fuel : Nat)
    (hfuel : S.length ≤ fuel) :
    ∃ ids : List Nat,
      stores (onewire_bus_scan sim_hw ow true m cmd fuel (sim_world S)).2.trace =
        stores_from 0 ids ∧
      (onewire_bus_scan sim_hw ow true m cmd fuel (sim_world S)).1 = some (ids.length : Int) ∧
      ((ids.length : Int) = if m = 0 then (S.length : Int) else min (S.length : Int) m) ∧
      (∀ x ∈ ids, x ∈ S) ∧
      ids.Pairwise (fun a b => bitrev 64 a < bitrev 64 b) ∧
      (∀ x ∈ ids, ∀ e ∈ S, e ∉ ids → bitrev 64 x < bitrev 64 e) ∧
      (∀ (ow2 : onewire_instance_t) (cmd2 : Nat) (S2 : List Nat) (fuel2 : Nat),
        S2.Perm S → S.length ≤ fuel2 →
        stores (onewire_bus_scan sim_hw ow2 true m cmd2 fuel2 (sim_world S2)).2.trace =
          stores_from 0 ids) := by
  have key : ∀ (ow : onewire_instance_t) (cmd : Nat) (T : List Nat) (fuel : Nat), T.Perm S →
      S.length ≤ fuel → ∃ ids : List Nat,
      stores (onewire_bus_scan sim_hw ow true m cmd fuel (sim_world T)).2.trace =
        stores_from 0 ids ∧
      (onewire_bus_scan sim_hw ow true m cmd fuel (sim_world T)).1 = some (ids.length : Int) ∧
      ((ids.length : Int) = if m = 0 then (S.length : Int) else min (S.length : Int) m) ∧
      (∀ x ∈ ids, x ∈ S) ∧
      ids.Pairwise (fun a b => bitrev 64 a < bitrev 64 b) ∧
      (∀ x ∈ ids, ∀ e ∈ S, e ∉ ids → bitrev 64 x < bitrev 64 e) := by
    intro ow cmd T fuel hperm hfuel
    have hT : T ≠ [] := fun h => hS (by rw [h] at hperm; exact List.nil_perm.1 hperm)
    have hT64 : ∀ d ∈ T, d < 2 ^ 64 := fun d hd => hS64 d (hperm.subset hd)
    have hpos : 0 < S.length := List.length_pos.2 hS
    obtain ⟨f, rfl⟩ : ∃ f, fuel = f + 1 := ⟨fuel - 1, by omega⟩
    obtain ⟨idsA, hret, _, hsub, hlen, _, hst, _⟩ :=
      sim_scan ow true m cmd T hT (hperm.nodup_iff.2 hnd) hT64 hm (f + 1)
        (by rw [hperm.length_eq]; exact hfuel)
    obtain ⟨ids, hst2, ho, hlow⟩ := sim_scan_sorted ow true m cmd T hT hT64 hm f
    rw [if_pos rfl] at hst hst2
    have he : idsA = ids := stores_from_inj _ _ 0 (hst.symm.trans hst2)
    rw [he] at hret hsub hlen
    rw [hperm.length_eq] at hlen
    exact ⟨ids, hst2, hret, hlen, fun x hx => hperm.subset (hsub x hx), ho,
      fun x hx e he hne => hlow x hx e (hperm.symm.subset he) hne⟩
  obtain ⟨ids, hst, hret, hlen, hsub, ho, hlow⟩ := key ow cmd S fuel (List.Perm.refl S) hfuel
  refine ⟨ids, hst, hret, hlen, hsub, ho, hlow, ?_⟩
  intro ow2 cmd2 S2 fuel2 hperm hfuel2
  obtain ⟨ids2, hst2, _, hlen2, hsub2, ho2, hlow2⟩ := key ow2 cmd2 S2 fuel2 hperm hfuel2
  have hl : ids2.length = ids.length := by
    have := hlen2.trans hlen.symm
    exact_mod_cast this
  rw [hst2, lower_set_eq (bitrev 64) S ids2 ids ho2 ho hl hsub2 hsub hlow2 hlow]

set_option maxRecDepth 100000 in
/-- Three devices `6, 1, 4` and `maxdevs = 2`: the scan stores `4` (reversed
`2^61`) and then `6` (reversed `2^61 + 2^62`), not `1` (reversed `2^63`). -/
theorem scan_discovery_order_witness :
    (([6, 1, 4] : List Nat) ≠ [] ∧ ([6, 1, 4] : List Nat).Nodup ∧
      (∀ d ∈ ([6, 1, 4] : List Nat), d < 2 ^ 64) ∧ (0 : Int) ≤ 2 ∧
      ([6, 1, 4] : List Nat).length ≤ 3) ∧
    stores (onewire_bus_scan sim_hw ow0 true 2 0xF0 3 (sim_world [6, 1, 4])).2.trace =
      stores_from 0 [4, 6] ∧
    ∃ ids : List Nat,
      stores (onewire_bus_scan sim_hw ow0 true 2 0xF0 3 (sim_world [6, 1, 4])).2.trace =
        stores_from 0 ids ∧
      (onewire_bus_scan sim_hw ow0 true 2 0xF0 3 (sim_world [6, 1, 4])).1 =
        some (ids.length : Int) ∧
      ((ids.length : Int) = if (2 : Int) = 0 then (([6, 1, 4] : List Nat).length : Int)
        else min (([6, 1, 4] : List Nat).length : Int) 2) ∧
      (∀ x ∈ ids, x ∈ ([6, 1, 4] : List Nat)) ∧
      ids.Pairwise (fun a b => bitrev 64 a < bitrev 64 b) ∧
      (∀ x ∈ ids, ∀ e ∈ ([6, 1, 4] : List Nat), e ∉ ids → bitrev 64 x < bitrev 64 e) ∧
      (∀ (ow2 : onewire_instance_t) (cmd2 : Nat) (S2 : List Nat) (fuel2 : Nat),
        S2.Perm [6, 1, 4] → ([6, 1, 4] : List Nat).length ≤ fuel2 →
        stores (onewire_bus_scan sim_hw ow2 true 2 cmd2 fuel2 (sim_world S2)).2.trace =
          stores_from 0 ids) :=
  ⟨⟨by decide, by decide, by decide, by decide, by decide⟩, by rfl,
    scan_discovery_order ow0 0xF0 [6, 1, 4] (by decide) (by decide) (by decide) 2 (by decide) 3
      (by decide)⟩

/-! ## Theorems: a bus with a single device -/

theorem world_ext {σ : Type} {w1 w2 : World σ} (h1 : w1.hw = w2.hw) (h2 : w1.trace = w2.trace) :
    w1 = w2 := by
  cases w1; cases w2; simp only [World.mk.injEq]; exact ⟨h1, h2⟩

theorem wired_and_single (R : Nat) (f : Nat → Bool) : wired_and [R] f = (f R).toNat := by
  unfold wired_and
  cases h : f R <;> simp [h]

/-- One address-bit step on a bus with the single device `R`: the reads are
the bit of `R` and its complement, the bit is sent back and written to the
candidate; nothing else changes. -/
theorem single_step (ow : onewire_instance_t) (R i rx : Nat) (l : Locals) (w : World Sim)
    (hw : w.hw = single_bus R i rx) :
    address_step sim_hw ow i l w =
      (true, { l with device_id := with_bit l.device_id i (R.testBit i) },
        { hw := single_bus R (i + 1) 0,
          trace := w.trace ++ [Event.read (R.testBit i).toNat, Event.read (!R.testBit i).toNat,
            Event.send (R.testBit i).toNat] }) := by
  have ha := sim_read_first ow w [R] [R] i rx hw
  have hb := sim_read_second ow (onewire_read sim_hw ow w).2 [R] [R] i _ ha.2
  rw [wired_and_single] at ha hb
  have hta := onewire_read_trace sim_hw ow w
  have htb := onewire_read_trace sim_hw ow (onewire_read sim_hw ow w).2
  rw [ha.1] at hta
  rw [hb.1, hta] at htb
  have hs1 := sim_send_one ow _ [R] [R] i _ hb.2
  have hs0 := sim_send_zero ow _ [R] [R] i _ hb.2
  unfold address_step
  simp only [ha.1, hb.1]
  cases hbit : R.testBit i
  · simp only [Bool.toNat_false, Bool.not_false, Bool.toNat_true, one_ne_zero, and_false,
      if_false, ne_eq, not_true_eq_false, false_and, if_true, with_bit, Bool.false_eq_true,
      Prod.mk.injEq, true_and]
    refine world_ext ?_ ?_
    · rw [hs0]; simp [single_bus, hbit]
    · rw [onewire_send_trace, htb]; simp [hbit]
  · simp only [Bool.toNat_false, Bool.not_true, Bool.toNat_true, one_ne_zero, false_and,
      if_false, ne_eq, not_true_eq_false, and_false, with_bit, if_true,
      Prod.mk.injEq, true_and]
    refine world_ext ?_ ?_
    · rw [hs1]; simp [single_bus, hbit]
    · rw [onewire_send_trace, htb]; simp [hbit]

theorem with_bit_spec (c i : Nat) (b : Bool) (hc : c < 2 ^ 64) (hi : i < 64) :
    with_bit c i b < 2 ^ 64 ∧
    ∀ j, (with_bit c i b).testBit j = if j = i then b else c.testBit j := by
  cases b
  · exact ⟨clear_lt c _ hc, fun j => by simp only [with_bit]; exact testBit_clear c i j hc⟩
  · exact ⟨set_lt c i hc hi, fun j => by simp only [with_bit]; exact testBit_set c i j⟩

/-- The address loop on a bus with the single device `R` copies the bits of
`R` into the candidate and changes no other local variable. -/
theorem single_loop (ow : onewire_instance_t) (R : Nat) (n : Nat) :
    ∀ (i rx : Nat) (l : Locals) (w : World Sim), i + n ≤ 64 → l.device_id < 2 ^ 64 →
      w.hw = single_bus R i rx →
      ∃ c rx2, address_loop sim_hw ow n i l w =
          ({ l with device_id := c },
            { hw := single_bus R (i + n) rx2, trace := w.trace ++ single_events R n i }) ∧
        c < 2 ^ 64 ∧
        ∀ j, c.testBit j = if i ≤ j ∧ j < i + n then R.testBit j else l.device_id.testBit j := by
  induction n with
  | zero =>
    intro i rx l w _ hc hw
    refine ⟨l.device_id, rx, ?_, hc, fun j => by rw [if_neg (by omega)]⟩
    simp only [address_loop, single_events, List.append_nil, Nat.add_zero, Prod.mk.injEq,
      true_and]
    exact world_ext hw rfl
  | succ n ih =>
    intro i rx l w hin hc hw
    have hstep := single_step ow R i rx l w hw
    obtain ⟨hlt, hbits⟩ := with_bit_spec l.device_id i (R.testBit i) hc (by omega)
    obtain ⟨c, rx2, hloop, hc2, hbits2⟩ := ih (i + 1) 0
      { l with device_id := with_bit l.device_id i (R.testBit i) }
      { hw := single_bus R (i + 1) 0,
        trace := w.trace ++ [Event.read (R.testBit i).toNat, Event.read (!R.testBit i).toNat,
          Event.send (R.testBit i).toNat] } (by omega) hlt rfl
    refine ⟨c, rx2, ?_, hc2, ?_⟩
    · rw [address_loop, hstep]
      simp only [if_true]
      rw [hloop]
      simp only [single_events, List.append_assoc, List.cons_append, List.nil_append,
        Prod.mk.injEq, true_and]
      refine world_ext ?_ rfl
      show single_bus R (i + 1 + n) rx2 = single_bus R (i + (n + 1)) rx2
      rw [Nat.add_right_comm, Nat.add_assoc]
    · intro j
      rw [hbits2 j]
      simp only []
      rw [hbits j]
      by_cases h1 : j = i
      · subst h1
        simp
      · by_cases h2 : i + 1 ≤ j ∧ j < i + 1 + n
        · rw [if_pos h2, if_pos (by omega)]
        · rw [if_neg h2, if_neg h1, if_neg (by omega)]

theorem chain_no_read (t : List Event) (h : ∀ e ∈ t, ∀ v, e ≠ Event.read v) :
    List.Chain' reads_differ t := by
  induction t with
  | nil => exact List.chain'_nil
  | cons x t ih =>
    rw [List.chain'_cons']
    exact ⟨fun y _ a b hx _ => absurd hx (h x (List.mem_cons_self _ _) a),
      ih (fun e he => h e (List.mem_cons_of_mem _ he))⟩

theorem chain_single_events (R : Nat) : ∀ n i : Nat,
    List.Chain' reads_differ (single_events R n i) := by
  intro n
  induction n with
  | zero => intro i; exact List.chain'_nil
  | succ n ih =>
    intro i
    simp only [single_events]
    refine List.Chain'.cons ?_ (List.Chain'.cons ?_ ?_)
    · intro a b ha hb
      cases ha; cases hb
      cases R.testBit i <;> rfl
    · intro a b _ hb; cases hb
    · rw [List.chain'_cons']
      exact ⟨fun y _ a b ha _ => (by cases ha), ih (i + 1)⟩

theorem single_events_mem (R : Nat) : ∀ (n i : Nat) (e : Event), e ∈ single_events R n i →
    (∃ v, e = Event.read v) ∨ ∃ v, e = Event.send v := by
  intro n
  induction n with
  | zero => intro i e he; cases he
  | succ n ih =>
    intro i e he
    simp only [single_events, List.mem_cons] at he
    rcases he with h | h | h | h
    · exact Or.inl ⟨_, h⟩
    · exact Or.inl ⟨_, h⟩
    · exact Or.inr ⟨_, h⟩
    · exact ih (i + 1) e h

/-- In a trace made of events that are not reads, then single-device steps,
then again events that are not reads, two consecutive reads differ. -/
theorem chain_single_trace (R n i : Nat) (A C : List Event)
    (hA : ∀ e ∈ A, ∀ v, e ≠ Event.read v) (hC : ∀ e ∈ C, ∀ v, e ≠ Event.read v)
    (pre post : List Event) (a b : Nat)
    (h : A ++ (single_events R n i ++ C) = pre ++ Event.read a :: Event.read b :: post) :
    a + b = 1 := by
  have hchain : List.Chain' reads_differ (A ++ (single_events R n i ++ C)) := by
    rw [List.chain'_append]
    refine ⟨chain_no_read A hA, ?_, ?_⟩
    · rw [List.chain'_append]
      refine ⟨chain_single_events R n i, chain_no_read C hC, ?_⟩
      intro x _ y hy c d _ hd
      exact absurd hd (hC y (List.mem_of_mem_head? hy) d)
    · intro x hx y _ c d hc _
      exact absurd hc (hA x (List.mem_of_mem_getLast? hx) c)
  rw [h] at hchain
  have h2 := (List.chain'_append.1 hchain).2.1
  exact (List.chain'_cons.1 h2).1 a b rfl rfl

/-- The first pass on a bus with the single device `R` finds `R`, with the
branch points still at `-1`. -/
theorem single_pass (ow : onewire_instance_t) (has_list : Bool) (cmd R : Nat) (hR : R < 2 ^ 64)
    (w : World Sim) (hdev : w.hw.devices = [R]) :
    ∃ rx, scan_pass sim_hw ow has_list cmd locals_init w =
      (true,
        { device_id := R, branch_point := -1, next_branch_point := -1, num_found := 1,
          finished := true },
        { hw := single_bus R 64 rx,
          trace := w.trace ++ Event.reset true :: (command_events cmd 8 0 ++
            (single_events R 64 0 ++ (if has_list then [Event.store 0 R] else []))) }) := by
  obtain ⟨hp, hhw⟩ := sim_reset_present ow w
  rw [hdev] at hhw
  have hsc := sim_send_command ow cmd (onewire_reset sim_hw ow w).2 [R] hhw
  have htr : (send_command sim_hw ow cmd 8 0 (onewire_reset sim_hw ow w).2).trace =
      w.trace ++ Event.reset true :: command_events cmd 8 0 := by
    rw [send_command_trace, onewire_reset_trace, hp]; simp
  obtain ⟨c, rx2, hloop, hc, hbits⟩ := single_loop ow R 64 0 0
    { locals_init with finished := true, branch_point := locals_init.next_branch_point }
    (send_command sim_hw ow cmd 8 0 (onewire_reset sim_hw ow w).2) (by omega)
    (by simp [locals_init]) hsc
  have hcR : c = R := by
    apply Nat.eq_of_testBit_eq
    intro j
    rw [hbits j]
    by_cases hj : j < 64
    · rw [if_pos ⟨by omega, by omega⟩]
    · rw [if_neg (by omega)]
      have : R.testBit j = false :=
        Nat.testBit_lt_two_pow (lt_of_lt_of_le hR (Nat.pow_le_pow_right (by norm_num) (by omega)))
      rw [this]
      simp [locals_init]
  rw [hcR, htr] at hloop
  refine ⟨rx2, ?_⟩
  unfold scan_pass
  simp only [hp, Bool.true_eq_false, if_false]
  rw [hloop]
  cases has_list <;> simp [locals_init]

/-- C18: a bus with a single device. For every 64-bit code `R`, the scan of the
simulated bus holding only `R`, with `maxdevs = 0` or `maxdevs ≥ 1`, makes
exactly one pass: one reset, the command, and 64 address-bit steps that read
the bit of `R` and its complement, never `(0,0)`. The branch point and the next
branch point are `-1` after every step of the pass, the scan returns `1`, and
`R` is stored at index `0`. -/
theorem scan_single_device (ow : onewire_instance_t) (has_list : Bool) (cmd R : Nat)
    (hR : R < 2 ^ 64) (m : Int) (hm : 0 ≤ m) (f : Nat) :
    (onewire_bus_scan sim_hw ow has_list m cmd (f + 1) (sim_world [R])).1 = some 1 ∧
    (onewire_bus_scan sim_hw ow has_list m cmd (f + 1) (sim_world [R])).2.trace =
      [Event.driver_init 1, Event.reset true] ++ command_events (cmd % 256) 8 0 ++
        (single_events R 64 0 ++
          ((if has_list then [Event.store 0 R] else []) ++ [Event.driver_init 8])) ∧
    (∀ pre post a b,
      (onewire_bus_scan sim_hw ow has_list m cmd (f + 1) (sim_world [R])).2.trace =
        pre ++ Event.read a :: Event.read b :: post → a + b = 1) ∧
    (∀ k ≤ 64,
      (address_loop sim_hw ow k 0
        { locals_init with finished := true, branch_point := locals_init.next_branch_point }
        (send_command sim_hw ow (cmd % 256) 8 0
          (onewire_reset sim_hw ow (driver_init sim_hw ow 1 (sim_world [R]))).2)).1.branch_point
        = -1 ∧
      (address_loop sim_hw ow k 0
        { locals_init with finished := true, branch_point := locals_init.next_branch_point }
        (send_command sim_hw ow (cmd % 256) 8 0
          (onewire_reset sim_hw ow
            (driver_init sim_hw ow 1 (sim_world [R]))).2)).1.next_branch_point = -1) ∧
    (scan_pass sim_hw ow has_list (cmd % 256) locals_init
        (driver_init sim_hw ow 1 (sim_world [R]))).2.1 =
      { device_id := R, branch_point := -1, next_branch_point := -1, num_found := 1,
        finished := true } := by
  obtain ⟨rx, hpass⟩ := single_pass ow has_list (cmd % 256) R hR
    (driver_init sim_hw ow 1 (sim_world [R])) rfl
  have hscan : onewire_bus_scan sim_hw ow has_list m cmd (f + 1) (sim_world [R]) =
      (some 1, driver_init sim_hw ow 8
        (scan_pass sim_hw ow has_list (cmd % 256) locals_init
          (driver_init sim_hw ow 1 (sim_world [R]))).2.2) := by
    unfold onewire_bus_scan
    simp only []
    rw [scan_loop]
    simp only [loop_cond_init m hm, if_true]
    rw [hpass]
    simp only [if_true]
    have hlc : loop_cond m
        { device_id := R, branch_point := -1, next_branch_point := -1, num_found := 1,
          finished := true } = false := loop_cond_finished m _ rfl
    rw [scan_loop.eq_def]
    simp [hlc]
  have htrace : (onewire_bus_scan sim_hw ow has_list m cmd (f + 1) (sim_world [R])).2.trace =
      [Event.driver_init 1, Event.reset true] ++ command_events (cmd % 256) 8 0 ++
        (single_events R 64 0 ++
          ((if has_list then [Event.store 0 R] else []) ++ [Event.driver_init 8])) := by
    rw [hscan, hpass]
    simp [driver_init, sim_world]
  refine ⟨by rw [hscan], htrace, ?_, ?_, by rw [hpass]⟩
  · intro pre post a b h
    rw [htrace] at h
    refine chain_single_trace R 64 0 _ _ ?_ ?_ pre post a b h
    · intro e he v
      simp only [List.cons_append, List.nil_append, List.mem_cons] at he
      rcases he with h1 | h1 | h1
      · rw [h1]; simp
      · rw [h1]; simp
      · obtain ⟨d, hd⟩ := command_events_mem _ _ _ _ h1
        rw [hd]; simp
    · intro e he v
      cases has_list <;> simp at he
      · rw [he]; simp
      · rcases he with h1 | h1 <;> rw [h1] <;> simp
  · intro k hk
    have hhw := (sim_reset_present ow (driver_init sim_hw ow 1 (sim_world [R]))).2
    have hsc := sim_send_command ow (cmd % 256)
      (onewire_reset sim_hw ow (driver_init sim_hw ow 1 (sim_world [R]))).2 [R] hhw
    obtain ⟨c, rx2, hloop, _, _⟩ := single_loop ow R k 0 0
      { locals_init with finished := true, branch_point := locals_init.next_branch_point }
      (send_command sim_hw ow (cmd % 256) 8 0
        (onewire_reset sim_hw ow (driver_init sim_hw ow 1 (sim_world [R]))).2) (by omega)
      (by simp [locals_init]) hsc
    rw [hloop]
    exact ⟨rfl, rfl⟩

set_option maxRecDepth 100000 in
/-- The device `0x0100000000000000` alone on the bus is found in one pass. -/
theorem scan_single_device_witness :
    ((0x0100000000000000 : Nat) < 2 ^ 64 ∧ (0 : Int) ≤ 0) ∧
    stores (onewire_bus_scan sim_hw ow0 true 0 0xF0 (0 + 1)
      (sim_world [0x0100000000000000])).2.trace = [(0, 0x0100000000000000)] ∧
    resets (onewire_bus_scan sim_hw ow0 true 0 0xF0 (0 + 1)
      (sim_world [0x0100000000000000])).2.trace = 1 ∧
    (onewire_bus_scan sim_hw ow0 true 0 0xF0 (0 + 1) (sim_world [0x0100000000000000])).1 =
      some 1 ∧
    (onewire_bus_scan sim_hw ow0 true 0 0xF0 (0 + 1)
        (sim_world [0x0100000000000000])).2.trace =
      [Event.driver_init 1, Event.reset true] ++ command_events (0xF0 % 256) 8 0 ++
        (single_events 0x0100000000000000 64 0 ++
          ((if true then [Event.store 0 0x0100000000000000] else []) ++
            [Event.driver_init 8])) :=
  ⟨⟨by norm_num, by decide⟩, by rfl, by rfl,
    (scan_single_device ow0 true 0xF0 0x0100000000000000 (by norm_num) 0 (by decide) 0).1,
    (scan_single_device ow0 true 0xF0 0x0100000000000000 (by norm_num) 0 (by decide) 0).2.1⟩

/-! ## Theorems: termination of the search -/

theorem adv_word_byte (s : Bool × Nat) : ((adv_word s % 2 ^ 32) >>> 24) % 256 =
    if 9 ≤ s.2 ∧ (s.2 - 9) % 3 = 1 ∧ (s.2 - 9) / 3 ≠ (if s.1 then 3 else 5) then 1 else 0 := by
  unfold adv_word
  by_cases h : 9 ≤ s.2 ∧ (s.2 - 9) % 3 = 1 ∧ (s.2 - 9) / 3 ≠ (if s.1 then 3 else 5)
  · rw [if_pos h, if_pos h]; rfl
  · rw [if_neg h, if_neg h]; rfl

theorem adv_read (ow : onewire_instance_t) (w : World (Bool × Nat)) :
    (onewire_read adv_hw ow w).1 =
      (if 9 ≤ w.hw.2 ∧ (w.hw.2 - 9) % 3 = 1 ∧ (w.hw.2 - 9) / 3 ≠ (if w.hw.1 then 3 else 5)
          then 1 else 0) ∧
    (onewire_read adv_hw ow w).2.hw = (w.hw.1, w.hw.2 + 1) :=
  ⟨adv_word_byte w.hw, rfl⟩

theorem adv_send (ow : onewire_instance_t) (d : Nat) (w : World (Bool × Nat)) :
    (onewire_send adv_hw ow d w).hw = (w.hw.1, w.hw.2 + 1) := rfl

theorem adv_reset (ow : onewire_instance_t) (w : World (Bool × Nat)) :
    (onewire_reset adv_hw ow w).1 = true ∧ (onewire_reset adv_hw ow w).2.hw = (!w.hw.1, 1) := by
  have h0 : adv_word (!w.hw.1, 0) = 0 := by
    unfold adv_word
    rw [if_neg (by simp)]
  have h1 : ((0 : Nat) % 2 ^ 32) &&& 1 = 0 := rfl
  refine ⟨?_, rfl⟩
  show (if ((adv_word (!w.hw.1, 0) % 2 ^ 32) &&& 1) = 0 then true else false) = true
  rw [h0, h1, if_pos rfl]

theorem adv_send_command (ow : onewire_instance_t) (cmd : Nat) (n : Nat) :
    ∀ (i : Nat) (w : World (Bool × Nat)),
      (send_command adv_hw ow cmd n i w).hw = (w.hw.1, w.hw.2 + n) := by
  induction n with
  | zero => intro i w; rfl
  | succ n ih =>
    intro i w
    rw [send_command, ih, adv_send]
    simp only [Prod.mk.injEq, true_and]
    omega

/-- One address-bit step on the hardware `adv_hw`, for a candidate `0` and a
branch point other than the bit that reads `(0,0)` in this pass. -/
theorem adv_step (ow : onewire_instance_t) (i : Nat) (l : Locals) (w : World (Bool × Nat))
    (p : Bool) (hhw : w.hw = (p, 9 + 3 * i)) (hd : l.device_id = 0)
    (hbp : l.branch_point ≠ ((if p then 3 else 5 : Nat) : Int)) :
    (address_step adv_hw ow i l w).1 = true ∧
    (address_step adv_hw ow i l w).2.2.hw = (p, 9 + 3 * (i + 1)) ∧
    (address_step adv_hw ow i l w).2.1.device_id = 0 ∧
    (address_step adv_hw ow i l w).2.1.branch_point = l.branch_point ∧
    (address_step adv_hw ow i l w).2.1.num_found = l.num_found ∧
    (i = (if p then 3 else 5) → (address_step adv_hw ow i l w).2.1.finished = false ∧
      (address_step adv_hw ow i l w).2.1.next_branch_point = i) ∧
    (i ≠ (if p then 3 else 5) → (address_step adv_hw ow i l w).2.1.finished = l.finished ∧
      (address_step adv_hw ow i l w).2.1.next_branch_point = l.next_branch_point) := by
  have ha := adv_read ow w
  have hb := adv_read ow (onewire_read adv_hw ow w).2
  rw [ha.2] at hb
  rw [hhw] at ha hb
  simp only [] at ha hb
  rw [if_neg (by omega)] at ha
  have hs : ∀ d, (onewire_send adv_hw ow d (onewire_read adv_hw ow (onewire_read adv_hw ow w).2).2).hw
      = (p, 9 + 3 * (i + 1)) := by
    intro d
    rw [adv_send, hb.2]
    simp only [Prod.mk.injEq, true_and]
    omega
  have hcond : (9 ≤ 9 + 3 * i + 1 ∧ (9 + 3 * i + 1 - 9) % 3 = 1 ∧
      (9 + 3 * i + 1 - 9) / 3 ≠ (if p then 3 else 5)) ↔ i ≠ (if p then 3 else 5) := by
    have e : (9 + 3 * i + 1 - 9) / 3 = i := by omega
    rw [e]
    constructor
    · exact fun h => h.2.2
    · exact fun h => ⟨by omega, by omega, h⟩
  by_cases hi : i = (if p then 3 else 5)
  · have hb0 : (onewire_read adv_hw ow (onewire_read adv_hw ow w).2).1 = 0 := by
      rw [hb.1, if_neg (fun h => hcond.1 h hi)]
    have hne : ¬((i : Int) = l.branch_point) := by
      intro h; apply hbp; rw [← h, hi]
    unfold address_step
    simp only [ha.1, hb0, and_self, if_true, hne, if_false, hd, Nat.zero_and, or_true]
    exact ⟨trivial, hs 0, trivial, trivial, trivial, fun _ => trivial, fun h => absurd hi h⟩
  · have hb1 : (onewire_read adv_hw ow (onewire_read adv_hw ow w).2).1 = 1 := by
      rw [hb.1, if_pos (hcond.2 hi)]
    unfold address_step
    simp only [ha.1, hb1, one_ne_zero, and_false, if_false, ne_eq, not_true_eq_false, false_and,
      if_true, hd, Nat.zero_and]
    exact ⟨trivial, hs 0, trivial, trivial, trivial, fun h => absurd h hi,
      fun _ => ⟨trivial, trivial⟩⟩

/-- The address loop on the hardware `adv_hw`: the pass ends unfinished, with
the bit that read `(0,0)` as the next branch point. -/
theorem adv_loop (ow : onewire_instance_t) (p : Bool) (n : Nat) :
    ∀ (i : Nat) (l : Locals) (w : World (Bool × Nat)), w.hw = (p, 9 + 3 * i) →
      l.device_id = 0 → l.branch_point ≠ ((if p then 3 else 5 : Nat) : Int) →
      (address_loop adv_hw ow n i l w).2.hw = (p, 9 + 3 * (i + n)) ∧
      (address_loop adv_hw ow n i l w).1.device_id = 0 ∧
      (address_loop adv_hw ow n i l w).1.num_found = l.num_found ∧
      ((i ≤ (if p then 3 else 5) ∧ (if p then 3 else 5) < i + n) →
        (address_loop adv_hw ow n i l w).1.finished = false ∧
        (address_loop adv_hw ow n i l w).1.next_branch_point =
          ((if p then 3 else 5 : Nat) : Int)) ∧
      (¬(i ≤ (if p then 3 else 5) ∧ (if p then 3 else 5) < i + n) →
        (address_loop adv_hw ow n i l w).1.finished = l.finished ∧
        (address_loop adv_hw ow n i l w).1.next_branch_point = l.next_branch_point) := by
  induction n with
  | zero =>
    intro i l w hhw hd _
    exact ⟨hhw, hd, rfl, fun h => by omega, fun _ => ⟨rfl, rfl⟩⟩
  | succ n ih =>
    intro i l w hhw hd hbp
    obtain ⟨h1, h2, h3, h4, h5, h6, h7⟩ := adv_step ow i l w p hhw hd hbp
    obtain ⟨k1, k2, k3, k4, k5⟩ := ih (i + 1) _ _ h2 h3 (by rw [h4]; exact hbp)
    rw [address_loop]
    simp only [h1, if_true]
    refine ⟨by rw [k1, Nat.add_assoc, Nat.add_comm 1 n], k2, by rw [k3, h5], ?_, ?_⟩
    · intro hc
      by_cases hi : i = (if p then 3 else 5)
      · obtain ⟨e1, e2⟩ := k5 (by omega)
        obtain ⟨f1, f2⟩ := h6 hi
        exact ⟨by rw [e1, f1], by rw [e2, f2, hi]⟩
      · exact k4 ⟨by omega, by omega⟩
    · intro hc
      have hi : i ≠ (if p then 3 else 5) := by omega
      obtain ⟨e1, e2⟩ := k5 (by omega)
      obtain ⟨f1, f2⟩ := h7 hi
      exact ⟨by rw [e1, f1], by rw [e2, f2]⟩

/-- One pass on the hardware `adv_hw`, from a candidate `0` and a next branch
point other than the bit that reads `(0,0)` in this pass: the pass completes
and leaves the scan unfinished, in the same situation one pass later. -/
theorem adv_pass (ow : onewire_instance_t) (has_list : Bool) (cmd : Nat) (l : Locals)
    (w : World (Bool × Nat)) (hd : l.device_id = 0) (hnf : 0 ≤ l.num_found)
    (hnb : l.next_branch_point ≠ ((if !w.hw.1 then 3 else 5 : Nat) : Int)) :
    (scan_pass adv_hw ow has_list cmd l w).1 = true ∧
    (scan_pass adv_hw ow has_list cmd l w).2.1.device_id = 0 ∧
    0 ≤ (scan_pass adv_hw ow has_list cmd l w).2.1.num_found ∧
    (scan_pass adv_hw ow has_list cmd l w).2.1.finished = false ∧
    (scan_pass adv_hw ow has_list cmd l w).2.1.next_branch_point ≠
      ((if !(scan_pass adv_hw ow has_list cmd l w).2.2.hw.1 then 3 else 5 : Nat) : Int) ∧
    resets (scan_pass adv_hw ow has_list cmd l w).2.2.trace = resets w.trace + 1 ∧
    (Event.reset false ∉ w.trace →
      Event.reset false ∉ (scan_pass adv_hw ow has_list cmd l w).2.2.trace) := by
  obtain ⟨hp, hhw⟩ := adv_reset ow w
  have hsc := adv_send_command ow cmd 8 0 (onewire_reset adv_hw ow w).2
  rw [hhw] at hsc
  obtain ⟨k1, k2, k3, k4, _⟩ := adv_loop ow (!w.hw.1) 64 0
    { l with finished := true, branch_point := l.next_branch_point }
    (send_command adv_hw ow cmd 8 0 (onewire_reset adv_hw ow w).2) hsc hd hnb
  obtain ⟨hloc, hw2⟩ := scan_pass_locals adv_hw ow has_list cmd l w hp
  have hc : (0 ≤ (if !w.hw.1 then 3 else 5) ∧ (if !w.hw.1 then 3 else 5) < 0 + 64) := by
    cases w.hw.1 <;> simp
  obtain ⟨hfin, hnext⟩ := k4 hc
  have hnum : (scan_pass adv_hw ow has_list cmd l w).2.1.num_found = l.num_found + 1 := by
    rw [hloc]; simp only []; rw [k3]
  have hsr := scan_pass_stores adv_hw ow has_list cmd l w hp (by rw [hnum]; omega)
  refine ⟨by rw [scan_pass_fst]; exact hp, by rw [hloc]; exact k2, by rw [hnum]; omega,
    by rw [hloc]; exact hfin, ?_, hsr.2, ?_⟩
  · rw [hloc, hw2, k1]
    simp only []
    rw [hnext]
    cases w.hw.1 <;> simp
  · intro hno
    obtain ⟨_, k, evs, ok, st, hrun, htr, hst0, hst1, _⟩ :=
      scan_pass_present adv_hw ow has_list cmd l w hp
    rw [htr]
    simp only [List.mem_append, List.mem_cons, not_or]
    refine ⟨hno, by simp, ?_, ?_, ?_⟩
    · intro hm; obtain ⟨v, hv⟩ := command_events_mem cmd 8 0 _ hm; cases hv
    · intro hm; rcases hrun.events_mem _ hm with ⟨v, hv⟩ | ⟨v, hv⟩ <;> cases hv
    · intro hm
      cases has_list with
      | false => rw [hst0 rfl] at hm; cases hm
      | true => rw [hst1 rfl] at hm; simp at hm

/-- On the hardware `adv_hw` the `while` loop with `maxdevs = 0` never ends. -/
theorem adv_scan_loop (ow : onewire_instance_t) (has_list : Bool) (cmd : Nat) (fuel : Nat) :
    ∀ (l : Locals) (w : World (Bool × Nat)), l.device_id = 0 → 0 ≤ l.num_found →
      l.finished = false →
      l.next_branch_point ≠ ((if !w.hw.1 then 3 else 5 : Nat) : Int) →
      (scan_loop adv_hw ow has_list 0 cmd fuel l w).1 = none ∧
      resets (scan_loop adv_hw ow has_list 0 cmd fuel l w).2.trace = resets w.trace + fuel ∧
      (Event.reset false ∉ w.trace →
        Event.reset false ∉ (scan_loop adv_hw ow has_list 0 cmd fuel l w).2.trace) := by
  induction fuel with
  | zero =>
    intro l w _ _ hfin _
    have hc : loop_cond 0 l = true := by simp [loop_cond, hfin]
    have e : scan_loop adv_hw ow has_list 0 cmd 0 l w = (none, w) := by
      rw [scan_loop]
      simp only [hc, if_true]
    rw [e]
    exact ⟨rfl, rfl, fun h => h⟩
  | succ fuel ih =>
    intro l w hd hnf hfin hnb
    have hc : loop_cond 0 l = true := by simp [loop_cond, hfin]
    obtain ⟨h1, h2, h3, h4, h5, h6, h7⟩ := adv_pass ow has_list cmd l w hd hnf hnb
    obtain ⟨k1, k2, k3⟩ := ih _ _ h2 h3 h4 h5
    rw [scan_loop]
    simp only [hc, if_true, h1]
    exact ⟨k1, by rw [k2, h6]; omega, fun h => k3 (h7 h)⟩

/-- On the hardware `adv_hw` every reset reports presence, yet the scan with
`maxdevs = 0` never returns: after any number `fuel` of passes the loop is
still running, having made `fuel` resets. -/
theorem adv_scan_never_returns (fuel : Nat) :
    (onewire_bus_scan adv_hw ow0 true 0 0xF0 fuel { hw := (false, 0), trace := [] }).1 = none ∧
    resets (onewire_bus_scan adv_hw ow0 true 0 0xF0 fuel
      { hw := (false, 0), trace := [] }).2.trace = fuel ∧
    Event.reset false ∉
      (onewire_bus_scan adv_hw ow0 true 0 0xF0 fuel { hw := (false, 0), trace := [] }).2.trace := by
  obtain ⟨h1, h2, h3⟩ := adv_scan_loop ow0 true (0xF0 % 256) fuel locals_init
    (driver_init adv_hw ow0 1 { hw := (false, 0), trace := [] }) rfl (le_refl _) rfl (by decide)
  unfold onewire_bus_scan
  simp only [h1]
  exact ⟨trivial, by rw [h2]; simp [driver_init, resets], h3 (by simp [driver_init])⟩

/-- C12 fails for arbitrary bus responses. On the hardware `adv_hw` every
reset reports presence, yet after `2^64 + 1` passes the scan with
`maxdevs = 0` is still running. The responses alternate between a collision at
bit `5` only and a collision at bit `3` only, which no set of devices
produces; each pass takes the 0-branch at its collision and leaves it as an
open branch point. -/
theorem scan_runs_forever_on_inconsistent_bus :
    (onewire_bus_scan adv_hw ow0 true 0 0xF0 (2 ^ 64 + 1)
      { hw := (false, 0), trace := [] }).1 = none ∧
    resets (onewire_bus_scan adv_hw ow0 true 0 0xF0 (2 ^ 64 + 1)
      { hw := (false, 0), trace := [] }).2.trace = 2 ^ 64 + 1 ∧
    Event.reset false ∉
      (onewire_bus_scan adv_hw ow0 true 0 0xF0 (2 ^ 64 + 1)
        { hw := (false, 0), trace := [] }).2.trace :=
  adv_scan_never_returns (2 ^ 64 + 1)

/-- C12, amended: the search terminates on a consistent bus. On the simulated
bus with the distinct 64-bit devices `S` (so `|S| ≤ 2^64`) the scan with
`maxdevs = 0` returns after exactly `|S|` passes: with fuel for `|S|` passes or
more it returns `|S|`, having made `|S|` resets. -/
theorem scan_terminates_on_consistent_bus (ow : onewire_instance_t) (has_list : Bool)
    (cmd : Nat) (S : List Nat) (hS : S ≠ []) (hnd : S.Nodup) (hS64 : ∀ d ∈ S, d < 2 ^ 64) :
    S.length ≤ 2 ^ 64 ∧
    ∀ fuel : Nat, S.length ≤ fuel →
      (onewire_bus_scan sim_hw ow has_list 0 cmd fuel (sim_world S)).1 = some (S.length : Int) ∧
      resets (onewire_bus_scan sim_hw ow has_list 0 cmd fuel (sim_world S)).2.trace =
        S.length := by
  refine ⟨?_, ?_⟩
  · have := (List.subperm_of_subset hnd
      (fun x hx => List.mem_range.2 (hS64 x hx))).length_le
    rwa [List.length_range] at this
  · intro fuel hfuel
    obtain ⟨ids, hret, _, _, hlen, _, _, hres⟩ :=
      sim_scan ow has_list 0 cmd S hS hnd hS64 (le_refl 0) fuel hfuel
    rw [if_pos rfl] at hlen
    have hl : ids.length = S.length := by exact_mod_cast hlen
    exact ⟨by rw [hret, hl], by rw [hres, hl]⟩

set_option maxRecDepth 100000 in
/-- Three devices are found in three passes. -/
theorem scan_terminates_on_consistent_bus_witness :
    (([6, 1, 4] : List Nat) ≠ [] ∧ ([6, 1, 4] : List Nat).Nodup ∧
      (∀ d ∈ ([6, 1, 4] : List Nat), d < 2 ^ 64)) ∧
    (onewire_bus_scan sim_hw ow0 true 0 0xF0 2 (sim_world [6, 1, 4])).1 = none ∧
    ([6, 1, 4] : List Nat).length ≤ 2 ^ 64 ∧
    ∀ fuel : Nat, ([6, 1, 4] : List Nat).length ≤ fuel →
      (onewire_bus_scan sim_hw ow0 true 0 0xF0 fuel (sim_world [6, 1, 4])).1 =
        some (([6, 1, 4] : List Nat).length : Int) ∧
      resets (onewire_bus_scan sim_hw ow0 true 0 0xF0 fuel (sim_world [6, 1, 4])).2.trace =
        ([6, 1, 4] : List Nat).length :=
  ⟨⟨by decide, by decide, by decide⟩, by rfl,
    scan_terminates_on_consistent_bus ow0 true 0xF0 [6, 1, 4] (by decide) (by decide)
      (by decide)⟩

/-! ## Theorems: creating an instance -/

/-- C11 fails on the code: when the PIO is out of state machines,
`pio_claim_unused_sm (pio, false)` returns `-1`, which the code stores in the
unsigned `sm`; the test `sm >= 0` then holds, and `onewire_init` allocates an
instance with `sm = 4294967295`, starts the driver on it and returns it instead
of `NULL`. -/
theorem init_out_of_state_machines :
    (busy_sdk.pio_claim_unused_sm 0 ()).1 = -1 ∧
    (onewire_init busy_sdk 0 15 (init_state ())).1 =
      some (0, { sm := 4294967295, offset := 0, jmp_reset := 0, gpio := 15 }) ∧
    (onewire_init busy_sdk 0 15 (init_state ())).2.allocated = 1 ∧
    (onewire_init busy_sdk 0 15 (init_state ())).2.started = [(0, 4294967295, 0, 15, 8)] := by
  refine ⟨rfl, ?_, ?_, ?_⟩ <;> rfl

section Init

variable {σ : Type} (K : Sdk σ)

/-- With `pio_num ≥ NUM_PIOS`, `onewire_init` returns `NULL` and does nothing. -/
theorem init_bad_pio (pio_num gpio : Nat) (st : InitState σ) (h : K.NUM_PIOS ≤ pio_num) :
    onewire_init K pio_num gpio st = (none, st) := by
  unfold onewire_init
  rw [if_neg (by omega)]

/-- When the driver is not yet installed and `pio_add_program` returns a
negative offset that fits an `int8_t`, `onewire_init` returns `NULL`, allocates
no instance and does not start the driver. -/
theorem init_out_of_program_space (pio_num gpio : Nat) (st : InitState σ)
    (h : pio_num < K.NUM_PIOS) (hinst : st.driver_is_installed pio_num = false)
    (hneg : (K.pio_add_program pio_num (K.pio_claim_unused_sm pio_num st.hw).2).1 < 0)
    (hfit : -128 ≤ (K.pio_add_program pio_num (K.pio_claim_unused_sm pio_num st.hw).2).1) :
    (onewire_init K pio_num gpio st).1 = none ∧
    (onewire_init K pio_num gpio st).2.allocated = st.allocated ∧
    (onewire_init K pio_num gpio st).2.started = st.started := by
  have h8 : ¬(to_int8 (K.pio_add_program pio_num (K.pio_claim_unused_sm pio_num st.hw).2).1
      ≥ 0) := by
    unfold to_int8; omega
  unfold onewire_init
  simp only [h, if_true, ge_iff_le, Nat.zero_le, hinst, Bool.not_false, Function.update_same,
    h8, if_false, and_self]

/-- Whatever `pio_claim_unused_sm` returns, also `-1`, `onewire_init` goes on:
when the driver is already installed it returns an instance whose `sm` is the
returned value converted to `uint`, and starts the driver on it. -/
theorem init_ignores_claim_failure (pio_num gpio : Nat) (st : InitState σ)
    (h : pio_num < K.NUM_PIOS) (hinst : st.driver_is_installed pio_num = true)
    (hoff : 0 ≤ st.driver_offset pio_num) :
    (onewire_init K pio_num gpio st).1 =
      some (pio_num,
        { sm := to_uint (K.pio_claim_unused_sm pio_num st.hw).1,
          offset := st.driver_offset pio_num,
          jmp_reset := K.onewire_driver_reset_instr (st.driver_offset pio_num),
          gpio := gpio }) ∧
    (onewire_init K pio_num gpio st).2.allocated = st.allocated + 1 ∧
    (onewire_init K pio_num gpio st).2.started = st.started ++
      [(pio_num, to_uint (K.pio_claim_unused_sm pio_num st.hw).1, st.driver_offset pio_num,
        gpio, 8)] := by
  unfold onewire_init
  simp only [h, if_true, ge_iff_le, Nat.zero_le, hinst, Bool.not_true, Bool.false_eq_true,
    if_false, hoff, and_self]

end Init

/-! ## Theorems: the driver mode -/

section Generic

variable {σ : Type} (H : Hw σ) (ow : onewire_instance_t)

theorem probe_read (w : World (Nat × Bool × σ)) (h : w.hw.1 = 1 ∧ w.hw.2.1 = true) :
    (onewire_read (probe_hw H) ow w).2.hw.1 = 1 ∧
    (onewire_read (probe_hw H) ow w).2.hw.2.1 = true := by
  simp [onewire_read, probe_hw, h.1, h.2]

theorem probe_send (d : Nat) (w : World (Nat × Bool × σ)) (h : w.hw.1 = 1 ∧ w.hw.2.1 = true) :
    (onewire_send (probe_hw H) ow d w).hw.1 = 1 ∧
    (onewire_send (probe_hw H) ow d w).hw.2.1 = true := by
  simp [onewire_send, probe_hw, h.1, h.2]

theorem probe_reset (w : World (Nat × Bool × σ)) (h : w.hw.1 = 1 ∧ w.hw.2.1 = true) :
    (onewire_reset (probe_hw H) ow w).2.hw.1 = 1 ∧
    (onewire_reset (probe_hw H) ow w).2.hw.2.1 = true := by
  simp [onewire_reset, probe_hw, h.1, h.2]

theorem probe_send_command (cmd n : Nat) : ∀ (i : Nat) (w : World (Nat × Bool × σ)),
    (w.hw.1 = 1 ∧ w.hw.2.1 = true) →
    (send_command (probe_hw H) ow cmd n i w).hw.1 = 1 ∧
    (send_command (probe_hw H) ow cmd n i w).hw.2.1 = true := by
  induction n with
  | zero => intro i w h; exact h
  | succ n ih =>
    intro i w h
    rw [send_command]
    exact ih _ _ (probe_send H ow _ w h)

theorem probe_address_step (i : Nat) (l : Locals) (w : World (Nat × Bool × σ))
    (h : w.hw.1 = 1 ∧ w.hw.2.1 = true) :
    (address_step (probe_hw H) ow i l w).2.2.hw.1 = 1 ∧
    (address_step (probe_hw H) ow i l w).2.2.hw.2.1 = true := by
  have h2 := probe_read H ow _ (probe_read H ow w h)
  have hs := fun d => probe_send H ow d _ h2
  unfold address_step
  simp only []
  split_ifs
  all_goals first | exact hs 1 | exact hs 0 | exact h2

theorem probe_address_loop (n : Nat) : ∀ (i : Nat) (l : Locals) (w : World (Nat × Bool × σ)),
    (w.hw.1 = 1 ∧ w.hw.2.1 = true) →
    (address_loop (probe_hw H) ow n i l w).2.hw.1 = 1 ∧
    (address_loop (probe_hw H) ow n i l w).2.hw.2.1 = true := by
  induction n with
  | zero => intro i l w h; exact h
  | succ n ih =>
    intro i l w h
    rw [address_loop]
    split
    · exact ih _ _ _ (probe_address_step H ow i l w h)
    · exact probe_address_step H ow i l w h

/-- On the probed hardware every word is exchanged and every instruction is
executed in 1-bit mode, and the mode on return is 8 bits. -/
theorem probe_scan (has_list : Bool) (maxdevs : Int) (cmd fuel m0 : Nat) (s : σ) (n : Int)
    (h : (onewire_bus_scan (probe_hw H) ow has_list maxdevs cmd fuel
      { hw := (m0, true, s), trace := [] }).1 = some n) :
    (onewire_bus_scan (probe_hw H) ow has_list maxdevs cmd fuel
      { hw := (m0, true, s), trace := [] }).2.hw.1 = 8 ∧
    (onewire_bus_scan (probe_hw H) ow has_list maxdevs cmd fuel
      { hw := (m0, true, s), trace := [] }).2.hw.2.1 = true := by
  obtain ⟨l0, w0, hI, hc⟩ := scan_cases (probe_hw H) ow has_list maxdevs cmd
    (fun _ w => w.hw.1 = 1 ∧ w.hw.2.1 = true) { hw := (m0, true, s), trace := [] }
    ⟨rfl, rfl⟩
    (by
      intro l w hI _ hp
      rw [scan_pass_fst] at hp
      rw [(scan_pass_locals (probe_hw H) ow has_list (cmd % 256) l w hp).2]
      exact probe_address_loop H ow 64 0 _ _
        (probe_send_command H ow (cmd % 256) 8 0 _ (probe_reset H ow w hI)))
    fuel
  rcases hc with ⟨_, h2⟩ | ⟨_, h2⟩ | ⟨_, _, h2⟩
  · rw [h2] at h; cases h
  · rw [h2]; exact ⟨rfl, hI.2⟩
  · rw [h2]; exact ⟨rfl, (probe_reset H ow w0 hI).2⟩

/-- C5: byte mode is restored on every exit path. Whenever the scan returns:
its trace is the switch to 1-bit mode, then events none of which is a mode
switch, then the switch to 8-bit mode; the hardware state on return is the
result of `onewire_driver_init (pio, sm, offset, gpio, 8)`, applied to the
state left by the `while` loop, which started from the result of
`onewire_driver_init (pio, sm, offset, gpio, 1)`; and on the same hardware with
a probe of the mode, whenever the scan returns, every word was exchanged and
every instruction executed in 1-bit mode and the mode on return is 8 bits. -/
theorem scan_restores_byte_mode (has_list : Bool) (maxdevs : Int) (cmd fuel : Nat) (s : σ)
    (n : Int)
    (h : (onewire_bus_scan H ow has_list maxdevs cmd fuel { hw := s, trace := [] }).1 = some n) :
    (∃ mid, (onewire_bus_scan H ow has_list maxdevs cmd fuel { hw := s, trace := [] }).2.trace =
        Event.driver_init 1 :: (mid ++ [Event.driver_init 8]) ∧
      ∀ e ∈ mid, ∀ bits, e ≠ Event.driver_init bits) ∧
    (onewire_bus_scan H ow has_list maxdevs cmd fuel { hw := s, trace := [] }).2.hw =
      H.onewire_driver_init ow.sm ow.offset ow.gpio 8
        (scan_loop H ow has_list maxdevs (cmd % 256) fuel locals_init
          { hw := H.onewire_driver_init ow.sm ow.offset ow.gpio 1 s,
            trace := [Event.driver_init 1] }).2.hw ∧
    (∀ (m0 : Nat) (k : Int),
      (onewire_bus_scan (probe_hw H) ow has_list maxdevs cmd fuel
        { hw := (m0, true, s), trace := [] }).1 = some k →
      (onewire_bus_scan (probe_hw H) ow has_list maxdevs cmd fuel
        { hw := (m0, true, s), trace := [] }).2.hw.1 = 8 ∧
      (onewire_bus_scan (probe_hw H) ow has_list maxdevs cmd fuel
        { hw := (m0, true, s), trace := [] }).2.hw.2.1 = true) := by
  refine ⟨scan_mode_trace H ow has_list maxdevs cmd fuel s n h, ?_,
    fun m0 k hk => probe_scan H ow has_list maxdevs cmd fuel m0 s k hk⟩
  unfold onewire_bus_scan at h ⊢
  simp only [] at h ⊢
  cases hr : (scan_loop H ow has_list maxdevs (cmd % 256) fuel locals_init
      (driver_init H ow 1 { hw := s, trace := [] })).1 with
  | none => rw [hr] at h; cases h
  | some l => rfl

end Generic

set_option maxRecDepth 100000 in
/-- A scan that finds one device, started in 8-bit mode: it returns in 8-bit
mode, and every transaction was made in 1-bit mode. -/
theorem scan_restores_byte_mode_witness :
    (onewire_bus_scan sim_hw ow0 true 0 0xF0 3 { hw := (sim_world [5]).hw, trace := [] }).1 =
      some 1 ∧
    (onewire_bus_scan (probe_hw sim_hw) ow0 true 0 0xF0 3
      { hw := (8, true, (sim_world [5]).hw), trace := [] }).1 = some 1 ∧
    ((∃ mid, (onewire_bus_scan sim_hw ow0 true 0 0xF0 3
        { hw := (sim_world [5]).hw, trace := [] }).2.trace =
        Event.driver_init 1 :: (mid ++ [Event.driver_init 8]) ∧
      ∀ e ∈ mid, ∀ bits, e ≠ Event.driver_init bits) ∧
    (onewire_bus_scan sim_hw ow0 true 0 0xF0 3 { hw := (sim_world [5]).hw, trace := [] }).2.hw =
      sim_hw.onewire_driver_init ow0.sm ow0.offset ow0.gpio 8
        (scan_loop sim_hw ow0 true 0 (0xF0 % 256) 3 locals_init
          { hw := sim_hw.onewire_driver_init ow0.sm ow0.offset ow0.gpio 1 (sim_world [5]).hw,
            trace := [Event.driver_init 1] }).2.hw ∧
    (∀ (m0 : Nat) (k : Int),
      (onewire_bus_scan (probe_hw sim_hw) ow0 true 0 0xF0 3
        { hw := (m0, true, (sim_world [5]).hw), trace := [] }).1 = some k →
      (onewire_bus_scan (probe_hw sim_hw) ow0 true 0 0xF0 3
        { hw := (m0, true, (sim_world [5]).hw), trace := [] }).2.hw.1 = 8 ∧
      (onewire_bus_scan (probe_hw sim_hw) ow0 true 0 0xF0 3
        { hw := (m0, true, (sim_world [5]).hw), trace := [] }).2.hw.2.1 = true)) :=
  ⟨rfl, rfl, scan_restores_byte_mode sim_hw ow0 true 0 0xF0 3 (sim_world [5]).hw 1 rfl⟩

end Onewire
